import Mathlib

/-!
Verification development for the ijson crate: a shallow embedding of the
core data structures (compact number, growable array, order-preserving
hash object, interned string, tagged value handle) together with proofs
of the specified properties.

Machine integers are modelled as Nat/Int with explicit bounds; finite
IEEE-754 doubles are modelled as the exact rational numbers they denote;
fallible operations return Option/Except, where an Except error models a
Rust panic.
-/

namespace Ijson

/-! ## Growable array (src/array.rs)

The array stores a capacity and a length inside its heap allocation, with
the elements following.  We model the logical content: the capacity and
the list of items.  The element type is a parameter (elements are moved,
never inspected, by the array operations). -/

/-- Model of slice rotate_left(1): the first element moves to the back. -/
def rotl1 {α : Type} : List α → List α
  | [] => []
  | x :: xs => xs ++ [x]

/-- Model of slice rotate_right(1): the last element moves to the front. -/
def rotr1 {α : Type} (l : List α) : List α :=
  match l.getLast? with
  | none => l
  | some x => x :: l.dropLast

structure IArray (α : Type) where
  cap : ℕ
  items : List α
  deriving DecidableEq

namespace IArray

variable {α : Type}

/-- IArray::new — the static empty array (capacity 0, no allocation). -/
def new : IArray α := ⟨0, []⟩

/-- IArray::with_capacity. -/
def with_capacity (cap : ℕ) : IArray α :=
  if cap = 0 then new else ⟨cap, []⟩

/-- IArray::len. -/
def len (a : IArray α) : ℕ := a.items.length

/-- IArray::is_static — true exactly when the capacity is zero. -/
def is_static (a : IArray α) : Bool := a.cap = 0

/-- IArray::as_slice. -/
def as_slice (a : IArray α) : List α := a.items

/-- IArray::resize_internal: a static source or a zero target capacity
reallocates from scratch, otherwise the buffer is reallocated keeping the
items. -/
def resize_internal (a : IArray α) (cap : ℕ) : IArray α :=
  if a.is_static ∨ cap = 0 then with_capacity cap
  else ⟨cap, a.items⟩

/-- IArray::reserve. -/
def reserve (a : IArray α) (additional : ℕ) : IArray α :=
  if a.cap ≥ a.len + additional then a
  else a.resize_internal (max (a.cap * 2) (max (a.len + additional) 4))

/-- Header::push (space must have been reserved). -/
def pushRaw (a : IArray α) (item : α) : IArray α :=
  ⟨a.cap, a.items ++ [item]⟩

/-- Header::pop. -/
def popRaw (a : IArray α) : IArray α × Option α :=
  if a.items.length = 0 then (a, none)
  else (⟨a.cap, a.items.dropLast⟩, a.items.getLast?)

/-- IArray::push. -/
def push (a : IArray α) (item : α) : IArray α :=
  (a.reserve 1).pushRaw item

/-- IArray::pop. -/
def pop (a : IArray α) : IArray α × Option α :=
  if a.is_static then (a, none) else a.popRaw

/-- IArray::insert.  The `assert!(index <= hd.len)` is modelled by the
Except error (a panic).  After the push the suffix starting at `index` is
rotated right by one. -/
def insert (a : IArray α) (index : ℕ) (item : α) : Except Unit (IArray α) :=
  if index ≤ (a.reserve 1).len then
    if index < ((a.reserve 1).pushRaw item).len then
      .ok ⟨((a.reserve 1).pushRaw item).cap,
           ((a.reserve 1).pushRaw item).items.take index ++
             rotr1 (((a.reserve 1).pushRaw item).items.drop index)⟩
    else .ok ((a.reserve 1).pushRaw item)
  else .error ()

/-- IArray::remove: out-of-range indices return None and leave the array
untouched; otherwise the suffix is rotated left by one and the last item
popped. -/
def remove (a : IArray α) (index : ℕ) : IArray α × Option α :=
  if index < a.len then
    (⟨a.cap, (a.items.take index ++ rotl1 (a.items.drop index)).dropLast⟩,
      (a.items.take index ++ rotl1 (a.items.drop index)).getLast?)
  else (a, none)

/-- Item list produced by swapping the item at the index with the last
item (the swap performed by IArray::swap_remove before popping). -/
def swapItems (a : IArray α) (index : ℕ) (h : index < a.len) : List α :=
  (a.items.set index (a.items.getLast (fun hnil => by
    unfold len at h
    rw [hnil] at h
    simp at h))).set (a.items.length - 1)
    (a.items.get ⟨index, by unfold len at h; exact h⟩)

/-- IArray::swap_remove: out-of-range indices return None and leave the
array untouched; otherwise the item is swapped with the last one, which is
then popped. -/
def swap_remove (a : IArray α) (index : ℕ) : IArray α × Option α :=
  if h : index < a.len then
    (⟨a.cap, (swapItems a index h).dropLast⟩, (swapItems a index h).getLast?)
  else (a, none)

/-- IArray::truncate. -/
def truncate (a : IArray α) (n : ℕ) : IArray α :=
  if a.is_static then a else ⟨a.cap, a.items.take n⟩

/-- IArray::shrink_to_fit. -/
def shrink_to_fit (a : IArray α) : IArray α :=
  a.resize_internal a.len

/-- Representation invariant maintained by every constructor: the length
never exceeds the capacity (in particular the static empty array holds no
items). -/
def wf (a : IArray α) : Prop := a.items.length ≤ a.cap

instance (a : IArray α) : Decidable a.wf := by unfold wf; infer_instance

theorem wf_new : (new : IArray α).wf := by simp [new, wf]

theorem items_nil_of_cap_zero (a : IArray α) (h : a.wf) (hc : a.cap = 0) :
    a.items = [] := by
  have := h
  unfold wf at this
  rw [hc, Nat.le_zero, List.length_eq_zero] at this
  exact this

theorem reserve_target_pos (a : IArray α) (n : ℕ) :
    0 < max (a.cap * 2) (max (a.len + n) 4) := by
  have h4 : 4 ≤ max (a.len + n) 4 := le_max_right _ _
  have := le_max_right (a.cap * 2) (max (a.len + n) 4)
  omega

theorem reserve_target_ge (a : IArray α) (n : ℕ) :
    a.len + n ≤ max (a.cap * 2) (max (a.len + n) 4) := by
  have h1 : a.len + n ≤ max (a.len + n) 4 := le_max_left _ _
  have := le_max_right (a.cap * 2) (max (a.len + n) 4)
  omega

theorem items_reserve (a : IArray α) (h : a.wf) (n : ℕ) :
    (a.reserve n).items = a.items := by
  unfold reserve
  split
  · rfl
  · unfold resize_internal
    split
    · rename_i hst
      have hnil : a.items = [] := by
        rcases hst with hst | hst
        · exact items_nil_of_cap_zero a h (by simpa [is_static] using hst)
        · exact absurd hst (by have := reserve_target_pos a n; omega)
      unfold with_capacity new
      split <;> simp [hnil]
    · rfl

theorem wf_reserve (a : IArray α) (h : a.wf) (n : ℕ) : (a.reserve n).wf := by
  unfold reserve
  split
  · exact h
  · unfold resize_internal
    split
    · rename_i hst
      have hnil : a.items = [] := by
        rcases hst with hst | hst
        · exact items_nil_of_cap_zero a h (by simpa [is_static] using hst)
        · exact absurd hst (by have := reserve_target_pos a n; omega)
      unfold with_capacity new wf
      split <;> simp [hnil]
    · unfold wf
      have h1 := reserve_target_ge a n
      simp only [len] at h1 ⊢
      omega

theorem rotr1_append_singleton (l : List α) (x : α) :
    rotr1 (l ++ [x]) = x :: l := by
  simp [rotr1, List.getLast?_concat]

/-- Functional characterisation of insert at a valid index: the result is
the list with the item placed at the index. -/
theorem insert_ok (a : IArray α) (h : a.wf) (index : ℕ) (item : α)
    (hle : index ≤ a.len) :
    a.insert index item =
      .ok ⟨(a.reserve 1).cap, a.items.take index ++ item :: a.items.drop index⟩ := by
  unfold insert
  have hitems : (a.reserve 1).items = a.items := items_reserve a h 1
  rw [if_pos (by simp only [len, hitems]; exact hle)]
  rw [if_pos (by simp [len, pushRaw, hitems]; simp [len] at hle; omega)]
  simp only [pushRaw, hitems]
  have hdrop : (a.items ++ [item]).drop index = a.items.drop index ++ [item] := by
    rw [List.drop_append_of_le_length (by simpa [len] using hle)]
  have htake : (a.items ++ [item]).take index = a.items.take index := by
    rw [List.take_append_of_le_length (by simpa [len] using hle)]
  rw [hdrop, htake, rotr1_append_singleton]

/-- Functional characterisation of remove at a valid index after an
insert-shaped list. -/
theorem remove_of_shape (cap : ℕ) (pre post : List α) (item : α)
    (index : ℕ) (hpre : pre.length = index) :
    remove ⟨cap, pre ++ item :: post⟩ index = (⟨cap, pre ++ post⟩, some item) := by
  unfold remove
  rw [if_pos (by simp [len]; omega)]
  have hdrop : (pre ++ item :: post).drop index = item :: post := by
    rw [List.drop_append_of_le_length (by omega)]
    simp [hpre]
  have htake : (pre ++ item :: post).take index = pre := by
    rw [List.take_append_of_le_length (by omega)]
    simp [hpre]
  rw [hdrop, htake]
  simp only [rotl1]
  rw [show pre ++ (post ++ [item]) = (pre ++ post) ++ [item] from
    (List.append_assoc _ _ _).symm]
  rw [List.dropLast_concat, List.getLast?_concat]

theorem rotl1_length (l : List α) : (rotl1 l).length = l.length := by
  cases l <;> simp [rotl1]

theorem remove_in_bounds (a : IArray α) (index : ℕ) (hlt : index < a.len) :
    ∃ a' x, a.remove index = (a', some x) := by
  unfold remove
  rw [if_pos hlt]
  have hlen : (a.items.take index ++ rotl1 (a.items.drop index)).length
      = a.items.length := by
    rw [List.length_append, rotl1_length, List.length_take, List.length_drop]
    unfold len at hlt
    omega
  have hne : a.items.take index ++ rotl1 (a.items.drop index) ≠ [] := by
    intro hnil
    rw [hnil] at hlen
    unfold len at hlt
    simp at hlen
    omega
  rcases Option.isSome_iff_exists.mp (List.getLast?_isSome.mpr hne) with ⟨x, hx⟩
  exact ⟨_, x, by rw [hx]⟩

theorem swap_remove_in_bounds (a : IArray α) (index : ℕ) (hlt : index < a.len) :
    ∃ a' x, a.swap_remove index = (a', some x) := by
  unfold swap_remove
  rw [dif_pos hlt]
  have hlen : (swapItems a index hlt).length = a.items.length := by
    unfold swapItems
    simp
  have hne : swapItems a index hlt ≠ [] := by
    intro hnil
    rw [hnil] at hlen
    unfold len at hlt
    simp at hlen
    omega
  rcases Option.isSome_iff_exists.mp (List.getLast?_isSome.mpr hne) with ⟨x, hx⟩
  exact ⟨_, x, by rw [hx]⟩

end IArray

/-- Claim C8: IArray::insert asserts that the index is at most the current
length and panics (models: returns an error) when it exceeds it, while
IArray::remove and IArray::swap_remove require the index to be strictly
less than the length, and on an out-of-range index return None — rather
than panicking — leaving the array unchanged. -/
theorem C8_array_insert_remove_bounds {α : Type} (a : IArray α) (h : a.wf)
    (i : ℕ) (v : α) :
    ((i ≤ a.len → ∃ a', a.insert i v = .ok a') ∧
      (a.len < i → a.insert i v = .error ())) ∧
    ((a.len ≤ i → a.remove i = (a, none) ∧ a.swap_remove i = (a, none)) ∧
      (i < a.len → (∃ a' x, a.remove i = (a', some x)) ∧
        (∃ a' x, a.swap_remove i = (a', some x)))) := by
  refine ⟨⟨fun hle => ⟨_, IArray.insert_ok a h i v hle⟩, fun hgt => ?_⟩,
    ⟨fun hge => ⟨?_, ?_⟩, fun hlt => ⟨IArray.remove_in_bounds a i hlt,
      IArray.swap_remove_in_bounds a i hlt⟩⟩⟩
  · unfold IArray.insert
    rw [if_neg]
    rw [IArray.len, IArray.items_reserve a h 1]
    unfold IArray.len at hgt
    omega
  · unfold IArray.remove
    rw [if_neg (by omega)]
  · unfold IArray.swap_remove
    rw [dif_neg (by omega)]

/-- Witness for C8 at a concrete array: inserting at index 3 into a
two-element array panics, removing at index 5 returns None and leaves the
array unchanged. -/
theorem C8_witness :
    (IArray.mk 2 [5, 7] : IArray ℕ).insert 3 0 = .error () ∧
      (IArray.mk 2 [5, 7] : IArray ℕ).remove 5 = (IArray.mk 2 [5, 7], none) := by
  have h := C8_array_insert_remove_bounds (IArray.mk 2 [5, 7] : IArray ℕ)
    (by decide) 3 0
  refine ⟨h.1.2 (by decide), ?_⟩
  have h5 := C8_array_insert_remove_bounds (IArray.mk 2 [5, 7] : IArray ℕ)
    (by decide) 5 0
  exact (h5.2.1 (by decide)).1

/-- Claim C9: for every array, every index at most the length, and every
item, inserting the item at the index and then removing at the same index
returns the inserted item and restores as_slice() to exactly the
pre-insert sequence of elements. -/
theorem C9_insert_remove_roundtrip {α : Type} (a : IArray α) (h : a.wf)
    (i : ℕ) (v : α) (hle : i ≤ a.len) :
    ∃ a', a.insert i v = .ok a' ∧
      ((a'.remove i).1.as_slice = a.as_slice ∧ (a'.remove i).2 = some v) := by
  refine ⟨_, IArray.insert_ok a h i v hle, ?_⟩
  have hpre : (a.items.take i).length = i := by
    rw [List.length_take]
    unfold IArray.len at hle
    omega
  rw [IArray.remove_of_shape _ _ _ _ _ hpre]
  simp [IArray.as_slice, List.take_append_drop]

/-- Witness for C9 at a concrete array: inserting 9 at index 1 of [5, 7]
and removing index 1 yields 9 back and the slice [5, 7]. -/
theorem C9_witness :
    ∃ a', (IArray.mk 2 [5, 7] : IArray ℕ).insert 1 9 = .ok a' ∧
      ((a'.remove 1).1.as_slice = (IArray.mk 2 [5, 7] : IArray ℕ).as_slice ∧
        (a'.remove 1).2 = some 9) :=
  C9_insert_remove_roundtrip (IArray.mk 2 [5, 7] : IArray ℕ) (by decide) 1 9
    (by decide)

/-! ## Bit-level helpers (src/number.rs)

Models of u64::leading_zeros and u64::trailing_zeros, defined by
fuel-bounded structural recursion so that they evaluate by kernel
reduction. -/

/-- Binary length of a natural number, bounded by the fuel (64 for u64). -/
def sizeAux : ℕ → ℕ → ℕ
  | 0, _ => 0
  | fuel + 1, x => if x = 0 then 0 else sizeAux fuel (x / 2) + 1

/-- Position one past the highest set bit of a u64 value. -/
def size64 (x : ℕ) : ℕ := sizeAux 64 x

/-- u64::leading_zeros. -/
def leadingZeros64 (x : ℕ) : ℕ := 64 - size64 x

/-- Count of trailing zero bits of a nonzero value, fuel-bounded. -/
def tzAux : ℕ → ℕ → ℕ
  | 0, _ => 0
  | fuel + 1, x => if x % 2 = 0 ∧ x ≠ 0 then tzAux fuel (x / 2) + 1 else 0

/-- u64::trailing_zeros (64 on zero, like Rust). -/
def trailingZeros64 (x : ℕ) : ℕ := if x = 0 then 64 else tzAux 64 x

/-- can_represent_as_f64 from number.rs: x.leading_zeros() +
x.trailing_zeros() >= 11. -/
def can_represent_as_f64 (x : ℕ) : Bool := 11 ≤ leadingZeros64 x + trailingZeros64 x

/-- can_represent_as_f32 from number.rs: x.leading_zeros() +
x.trailing_zeros() >= 40. -/
def can_represent_as_f32 (x : ℕ) : Bool := 40 ≤ leadingZeros64 x + trailingZeros64 x

theorem sizeAux_lt (fuel x : ℕ) (h : x < 2 ^ fuel) : x < 2 ^ sizeAux fuel x := by
  induction fuel generalizing x with
  | zero => simpa [sizeAux] using h
  | succ fuel ih =>
    unfold sizeAux
    split
    · omega
    · rename_i hx
      have hdiv : x / 2 < 2 ^ fuel := by
        rw [pow_succ] at h
        omega
      have := ih (x / 2) hdiv
      rw [pow_succ]
      omega

theorem sizeAux_zero (fuel : ℕ) : sizeAux fuel 0 = 0 := by
  cases fuel <;> simp [sizeAux]

theorem sizeAux_le (fuel x : ℕ) (hx : x ≠ 0) (h : x < 2 ^ fuel) :
    2 ^ (sizeAux fuel x - 1) ≤ x ∧ 1 ≤ sizeAux fuel x := by
  induction fuel generalizing x with
  | zero => omega
  | succ fuel ih =>
    unfold sizeAux
    rw [if_neg hx]
    by_cases hdz : x / 2 = 0
    · have hx1 : x = 1 := by omega
      subst hx1
      simp [hdz, sizeAux_zero]
    · have hdiv : x / 2 < 2 ^ fuel := by
        rw [pow_succ] at h
        omega
      have ⟨h1, h2⟩ := ih (x / 2) hdz hdiv
      refine ⟨?_, by omega⟩
      have : sizeAux fuel (x / 2) + 1 - 1 = (sizeAux fuel (x / 2) - 1) + 1 := by omega
      rw [this, pow_succ]
      omega

theorem sizeAux_le_fuel (fuel x : ℕ) : sizeAux fuel x ≤ fuel := by
  induction fuel generalizing x with
  | zero => simp [sizeAux]
  | succ fuel ih =>
    unfold sizeAux
    split
    · omega
    · have := ih (x / 2)
      omega

theorem tzAux_spec (fuel x : ℕ) (hx : x ≠ 0) (h : x < 2 ^ fuel) :
    ∃ m, x = m * 2 ^ tzAux fuel x ∧ m % 2 = 1 := by
  induction fuel generalizing x with
  | zero => omega
  | succ fuel ih =>
    unfold tzAux
    by_cases he : x % 2 = 0 ∧ x ≠ 0
    · rw [if_pos he]
      have hdz : x / 2 ≠ 0 := by omega
      have hdiv : x / 2 < 2 ^ fuel := by
        rw [pow_succ] at h
        omega
      obtain ⟨m, hm, hodd⟩ := ih (x / 2) hdz hdiv
      refine ⟨m, ?_, hodd⟩
      rw [pow_succ]
      calc x = 2 * (x / 2) := by omega
      _ = 2 * (m * 2 ^ tzAux fuel (x / 2)) := by rw [← hm]
      _ = m * (2 ^ tzAux fuel (x / 2) * 2) := by ring
    · rw [if_neg he]
      exact ⟨x, by simp, by omega⟩

/-- Generic form of the can_represent tests: the sum of leading and
trailing zero counts bounds the significant span, which is equivalent to a
mantissa-exponent decomposition with a mantissa below the precision. -/
theorem canRep_iff (c : ℕ) (hc : c ≤ 64) (x : ℕ) (hx : x < 2 ^ 64) :
    (64 - c ≤ leadingZeros64 x + trailingZeros64 x) ↔
      ∃ m e : ℕ, x = m * 2 ^ e ∧ m < 2 ^ c := by
  by_cases hz : x = 0
  · subst hz
    constructor
    · intro _
      exact ⟨0, 0, by simp, by positivity⟩
    · intro _
      simp [leadingZeros64, trailingZeros64]
      omega
  · have hs1 := sizeAux_lt 64 x hx
    have hs2 := sizeAux_le 64 x hz hx
    have hs3 := sizeAux_le_fuel 64 x
    obtain ⟨m0, hm0, hodd⟩ := tzAux_spec 64 x hz hx
    rw [leadingZeros64, trailingZeros64, if_neg hz]
    rw [size64] at *
    set s := sizeAux 64 x with hs
    set t := tzAux 64 x with ht
    have hst : t < s := by
      by_contra hcon
      push_neg at hcon
      have h2t : 2 ^ t ≤ x := by
        calc 2 ^ t = 1 * 2 ^ t := by ring
        _ ≤ m0 * 2 ^ t := by
              have : 1 ≤ m0 := by
                rcases Nat.eq_zero_or_pos m0 with h0 | h0
                · subst h0; simp at hm0; omega
                · exact h0
              exact Nat.mul_le_mul_right _ this
        _ = x := hm0.symm
      have : 2 ^ s ≤ 2 ^ t := Nat.pow_le_pow_right (by norm_num) hcon
      omega
    constructor
    · intro hcount
      refine ⟨m0, t, hm0, ?_⟩
      have hms : m0 * 2 ^ t < 2 ^ s := by omega
      have : m0 < 2 ^ (s - t) := by
        have hpow : 2 ^ s = 2 ^ (s - t) * 2 ^ t := by
          rw [← pow_add]
          congr 1
          omega
        rw [hpow] at hms
        exact Nat.lt_of_mul_lt_mul_right hms
      calc m0 < 2 ^ (s - t) := this
      _ ≤ 2 ^ c := Nat.pow_le_pow_right (by norm_num) (by omega)
    · rintro ⟨m, e, hme, hmc⟩
      -- e ≤ t because x / 2^t is odd
      have het : e ≤ t := by
        by_contra hcon
        push_neg at hcon
        have : m0 * 2 ^ t = m * 2 ^ (e - t) * 2 ^ t := by
          rw [← hm0, hme, mul_assoc, ← pow_add]
          congr 2
          omega
        have hm0eq : m0 = m * 2 ^ (e - t) := by
          have h2t : 0 < 2 ^ t := Nat.pos_pow_of_pos t (by norm_num)
          exact Nat.eq_of_mul_eq_mul_right h2t this
        have : 2 ∣ m0 := by
          rw [hm0eq]
          have : (2 : ℕ) ∣ 2 ^ (e - t) := dvd_pow_self 2 (by omega)
          exact Dvd.dvd.mul_left this m
        omega
      have hm0ne : m ≠ 0 := by
        intro h0
        rw [h0] at hme
        simp at hme
        omega
      have hsle : s ≤ c + e := by
        have : x < 2 ^ (c + e) := by
          rw [hme, pow_add]
          exact (Nat.mul_lt_mul_right (Nat.pos_pow_of_pos e (by norm_num))).mpr hmc
        have h21 : 2 ^ (s - 1) ≤ x := hs2.1
        by_contra hcon
        push_neg at hcon
        have : 2 ^ (c + e) ≤ 2 ^ (s - 1) := Nat.pow_le_pow_right (by norm_num) (by omega)
        omega
      omega

/-! ## Exact models of IEEE-754 values and casts

A finite double (or single) value is modelled by the exact rational it
denotes.  Casts between numeric types are modelled by round-to-nearest,
ties-to-even at the target precision. -/

/-- Exact mantissa-exponent representability at a given precision with a
given minimum (subnormal) exponent. -/
def isRep (prec : ℕ) (emin : ℤ) (q : ℚ) : Prop :=
  ∃ m e : ℤ, q = (m : ℚ) * 2 ^ e ∧ m.natAbs < 2 ^ prec ∧ emin ≤ e

/-- The exact rational values of finite IEEE-754 binary64 numbers. -/
def isF64 (q : ℚ) : Prop := isRep 53 (-1074) q ∧ |q| < 2 ^ 1024

/-- The exact rational values of finite IEEE-754 binary32 numbers. -/
def isF32 (q : ℚ) : Prop := isRep 24 (-149) q ∧ |q| < 2 ^ 128

/-- Round a rational to an integer, ties to even. -/
def rndHalfEven (s : ℚ) : ℤ :=
  if s - ⌊s⌋ < 1 / 2 then ⌊s⌋
  else if 1 / 2 < s - ⌊s⌋ then ⌊s⌋ + 1
  else if 2 ∣ ⌊s⌋ then ⌊s⌋ else ⌊s⌋ + 1

/-- Exponent of the unit in the last place used when rounding q at the
given precision and minimum exponent. -/
def ulpExp (prec : ℕ) (emin : ℤ) (q : ℚ) : ℤ :=
  max (Int.log 2 |q| - ((prec : ℤ) - 1)) emin

/-- IEEE-754 round-to-nearest-even of a rational at a precision and
minimum exponent (no overflow handling). -/
def roundRat (prec : ℕ) (emin : ℤ) (q : ℚ) : ℚ :=
  if q = 0 then 0
  else (rndHalfEven (q / 2 ^ ulpExp prec emin q) : ℚ) * 2 ^ ulpExp prec emin q

theorem rndHalfEven_intCast (n : ℤ) : rndHalfEven (n : ℚ) = n := by
  unfold rndHalfEven
  rw [Int.floor_intCast]
  rw [if_pos (by norm_num)]

theorem abs_eq_natAbs_mul_zpow (m e : ℤ) :
    |(m : ℚ) * 2 ^ e| = (m.natAbs : ℚ) * 2 ^ e := by
  rw [abs_mul, abs_of_pos (zpow_pos (by norm_num : (0:ℚ) < 2) e)]
  congr 1
  rw [Int.cast_natAbs, Int.cast_abs]

theorem ulpExp_le_of_rep {prec : ℕ} {emin : ℤ} {q : ℚ} (hq : q ≠ 0)
    {m e : ℤ} (hme : q = (m : ℚ) * 2 ^ e) (hm : m.natAbs < 2 ^ prec)
    (he : emin ≤ e) : ulpExp prec emin q ≤ e := by
  unfold ulpExp
  rw [max_le_iff]
  refine ⟨?_, he⟩
  have hlog : Int.log 2 |q| < e + prec := by
    rw [← Int.lt_zpow_iff_log_lt (by norm_num) (abs_pos.mpr hq)]
    rw [hme, abs_eq_natAbs_mul_zpow]
    calc (m.natAbs : ℚ) * 2 ^ e < (2 ^ prec : ℚ) * 2 ^ e := by
          have : (m.natAbs : ℚ) < (2 ^ prec : ℕ) := by exact_mod_cast hm
          push_cast at this ⊢
          have hp : (0 : ℚ) < 2 ^ e := zpow_pos (by norm_num) e
          exact mul_lt_mul_of_pos_right this hp
    _ = 2 ^ (e + (prec : ℤ)) := by
          rw [zpow_add₀ (by norm_num : (2:ℚ) ≠ 0)]
          norm_num
          ring
  omega

theorem roundRat_eq_self {prec : ℕ} {emin : ℤ} {q : ℚ}
    (h : isRep prec emin q) : roundRat prec emin q = q := by
  unfold roundRat
  by_cases hq : q = 0
  · rw [if_pos hq, hq]
  · rw [if_neg hq]
    obtain ⟨m, e, hme, hm, he⟩ := h
    have hue : ulpExp prec emin q ≤ e := ulpExp_le_of_rep hq hme hm he
    set u := ulpExp prec emin q with hu
    have hint : q / 2 ^ u = ((m * 2 ^ (e - u).toNat : ℤ) : ℚ) := by
      rw [hme]
      push_cast
      rw [div_eq_iff (by positivity : (2:ℚ) ^ u ≠ 0)]
      rw [mul_assoc, ← zpow_natCast (2:ℚ), ← zpow_add₀ (by norm_num : (2:ℚ) ≠ 0)]
      congr 2
      omega
    rw [hint, rndHalfEven_intCast]
    rw [← hint]
    field_simp

theorem isRep_of_roundRat_eq {prec : ℕ} {emin : ℤ} {q : ℚ}
    (h : roundRat prec emin q = q) : isRep prec emin q := by
  by_cases hq : q = 0
  · exact ⟨0, emin, by simp [hq], by positivity, le_refl _⟩
  · unfold roundRat at h
    rw [if_neg hq] at h
    set u := ulpExp prec emin q with hu
    refine ⟨rndHalfEven (q / 2 ^ u), u, h.symm, ?_, le_max_right _ _⟩
    have habs : |q| = (((rndHalfEven (q / 2 ^ u)).natAbs : ℚ)) * 2 ^ u := by
      conv_lhs => rw [← h]
      exact abs_eq_natAbs_mul_zpow _ _
    have hlt : |q| < 2 ^ (u + (prec : ℤ)) := by
      have h1 : |q| < 2 ^ (Int.log 2 |q| + 1) :=
        Int.lt_zpow_succ_log_self (by norm_num) _
      have h2 : Int.log 2 |q| + 1 ≤ u + prec := by
        have : Int.log 2 |q| - ((prec : ℤ) - 1) ≤ u := le_max_left _ _
        omega
      calc |q| < 2 ^ (Int.log 2 |q| + 1) := h1
      _ ≤ 2 ^ (u + (prec : ℤ)) := by
            apply zpow_le_zpow_right₀ (by norm_num) h2
    rw [habs, zpow_add₀ (by norm_num : (2:ℚ) ≠ 0), mul_comm ((2:ℚ) ^ u)] at hlt
    have hp : (0 : ℚ) ≤ 2 ^ u := le_of_lt (zpow_pos (by norm_num) u)
    have hA : ((rndHalfEven (q / 2 ^ u)).natAbs : ℚ) < 2 ^ (prec : ℤ) :=
      lt_of_mul_lt_mul_right hlt hp
    have h2 : ((2 : ℚ) ^ (prec : ℤ)) = ((2 ^ prec : ℕ) : ℚ) := by
      push_cast
      norm_num
    rw [h2] at hA
    exact_mod_cast hA

/-- Representability round-trip characterisation: rounding is the identity
exactly on representable rationals. -/
theorem roundRat_eq_self_iff (prec : ℕ) (emin : ℤ) (q : ℚ) :
    roundRat prec emin q = q ↔ isRep prec emin q :=
  ⟨isRep_of_roundRat_eq, roundRat_eq_self⟩

/-- Integers with a small absolute value are representable. -/
theorem isRep_int (prec : ℕ) (emin : ℤ) (hemin : emin ≤ 0) (x : ℤ)
    (h : x.natAbs < 2 ^ prec) : isRep prec emin (x : ℚ) :=
  ⟨x, 0, by simp, h, hemin⟩

/-- Bridge between the bit-counting test of the source and exact
representability, for u64 values. -/
theorem canRep_iff_isRep (c : ℕ) (hc : c ≤ 64) (emin : ℤ) (hemin : emin ≤ 0)
    (x : ℕ) (hx : x < 2 ^ 64) :
    (64 - c ≤ leadingZeros64 x + trailingZeros64 x) ↔ isRep c emin (x : ℚ) := by
  rw [canRep_iff c hc x hx]
  constructor
  · rintro ⟨m, e, hme, hmc⟩
    refine ⟨(m : ℤ), (e : ℤ), ?_, by simpa using hmc, by omega⟩
    rw [hme]
    push_cast
    rw [zpow_natCast]
  · rintro ⟨m, e, hme, hmc, hemin2⟩
    rcases le_or_lt 0 e with hepos | heneg
    · have hx2 : (x : ℤ) = m * 2 ^ e.toNat := by
        have : ((x : ℤ) : ℚ) = ((m * 2 ^ e.toNat : ℤ) : ℚ) := by
          push_cast
          rw [hme]
          congr 1
          rw [← zpow_natCast (2:ℚ)]
          congr 1
          omega
        exact_mod_cast this
      have hmpos : 0 ≤ m := by
        by_contra hneg
        push_neg at hneg
        have : (x : ℤ) < 0 := by
          rw [hx2]
          have : (0:ℤ) < 2 ^ e.toNat := by positivity
          exact mul_neg_of_neg_of_pos hneg this
        omega
      refine ⟨m.toNat, e.toNat, ?_, ?_⟩
      · have : (x : ℤ) = (m.toNat : ℤ) * 2 ^ e.toNat := by
          rw [hx2]
          congr 1
          omega
        exact_mod_cast this
      · have : m.natAbs = m.toNat := by omega
        omega
    · -- negative exponent: the value itself is below the precision bound
      have hsmall : x < 2 ^ c := by
        have h1 : |(x : ℚ)| = (m.natAbs : ℚ) * 2 ^ e := by
          rw [hme, abs_eq_natAbs_mul_zpow]
        have h2 : ((2:ℚ)) ^ e ≤ 1 := by
          apply zpow_le_one_of_nonpos₀ (by norm_num) (by omega)
        have h3 : |(x : ℚ)| ≤ (m.natAbs : ℚ) := by
          rw [h1]
          calc (m.natAbs : ℚ) * 2 ^ e ≤ (m.natAbs : ℚ) * 1 := by
                apply mul_le_mul_of_nonneg_left h2 (by positivity)
          _ = (m.natAbs : ℚ) := by ring
        have h4 : (x : ℚ) ≤ (m.natAbs : ℚ) := by
          calc (x : ℚ) ≤ |(x : ℚ)| := le_abs_self _
          _ ≤ _ := h3
        have h5 : x ≤ m.natAbs := by exact_mod_cast h4
        omega
      exact ⟨x, 0, by simp, hsmall⟩

/-- A representable value of magnitude above the precision bound is an
integer (the tail of cmp_u64_to_f64 relies on this). -/
theorem rep_large_is_int {prec : ℕ} {emin : ℤ} {q : ℚ}
    (h : isRep prec emin q) (hlarge : (2 ^ prec : ℚ) < |q|) :
    ∃ n : ℤ, q = (n : ℚ) := by
  obtain ⟨m, e, hme, hm, he⟩ := h
  rcases le_or_lt 0 e with hepos | heneg
  · refine ⟨m * 2 ^ e.toNat, ?_⟩
    rw [hme]
    push_cast
    congr 1
    rw [← zpow_natCast (2:ℚ)]
    congr 1
    omega
  · exfalso
    have h1 : |q| = (m.natAbs : ℚ) * 2 ^ e := by
      rw [hme, abs_eq_natAbs_mul_zpow]
    have h2 : ((2:ℚ)) ^ e ≤ 1 := by
      apply zpow_le_one_of_nonpos₀ (by norm_num) (by omega)
    have h3 : |q| ≤ (m.natAbs : ℚ) := by
      rw [h1]
      calc (m.natAbs : ℚ) * 2 ^ e ≤ (m.natAbs : ℚ) * 1 := by
            apply mul_le_mul_of_nonneg_left h2 (by positivity)
      _ = (m.natAbs : ℚ) := by ring
    have h4 : (m.natAbs : ℚ) < (2 ^ prec : ℚ) := by
      have : ((m.natAbs : ℕ) : ℚ) < ((2 ^ prec : ℕ) : ℚ) := by exact_mod_cast hm
      push_cast at this
      exact_mod_cast this
    linarith

/-! ## Compact number (src/number.rs) -/

/-- Result of an f64→f32 cast: a finite value or an infinity. -/
inductive F32 where
  | finite (q : ℚ)
  | inf
  | neginf
  deriving DecidableEq

/-- Rust u64→f64 as-cast: round to nearest, ties to even. -/
def u64_as_f64 (a : ℕ) : ℚ := roundRat 53 (-1074) (a : ℚ)

/-- Rust i64→f64 as-cast. -/
def i64_as_f64 (a : ℤ) : ℚ := roundRat 53 (-1074) (a : ℚ)

/-- Rust i32→f32 as-cast. -/
def i32_as_f32 (a : ℤ) : ℚ := roundRat 24 (-149) (a : ℚ)

/-- Rust i64→f32 as-cast (no overflow below 2^64 < 2^128). -/
def i64_as_f32 (a : ℤ) : ℚ := roundRat 24 (-149) (a : ℚ)

/-- Rust u64→f32 as-cast. -/
def u64_as_f32 (a : ℕ) : ℚ := roundRat 24 (-149) (a : ℚ)

/-- Rust f64→u64 as-cast: truncation toward zero, saturating. -/
def f64_as_u64 (b : ℚ) : ℕ :=
  if (2 ^ 64 : ℚ) ≤ b then 2 ^ 64 - 1 else (⌊b⌋).toNat

/-- Rust f64→f32 as-cast: round to the target precision, overflowing past
2^128 to an infinity. -/
def f64_as_f32 (v : ℚ) : F32 :=
  if |roundRat 24 (-149) v| < 2 ^ 128 then .finite (roundRat 24 (-149) v)
  else if 0 < v then .inf else .neginf

/-- Internal encoding of an INumber: the NumberType tag together with the
payload stored behind the header (static i16, 24-bit integer, i64, u64 or
f64; the f64 payload is the exact rational value of the stored double). -/
inductive INumber where
  | static (v : ℤ)
  | i24 (v : ℤ)
  | i64 (v : ℤ)
  | u64 (v : ℕ)
  | f64 (v : ℚ)
  deriving DecidableEq

namespace INumber

def STATIC_LOWER : ℤ := -128

def STATIC_UPPER : ℤ := 384

def SHORT_LOWER : ℤ := -0x800000

def SHORT_UPPER : ℤ := 0x800000

/-- INumber::new_static (value must be in the static range). -/
def new_static (v : ℤ) : INumber := .static v

/-- INumber::new_short (value must fit in an i24). -/
def new_short (value : ℤ) : INumber :=
  if STATIC_LOWER ≤ value ∧ value < STATIC_UPPER then new_static value
  else .i24 value

/-- INumber::new_i64. -/
def new_i64 (value : ℤ) : INumber :=
  if SHORT_LOWER ≤ value ∧ value < SHORT_UPPER then new_short value
  else .i64 value

/-- INumber::new_u64. -/
def new_u64 (value : ℕ) : INumber :=
  if (value : ℤ) ≤ 2 ^ 63 - 1 then new_i64 (value : ℤ) else .u64 value

/-- INumber::new_f64 (the caller has already checked finiteness). -/
def new_f64 (value : ℚ) : INumber := .f64 value

/-- Header::to_i64.  For the F64 encoding the source requires
`v.fract() == 0.0 && v > i64::MIN as f64 && v < i64::MAX as f64`; the two
constant casts evaluate to -2^63 and 2^63 (i64::MAX rounds up). -/
def to_i64 : INumber → Option ℤ
  | .static v => some v
  | .i24 v => some v
  | .i64 v => some v
  | .u64 v => if (v : ℤ) ≤ 2 ^ 63 - 1 then some (v : ℤ) else none
  | .f64 v =>
      if v.den = 1 ∧ -(2 ^ 63 : ℚ) < v ∧ v < (2 ^ 63 : ℚ) then some v.num
      else none

/-- Header::to_u64.  For the F64 encoding the source requires
`v.fract() == 0.0 && v > 0.0 && v < u64::MAX as f64`; the constant cast
evaluates to 2^64 (u64::MAX rounds up). -/
def to_u64 : INumber → Option ℕ
  | .static v => if 0 ≤ v then some v.toNat else none
  | .i24 v => if 0 ≤ v then some v.toNat else none
  | .i64 v => if 0 ≤ v then some v.toNat else none
  | .u64 v => some v
  | .f64 v =>
      if v.den = 1 ∧ 0 < v ∧ v < (2 ^ 64 : ℚ) then some v.num.toNat
      else none

/-- Header::to_f64.  f64::from on i16 and on 24-bit integers is exact; the
64-bit branches are guarded by can_represent_as_f64 on the magnitude
(using wrapping negation for negative values). -/
def to_f64 : INumber → Option ℚ
  | .static v => some (v : ℚ)
  | .i24 v => some (v : ℚ)
  | .i64 v =>
      if (if v < 0 then can_represent_as_f64 (-v).toNat
          else can_represent_as_f64 v.toNat)
      then some (i64_as_f64 v) else none
  | .u64 v => if can_represent_as_f64 v then some (u64_as_f64 v) else none
  | .f64 v => some v

/-- The F64 branch of Header::to_f32: cast to f32 and keep the result
when the round trip compares equal. -/
def to_f32F64 (v : ℚ) : Option ℚ :=
  match f64_as_f32 v with
  | .finite r => if v = r then some r else none
  | .inf => none
  | .neginf => none

/-- Header::to_f32.  f32::from on i16 is exact, the 24-bit branch is an
as-cast, the 64-bit branches are guarded by can_represent_as_f32, and the
F64 branch casts to f32 and compares the round trip. -/
def to_f32 : INumber → Option ℚ
  | .static v => some (v : ℚ)
  | .i24 v => some (i32_as_f32 v)
  | .i64 v =>
      if (if v < 0 then can_represent_as_f32 (-v).toNat
          else can_represent_as_f32 v.toNat)
      then some (i64_as_f32 v) else none
  | .u64 v => if can_represent_as_f32 v then some (u64_as_f32 v) else none
  | .f64 v => to_f32F64 v

/-- Header::has_decimal_point. -/
def has_decimal_point : INumber → Bool
  | .f64 _ => true
  | _ => false

/-- Header::to_f64_lossy. -/
def to_f64_lossy : INumber → ℚ
  | .static v => v
  | .i24 v => v
  | .i64 v => i64_as_f64 v
  | .u64 v => u64_as_f64 v
  | .f64 v => v

/-- INumber::to_f32_lossy = self.to_f64_lossy() as f32. -/
def to_f32_lossy (n : INumber) : F32 := f64_as_f32 n.to_f64_lossy

/-- INumber::to_i32 (to_i64 and_then i32::try_from). -/
def to_i32 (n : INumber) : Option ℤ :=
  n.to_i64.bind (fun x => if -(2 ^ 31) ≤ x ∧ x < 2 ^ 31 then some x else none)

/-- INumber::to_u32 (to_u64 and_then u32::try_from). -/
def to_u32 (n : INumber) : Option ℕ :=
  n.to_u64.bind (fun x => if x < 2 ^ 32 then some x else none)

/-- INumber::to_isize on a 64-bit platform: isize::try_from on an i64
always succeeds. -/
def to_isize (n : INumber) : Option ℤ := n.to_i64

/-- INumber::to_usize on a 64-bit platform: usize::try_from on a u64
always succeeds. -/
def to_usize (n : INumber) : Option ℕ := n.to_u64

/-- The exact rational value represented by a number. -/
def toRat : INumber → ℚ
  | .static v => v
  | .i24 v => v
  | .i64 v => v
  | .u64 v => v
  | .f64 v => v

/-- Whether the encoding is NumberType::F64. -/
def isF64enc : INumber → Bool
  | .f64 _ => true
  | _ => false

/-- Encoding invariant established by the constructors: each encoding is
used only for the value range the constructors route to it, and F64 stores
a finite double value. -/
def wf : INumber → Prop
  | .static v => STATIC_LOWER ≤ v ∧ v < STATIC_UPPER
  | .i24 v => (SHORT_LOWER ≤ v ∧ v < SHORT_UPPER) ∧
      ¬(STATIC_LOWER ≤ v ∧ v < STATIC_UPPER)
  | .i64 v => (-(2 ^ 63) ≤ v ∧ v ≤ 2 ^ 63 - 1) ∧
      ¬(SHORT_LOWER ≤ v ∧ v < SHORT_UPPER)
  | .u64 v => 2 ^ 63 - 1 < (v : ℤ) ∧ v < 2 ^ 64
  | .f64 v => isF64 v

end INumber

/-- Exact representability of a rational in i64. -/
def repI64 (q : ℚ) : Prop := q.den = 1 ∧ -(2 ^ 63) ≤ q.num ∧ q.num < 2 ^ 63

/-- Exact representability of a rational in u64. -/
def repU64 (q : ℚ) : Prop := q.den = 1 ∧ 0 ≤ q.num ∧ q.num < 2 ^ 64

/-- Exact representability of a rational in i32. -/
def repI32 (q : ℚ) : Prop := q.den = 1 ∧ -(2 ^ 31) ≤ q.num ∧ q.num < 2 ^ 31

/-- Exact representability of a rational in u32. -/
def repU32 (q : ℚ) : Prop := q.den = 1 ∧ 0 ≤ q.num ∧ q.num < 2 ^ 32

instance (q : ℚ) : Decidable (repI64 q) := by unfold repI64; infer_instance

instance (q : ℚ) : Decidable (repU64 q) := by unfold repU64; infer_instance

instance (q : ℚ) : Decidable (repI32 q) := by unfold repI32; infer_instance

instance (q : ℚ) : Decidable (repU32 q) := by unfold repU32; infer_instance

theorem eq_num_of_den_one {q : ℚ} (h : q.den = 1) : q = (q.num : ℚ) := by
  exact_mod_cast (Rat.den_eq_one_iff q).mp h |>.symm

theorem repI64_intCast (v : ℤ) : repI64 (v : ℚ) ↔ -(2 ^ 63) ≤ v ∧ v < 2 ^ 63 := by
  unfold repI64
  rw [Rat.den_intCast, Rat.num_intCast]
  simp

theorem repU64_intCast (v : ℤ) : repU64 (v : ℚ) ↔ 0 ≤ v ∧ v < 2 ^ 64 := by
  unfold repU64
  rw [Rat.den_intCast, Rat.num_intCast]
  simp

theorem repI32_intCast (v : ℤ) : repI32 (v : ℚ) ↔ -(2 ^ 31) ≤ v ∧ v < 2 ^ 31 := by
  unfold repI32
  rw [Rat.den_intCast, Rat.num_intCast]
  simp

theorem repU32_intCast (v : ℤ) : repU32 (v : ℚ) ↔ 0 ≤ v ∧ v < 2 ^ 32 := by
  unfold repU32
  rw [Rat.den_intCast, Rat.num_intCast]
  simp

theorem isRep_neg (prec : ℕ) (emin : ℤ) {q : ℚ} (h : isRep prec emin q) :
    isRep prec emin (-q) := by
  obtain ⟨m, e, hme, hm, he⟩ := h
  exact ⟨-m, e, by rw [hme]; push_cast; ring, by simpa using hm, he⟩

theorem isRep_neg_iff (prec : ℕ) (emin : ℤ) (q : ℚ) :
    isRep prec emin (-q) ↔ isRep prec emin q :=
  ⟨fun h => by simpa using isRep_neg prec emin h, isRep_neg prec emin⟩

/-- isF64 for a small integer value. -/
theorem isF64_intCast_small (v : ℤ) (h : v.natAbs < 2 ^ 53) : isF64 (v : ℚ) := by
  refine ⟨isRep_int 53 (-1074) (by norm_num) v h, ?_⟩
  rw [← Int.cast_abs]
  have h1 : |v| < 2 ^ 53 := by
    rw [Int.abs_eq_natAbs]
    exact_mod_cast h
  calc ((|v| : ℤ) : ℚ) < ((2 ^ 53 : ℤ) : ℚ) := by exact_mod_cast h1
  _ < 2 ^ 1024 := by norm_num

/-- isF32 for a small integer value. -/
theorem isF32_intCast_small (v : ℤ) (h : v.natAbs < 2 ^ 24) : isF32 (v : ℚ) := by
  refine ⟨isRep_int 24 (-149) (by norm_num) v h, ?_⟩
  rw [← Int.cast_abs]
  have h1 : |v| < 2 ^ 24 := by
    rw [Int.abs_eq_natAbs]
    exact_mod_cast h
  calc ((|v| : ℤ) : ℚ) < ((2 ^ 24 : ℤ) : ℚ) := by exact_mod_cast h1
  _ < 2 ^ 128 := by norm_num

/-- The source guard for converting an i64 to a float, written on the
magnitude with wrapping negation, decides exact representability. -/
theorem i64_guard_iff (c : ℕ) (hc : c ≤ 64) (emin : ℤ) (hemin : emin ≤ 0)
    (v : ℤ) (hv : v.natAbs ≤ 2 ^ 63) :
    ((if v < 0 then 64 - c ≤ leadingZeros64 (-v).toNat + trailingZeros64 (-v).toNat
      else 64 - c ≤ leadingZeros64 v.toNat + trailingZeros64 v.toNat) ↔
      isRep c emin (v : ℚ)) := by
  split
  · rename_i hneg
    have habs : (-v).toNat = v.natAbs := by omega
    rw [habs]
    rw [canRep_iff_isRep c hc emin hemin v.natAbs (by
      have h64 : (2:ℕ) ^ 63 < 2 ^ 64 := by norm_num
      omega)]
    have hcast : ((v.natAbs : ℕ) : ℚ) = -(v : ℚ) := by
      have h1 : (v.natAbs : ℤ) = -v := by omega
      calc ((v.natAbs : ℕ) : ℚ) = (((v.natAbs : ℤ)) : ℚ) := (Int.cast_natCast _).symm
      _ = ((-v : ℤ) : ℚ) := by rw [h1]
      _ = -(v : ℚ) := by push_cast; ring
    rw [hcast, isRep_neg_iff]
  · rename_i hpos
    have habs : v.toNat = v.natAbs := by omega
    rw [habs]
    rw [canRep_iff_isRep c hc emin hemin v.natAbs (by
      have h64 : (2:ℕ) ^ 63 < 2 ^ 64 := by norm_num
      omega)]
    have hcast : ((v.natAbs : ℕ) : ℚ) = (v : ℚ) := by
      have h1 : (v.natAbs : ℤ) = v := by omega
      calc ((v.natAbs : ℕ) : ℚ) = (((v.natAbs : ℤ)) : ℚ) := (Int.cast_natCast _).symm
      _ = (v : ℚ) := by rw [h1]
    rw [hcast]



theorem isSome_ite {α : Type} {P : Prop} [Decidable P] {x : α} :
    (if P then some x else none).isSome = true ↔ P := by
  split <;> rename_i h <;> simp [h]

theorem can_represent_as_f64_iff (x : ℕ) :
    can_represent_as_f64 x = true ↔
      11 ≤ leadingZeros64 x + trailingZeros64 x := by
  unfold can_represent_as_f64
  exact decide_eq_true_iff

theorem can_represent_as_f32_iff (x : ℕ) :
    can_represent_as_f32 x = true ↔
      40 ≤ leadingZeros64 x + trailingZeros64 x := by
  unfold can_represent_as_f32
  exact decide_eq_true_iff

theorem isF64_iff_isRep_small {q : ℚ} (h : |q| < 2 ^ 1024) :
    isF64 q ↔ isRep 53 (-1074) q := by
  unfold isF64
  exact ⟨fun hh => hh.1, fun hh => ⟨hh, h⟩⟩

theorem isF32_iff_isRep_small {q : ℚ} (h : |q| < 2 ^ 128) :
    isF32 q ↔ isRep 24 (-149) q := by
  unfold isF32
  exact ⟨fun hh => hh.1, fun hh => ⟨hh, h⟩⟩

theorem abs_intCast_le {v : ℤ} {c : ℕ} (h : v.natAbs ≤ c) :
    |(v : ℚ)| ≤ (c : ℚ) := by
  rw [← Int.cast_abs]
  have h1 : |v| ≤ (c : ℤ) := by
    rw [Int.abs_eq_natAbs]
    exact_mod_cast h
  exact_mod_cast h1

namespace INumber

theorem to_i64_spec (n : INumber) (h : n.wf) :
    ((n.to_i64.isSome = true ↔
        repI64 n.toRat ∧ ¬(n.isF64enc = true ∧ n.toRat = -(2 ^ 63 : ℚ))) ∧
      ∀ x, n.to_i64 = some x → (x : ℚ) = n.toRat) := by
  cases n with
  | static v =>
    unfold wf STATIC_LOWER STATIC_UPPER at h
    refine ⟨?_, ?_⟩
    · simp only [to_i64, toRat, isF64enc, repI64_intCast, Option.isSome_some]
      simp only [Bool.false_eq_true, false_and, not_false_eq_true, and_true]
      exact ⟨fun _ => by omega, fun _ => trivial⟩
    · intro x hx
      simp only [to_i64] at hx
      injection hx with hx
      rw [← hx]
      rfl
  | i24 v =>
    unfold wf SHORT_LOWER SHORT_UPPER at h
    refine ⟨?_, ?_⟩
    · simp only [to_i64, toRat, isF64enc, repI64_intCast, Option.isSome_some]
      simp only [Bool.false_eq_true, false_and, not_false_eq_true, and_true]
      exact ⟨fun _ => by omega, fun _ => trivial⟩
    · intro x hx
      simp only [to_i64] at hx
      injection hx with hx
      rw [← hx]
      rfl
  | i64 v =>
    unfold wf SHORT_LOWER SHORT_UPPER at h
    refine ⟨?_, ?_⟩
    · simp only [to_i64, toRat, isF64enc, repI64_intCast, Option.isSome_some]
      simp only [Bool.false_eq_true, false_and, not_false_eq_true, and_true]
      exact ⟨fun _ => by omega, fun _ => trivial⟩
    · intro x hx
      simp only [to_i64] at hx
      injection hx with hx
      rw [← hx]
      rfl
  | u64 v =>
    unfold wf at h
    refine ⟨?_, ?_⟩
    · simp only [to_i64, toRat, isF64enc]
      rw [if_neg (by omega)]
      simp only [Option.isSome_none, Bool.false_eq_true, false_iff]
      intro hcon
      have h1 : ((v : ℕ) : ℚ) = (((v : ℕ) : ℤ) : ℚ) := by push_cast; ring
      rw [h1, repI64_intCast] at hcon
      omega
    · intro x hx
      simp only [to_i64] at hx
      rw [if_neg (by omega)] at hx
      exact absurd hx (by simp)
  | f64 q =>
    refine ⟨?_, ?_⟩
    · simp only [to_i64, toRat, isF64enc, isSome_ite, true_and]
      unfold repI64
      constructor
      · rintro ⟨hden, h1, h2⟩
        have hq := eq_num_of_den_one hden
        have h1n : -(2 ^ 63) < q.num := by
          have hc : ((-(2 ^ 63) : ℤ) : ℚ) < (q.num : ℚ) := by
            rw [← hq]
            push_cast
            exact h1
          exact_mod_cast hc
        have h2n : q.num < 2 ^ 63 := by
          have hc : (q.num : ℚ) < ((2 ^ 63 : ℤ) : ℚ) := by
            rw [← hq]
            push_cast
            exact h2
          exact_mod_cast hc
        refine ⟨⟨hden, by omega, h2n⟩, ?_⟩
        intro heq
        rw [heq] at h1
        exact lt_irrefl _ h1
      · rintro ⟨⟨hden, h1, h2⟩, hne⟩
        have hq := eq_num_of_den_one hden
        have hne2 : q.num ≠ -(2 ^ 63) := by
          intro heq
          apply hne
          rw [hq, heq]
          push_cast
          ring
        refine ⟨hden, ?_, ?_⟩
        · have hc : ((-(2 ^ 63) : ℤ) : ℚ) < (q.num : ℚ) := by
            exact_mod_cast (show -(2 ^ 63) < q.num by omega)
          rw [← hq] at hc
          calc (-(2 ^ 63 : ℚ)) = ((-(2 ^ 63) : ℤ) : ℚ) := by push_cast; ring
          _ < q := hc
        · have hc : (q.num : ℚ) < ((2 ^ 63 : ℤ) : ℚ) := by exact_mod_cast h2
          rw [← hq] at hc
          calc q < ((2 ^ 63 : ℤ) : ℚ) := hc
          _ = (2 ^ 63 : ℚ) := by push_cast; ring
    · intro x hx
      simp only [to_i64] at hx
      split at hx
      · rename_i hcond
        injection hx with hx
        rw [← hx, toRat]
        exact (eq_num_of_den_one hcond.1).symm
      · exact absurd hx (by simp)

theorem to_u64_spec (n : INumber) (h : n.wf) :
    ((n.to_u64.isSome = true ↔
        repU64 n.toRat ∧ ¬(n.isF64enc = true ∧ n.toRat = 0)) ∧
      ∀ x, n.to_u64 = some x → (x : ℚ) = n.toRat) := by
  cases n with
  | static v =>
    unfold wf STATIC_LOWER STATIC_UPPER at h
    refine ⟨?_, ?_⟩
    · simp only [to_u64, toRat, isF64enc, isSome_ite, repU64_intCast]
      simp only [Bool.false_eq_true, false_and, not_false_eq_true, and_true]
      exact ⟨fun h0 => by omega, fun h0 => by omega⟩
    · intro x hx
      simp only [to_u64] at hx
      split at hx
      · rename_i h0
        injection hx with hx
        rw [← hx, toRat]
        have : (v.toNat : ℤ) = v := Int.toNat_of_nonneg h0
        exact_mod_cast congrArg (fun z : ℤ => (z : ℚ)) this
      · exact absurd hx (by simp)
  | i24 v =>
    unfold wf SHORT_LOWER SHORT_UPPER at h
    refine ⟨?_, ?_⟩
    · simp only [to_u64, toRat, isF64enc, isSome_ite, repU64_intCast]
      simp only [Bool.false_eq_true, false_and, not_false_eq_true, and_true]
      exact ⟨fun h0 => by omega, fun h0 => by omega⟩
    · intro x hx
      simp only [to_u64] at hx
      split at hx
      · rename_i h0
        injection hx with hx
        rw [← hx, toRat]
        have : (v.toNat : ℤ) = v := Int.toNat_of_nonneg h0
        exact_mod_cast congrArg (fun z : ℤ => (z : ℚ)) this
      · exact absurd hx (by simp)
  | i64 v =>
    unfold wf SHORT_LOWER SHORT_UPPER at h
    refine ⟨?_, ?_⟩
    · simp only [to_u64, toRat, isF64enc, isSome_ite, repU64_intCast]
      simp only [Bool.false_eq_true, false_and, not_false_eq_true, and_true]
      exact ⟨fun h0 => by omega, fun h0 => by omega⟩
    · intro x hx
      simp only [to_u64] at hx
      split at hx
      · rename_i h0
        injection hx with hx
        rw [← hx, toRat]
        have : (v.toNat : ℤ) = v := Int.toNat_of_nonneg h0
        exact_mod_cast congrArg (fun z : ℤ => (z : ℚ)) this
      · exact absurd hx (by simp)
  | u64 v =>
    unfold wf at h
    refine ⟨?_, ?_⟩
    · simp only [to_u64, toRat, isF64enc, Option.isSome_some]
      simp only [Bool.false_eq_true, false_and, not_false_eq_true, and_true]
      refine ⟨fun _ => ?_, fun _ => trivial⟩
      have h1 : ((v : ℕ) : ℚ) = (((v : ℕ) : ℤ) : ℚ) := by push_cast; ring
      rw [h1, repU64_intCast]
      omega
    · intro x hx
      simp only [to_u64] at hx
      injection hx with hx
      rw [← hx]
      rfl
  | f64 q =>
    refine ⟨?_, ?_⟩
    · simp only [to_u64, toRat, isF64enc, isSome_ite, true_and]
      unfold repU64
      constructor
      · rintro ⟨hden, h1, h2⟩
        have hq := eq_num_of_den_one hden
        have h1n : 0 < q.num := Rat.num_pos.mpr h1
        have h2n : q.num < 2 ^ 64 := by
          have hc : (q.num : ℚ) < ((2 ^ 64 : ℤ) : ℚ) := by
            rw [← hq]
            push_cast
            exact h2
          exact_mod_cast hc
        refine ⟨⟨hden, by omega, h2n⟩, ?_⟩
        intro heq
        rw [heq] at h1
        exact lt_irrefl _ h1
      · rintro ⟨⟨hden, h1, h2⟩, hne⟩
        have hq := eq_num_of_den_one hden
        have hne2 : q.num ≠ 0 := by
          intro heq
          apply hne
          rw [hq, heq]
          push_cast
          ring
        refine ⟨hden, Rat.num_pos.mp (by omega), ?_⟩
        have hc : (q.num : ℚ) < ((2 ^ 64 : ℤ) : ℚ) := by exact_mod_cast h2
        rw [← hq] at hc
        calc q < ((2 ^ 64 : ℤ) : ℚ) := hc
        _ = (2 ^ 64 : ℚ) := by push_cast; ring
    · intro x hx
      simp only [to_u64] at hx
      split at hx
      · rename_i hcond
        injection hx with hx
        rw [← hx, toRat]
        have h1n : 0 < q.num := Rat.num_pos.mpr hcond.2.1
        have h2 : (q.num.toNat : ℤ) = q.num := Int.toNat_of_nonneg (by omega)
        have h3 : ((q.num.toNat : ℕ) : ℚ) = (q.num : ℚ) :=
          by exact_mod_cast congrArg (fun z : ℤ => (z : ℚ)) h2
        rw [h3]
        exact (eq_num_of_den_one hcond.1).symm
      · exact absurd hx (by simp)

theorem to_i32_spec (n : INumber) (h : n.wf) :
    ((n.to_i32.isSome = true ↔ repI32 n.toRat) ∧
      ∀ x, n.to_i32 = some x → (x : ℚ) = n.toRat) := by
  cases n with
  | static v =>
    unfold wf STATIC_LOWER STATIC_UPPER at h
    refine ⟨?_, ?_⟩
    · simp only [to_i32, to_i64, toRat, repI32_intCast, Option.some_bind]
      rw [if_pos (by omega)]
      simp only [Option.isSome_some]
      exact ⟨fun _ => by omega, fun _ => trivial⟩
    · intro x hx
      simp only [to_i32, to_i64, Option.some_bind] at hx
      rw [if_pos (by omega)] at hx
      injection hx with hx
      rw [← hx]
      rfl
  | i24 v =>
    unfold wf SHORT_LOWER SHORT_UPPER at h
    refine ⟨?_, ?_⟩
    · simp only [to_i32, to_i64, toRat, repI32_intCast, Option.some_bind]
      rw [if_pos (by omega)]
      simp only [Option.isSome_some]
      exact ⟨fun _ => by omega, fun _ => trivial⟩
    · intro x hx
      simp only [to_i32, to_i64, Option.some_bind] at hx
      rw [if_pos (by omega)] at hx
      injection hx with hx
      rw [← hx]
      rfl
  | i64 v =>
    refine ⟨?_, ?_⟩
    · simp only [to_i32, to_i64, toRat, repI32_intCast, Option.some_bind, isSome_ite]
    · intro x hx
      simp only [to_i32, to_i64, Option.some_bind] at hx
      split at hx
      · injection hx with hx
        rw [← hx]
        rfl
      · exact absurd hx (by simp)
  | u64 v =>
    unfold wf at h
    refine ⟨?_, ?_⟩
    · simp only [to_i32, to_i64, toRat]
      rw [if_neg (by omega)]
      simp only [Option.none_bind, Option.isSome_none, Bool.false_eq_true, false_iff]
      intro hcon
      have h1 : ((v : ℕ) : ℚ) = (((v : ℕ) : ℤ) : ℚ) := by push_cast; ring
      rw [h1, repI32_intCast] at hcon
      omega
    · intro x hx
      simp only [to_i32, to_i64] at hx
      rw [if_neg (by omega)] at hx
      exact absurd hx (by simp)
  | f64 q =>
    refine ⟨?_, ?_⟩
    · by_cases hA : q.den = 1 ∧ -(2 ^ 63 : ℚ) < q ∧ q < (2 ^ 63 : ℚ)
      · simp only [to_i32, to_i64, toRat, if_pos hA, Option.some_bind, isSome_ite]
        obtain ⟨hden, hA1, hA2⟩ := hA
        unfold repI32
        exact ⟨fun ⟨h1, h2⟩ => ⟨hden, h1, h2⟩, fun ⟨_, h1, h2⟩ => ⟨h1, h2⟩⟩
      · simp only [to_i32, to_i64, toRat, if_neg hA, Option.none_bind]
        simp only [Option.isSome_none, Bool.false_eq_true, false_iff]
        intro hcon
        apply hA
        obtain ⟨hden, h1, h2⟩ := hcon
        have hq := eq_num_of_den_one hden
        refine ⟨hden, ?_, ?_⟩
        · have hc : ((-(2 ^ 63) : ℤ) : ℚ) < (q.num : ℚ) := by
            exact_mod_cast (show -(2 ^ 63) < q.num by omega)
          rw [← hq] at hc
          calc (-(2 ^ 63 : ℚ)) = ((-(2 ^ 63) : ℤ) : ℚ) := by push_cast; ring
          _ < q := hc
        · have hc : (q.num : ℚ) < ((2 ^ 63 : ℤ) : ℚ) := by
            exact_mod_cast (show q.num < 2 ^ 63 by omega)
          rw [← hq] at hc
          calc q < ((2 ^ 63 : ℤ) : ℚ) := hc
          _ = (2 ^ 63 : ℚ) := by push_cast; ring
    · intro x hx
      by_cases hA : q.den = 1 ∧ -(2 ^ 63 : ℚ) < q ∧ q < (2 ^ 63 : ℚ)
      · simp only [to_i32, to_i64, if_pos hA, Option.some_bind] at hx
        split at hx
        · injection hx with hx
          rw [← hx, toRat]
          exact (eq_num_of_den_one hA.1).symm
        · exact absurd hx (by simp)
      · simp only [to_i32, to_i64, if_neg hA, Option.none_bind] at hx
        exact absurd hx (by simp)

theorem to_u32_spec (n : INumber) (h : n.wf) :
    ((n.to_u32.isSome = true ↔
        repU32 n.toRat ∧ ¬(n.isF64enc = true ∧ n.toRat = 0)) ∧
      ∀ x, n.to_u32 = some x → (x : ℚ) = n.toRat) := by
  cases n with
  | static v =>
    unfold wf STATIC_LOWER STATIC_UPPER at h
    refine ⟨?_, ?_⟩
    · simp only [to_u32, to_u64, toRat, isF64enc, repU32_intCast]
      simp only [Bool.false_eq_true, false_and, not_false_eq_true, and_true]
      by_cases h0 : (0:ℤ) ≤ v
      · rw [if_pos h0]
        simp only [Option.some_bind, isSome_ite]
        omega
      · rw [if_neg h0]
        simp only [Option.none_bind, Option.isSome_none, Bool.false_eq_true, false_iff]
        omega
    · intro x hx
      by_cases h0 : (0:ℤ) ≤ v
      · simp only [to_u32, to_u64, if_pos h0, Option.some_bind] at hx
        split at hx
        · injection hx with hx
          rw [← hx, toRat]
          have h2 : (v.toNat : ℤ) = v := Int.toNat_of_nonneg h0
          exact_mod_cast congrArg (fun z : ℤ => (z : ℚ)) h2
        · exact absurd hx (by simp)
      · simp only [to_u32, to_u64, if_neg h0, Option.none_bind] at hx
        exact absurd hx (by simp)
  | i24 v =>
    unfold wf SHORT_LOWER SHORT_UPPER at h
    refine ⟨?_, ?_⟩
    · simp only [to_u32, to_u64, toRat, isF64enc, repU32_intCast]
      simp only [Bool.false_eq_true, false_and, not_false_eq_true, and_true]
      by_cases h0 : (0:ℤ) ≤ v
      · rw [if_pos h0]
        simp only [Option.some_bind, isSome_ite]
        omega
      · rw [if_neg h0]
        simp only [Option.none_bind, Option.isSome_none, Bool.false_eq_true, false_iff]
        omega
    · intro x hx
      by_cases h0 : (0:ℤ) ≤ v
      · simp only [to_u32, to_u64, if_pos h0, Option.some_bind] at hx
        split at hx
        · injection hx with hx
          rw [← hx, toRat]
          have h2 : (v.toNat : ℤ) = v := Int.toNat_of_nonneg h0
          exact_mod_cast congrArg (fun z : ℤ => (z : ℚ)) h2
        · exact absurd hx (by simp)
      · simp only [to_u32, to_u64, if_neg h0, Option.none_bind] at hx
        exact absurd hx (by simp)
  | i64 v =>
    refine ⟨?_, ?_⟩
    · simp only [to_u32, to_u64, toRat, isF64enc, repU32_intCast]
      simp only [Bool.false_eq_true, false_and, not_false_eq_true, and_true]
      by_cases h0 : (0:ℤ) ≤ v
      · rw [if_pos h0]
        simp only [Option.some_bind, isSome_ite]
        omega
      · rw [if_neg h0]
        simp only [Option.none_bind, Option.isSome_none, Bool.false_eq_true, false_iff]
        omega
    · intro x hx
      by_cases h0 : (0:ℤ) ≤ v
      · simp only [to_u32, to_u64, if_pos h0, Option.some_bind] at hx
        split at hx
        · injection hx with hx
          rw [← hx, toRat]
          have h2 : (v.toNat : ℤ) = v := Int.toNat_of_nonneg h0
          exact_mod_cast congrArg (fun z : ℤ => (z : ℚ)) h2
        · exact absurd hx (by simp)
      · simp only [to_u32, to_u64, if_neg h0, Option.none_bind] at hx
        exact absurd hx (by simp)
  | u64 v =>
    unfold wf at h
    refine ⟨?_, ?_⟩
    · simp only [to_u32, to_u64, toRat, isF64enc, Option.some_bind]
      rw [if_neg (by omega)]
      simp only [Option.isSome_none, Bool.false_eq_true, false_iff]
      intro hcon
      have hcon1 := hcon.1
      have h1 : ((v : ℕ) : ℚ) = (((v : ℕ) : ℤ) : ℚ) := by push_cast; ring
      rw [h1, repU32_intCast] at hcon1
      omega
    · intro x hx
      simp only [to_u32, to_u64, Option.some_bind] at hx
      rw [if_neg (by omega)] at hx
      exact absurd hx (by simp)
  | f64 q =>
    refine ⟨?_, ?_⟩
    · by_cases hA : q.den = 1 ∧ 0 < q ∧ q < (2 ^ 64 : ℚ)
      · simp only [to_u32, to_u64, toRat, isF64enc, if_pos hA, Option.some_bind,
          isSome_ite, true_and]
        obtain ⟨hden, hA1, hA2⟩ := hA
        have hq := eq_num_of_den_one hden
        have h1n : 0 < q.num := Rat.num_pos.mpr hA1
        unfold repU32
        constructor
        · intro h1
          refine ⟨⟨hden, by omega, by omega⟩, ?_⟩
          intro heq
          rw [heq] at hA1
          exact lt_irrefl _ hA1
        · rintro ⟨⟨_, h1, h2⟩, _⟩
          omega
      · simp only [to_u32, to_u64, toRat, isF64enc, if_neg hA, Option.none_bind, true_and]
        simp only [Option.isSome_none, Bool.false_eq_true, false_iff]
        rintro ⟨⟨hden, h1, h2⟩, hne⟩
        apply hA
        have hq := eq_num_of_den_one hden
        have hne2 : q.num ≠ 0 := by
          intro heq
          apply hne
          rw [hq, heq]
          push_cast
          ring
        refine ⟨hden, Rat.num_pos.mp (by omega), ?_⟩
        have hc : (q.num : ℚ) < ((2 ^ 64 : ℤ) : ℚ) := by
          exact_mod_cast (show q.num < 2 ^ 64 from by omega)
        rw [← hq] at hc
        calc q < ((2 ^ 64 : ℤ) : ℚ) := hc
        _ = (2 ^ 64 : ℚ) := by push_cast; ring
    · intro x hx
      by_cases hA : q.den = 1 ∧ 0 < q ∧ q < (2 ^ 64 : ℚ)
      · simp only [to_u32, to_u64, if_pos hA, Option.some_bind] at hx
        split at hx
        · injection hx with hx
          rw [← hx, toRat]
          have h1n : 0 < q.num := Rat.num_pos.mpr hA.2.1
          have h2 : (q.num.toNat : ℤ) = q.num := Int.toNat_of_nonneg (by omega)
          have h3 : ((q.num.toNat : ℕ) : ℚ) = (q.num : ℚ) :=
            by exact_mod_cast congrArg (fun z : ℤ => (z : ℚ)) h2
          rw [h3]
          exact (eq_num_of_den_one hA.1).symm
        · exact absurd hx (by simp)
      · simp only [to_u32, to_u64, if_neg hA, Option.none_bind] at hx
        exact absurd hx (by simp)

theorem canRep64_eq_true_iff (x : ℕ) :
    can_represent_as_f64 x = true ↔
      64 - 53 ≤ leadingZeros64 x + trailingZeros64 x := by
  rw [can_represent_as_f64_iff]

theorem canRep32_eq_true_iff (x : ℕ) :
    can_represent_as_f32 x = true ↔
      64 - 24 ≤ leadingZeros64 x + trailingZeros64 x := by
  rw [can_represent_as_f32_iff]

theorem guard64_iff_isRep (v : ℤ) (hv : v.natAbs ≤ 2 ^ 63) :
    ((if v < 0 then can_represent_as_f64 (-v).toNat
      else can_represent_as_f64 v.toNat) = true) ↔ isRep 53 (-1074) (v : ℚ) := by
  rw [← i64_guard_iff 53 (by norm_num) (-1074) (by norm_num) v hv]
  by_cases hneg : v < 0
  · rw [if_pos hneg, if_pos hneg]
    exact canRep64_eq_true_iff _
  · rw [if_neg hneg, if_neg hneg]
    exact canRep64_eq_true_iff _

theorem guard32_iff_isRep (v : ℤ) (hv : v.natAbs ≤ 2 ^ 63) :
    ((if v < 0 then can_represent_as_f32 (-v).toNat
      else can_represent_as_f32 v.toNat) = true) ↔ isRep 24 (-149) (v : ℚ) := by
  rw [← i64_guard_iff 24 (by norm_num) (-149) (by norm_num) v hv]
  by_cases hneg : v < 0
  · rw [if_pos hneg, if_pos hneg]
    exact canRep32_eq_true_iff _
  · rw [if_neg hneg, if_neg hneg]
    exact canRep32_eq_true_iff _

theorem canRep64_nat_iff_isRep (v : ℕ) (hv : v < 2 ^ 64) :
    (can_represent_as_f64 v = true) ↔ isRep 53 (-1074) ((v : ℕ) : ℚ) := by
  rw [canRep64_eq_true_iff]
  exact canRep_iff_isRep 53 (by norm_num) (-1074) (by norm_num) v hv

theorem canRep32_nat_iff_isRep (v : ℕ) (hv : v < 2 ^ 64) :
    (can_represent_as_f32 v = true) ↔ isRep 24 (-149) ((v : ℕ) : ℚ) := by
  rw [canRep32_eq_true_iff]
  exact canRep_iff_isRep 24 (by norm_num) (-149) (by norm_num) v hv

theorem abs_intCast_lt_of_le63 (v : ℤ) (hv : v.natAbs ≤ 2 ^ 63) {c : ℕ}
    (hc : (2:ℚ) ^ 63 < 2 ^ c) : |(v : ℚ)| < 2 ^ c := by
  have h1 : |(v : ℚ)| ≤ ((2 ^ 63 : ℕ) : ℚ) := abs_intCast_le hv
  have h2 : ((2 ^ 63 : ℕ) : ℚ) = (2:ℚ) ^ 63 := by push_cast; ring
  rw [h2] at h1
  linarith

theorem abs_natCast_lt_of_lt64 (v : ℕ) (hv : v < 2 ^ 64) {c : ℕ}
    (hc : (2:ℚ) ^ 64 ≤ 2 ^ c) : |((v : ℕ) : ℚ)| < 2 ^ c := by
  have h0 : (0:ℚ) ≤ ((v : ℕ) : ℚ) := by positivity
  rw [abs_of_nonneg h0]
  have h1 : ((v : ℕ) : ℚ) < ((2 ^ 64 : ℕ) : ℚ) := by exact_mod_cast hv
  have h2 : ((2 ^ 64 : ℕ) : ℚ) = (2:ℚ) ^ 64 := by push_cast; ring
  rw [h2] at h1
  linarith

theorem to_f64_spec (n : INumber) (h : n.wf) :
    ((n.to_f64.isSome = true ↔ isF64 n.toRat) ∧
      ∀ x, n.to_f64 = some x → x = n.toRat) := by
  cases n with
  | static v =>
    unfold wf STATIC_LOWER STATIC_UPPER at h
    refine ⟨?_, ?_⟩
    · simp only [to_f64, toRat, Option.isSome_some, true_iff]
      exact isF64_intCast_small v (by omega)
    · intro x hx
      simp only [to_f64] at hx
      injection hx with hx
      rw [← hx]
      rfl
  | i24 v =>
    unfold wf SHORT_LOWER SHORT_UPPER at h
    refine ⟨?_, ?_⟩
    · simp only [to_f64, toRat, Option.isSome_some, true_iff]
      exact isF64_intCast_small v (by omega)
    · intro x hx
      simp only [to_f64] at hx
      injection hx with hx
      rw [← hx]
      rfl
  | i64 v =>
    unfold wf SHORT_LOWER SHORT_UPPER at h
    have hv : v.natAbs ≤ 2 ^ 63 := by omega
    refine ⟨?_, ?_⟩
    · simp only [to_f64, toRat, isSome_ite]
      rw [guard64_iff_isRep v hv]
      exact (isF64_iff_isRep_small (abs_intCast_lt_of_le63 v hv (by norm_num))).symm
    · intro x hx
      simp only [to_f64] at hx
      cases hb : (if v < 0 then can_represent_as_f64 (-v).toNat
          else can_represent_as_f64 v.toNat) with
      | false =>
        rw [hb] at hx
        simp at hx
      | true =>
        rw [hb] at hx
        simp only [if_true] at hx
        injection hx with hx
        rw [← hx, toRat]
        exact roundRat_eq_self ((guard64_iff_isRep v hv).mp hb)
  | u64 v =>
    unfold wf at h
    have hv : v < 2 ^ 64 := h.2
    refine ⟨?_, ?_⟩
    · simp only [to_f64, toRat, isSome_ite]
      rw [canRep64_nat_iff_isRep v hv]
      exact (isF64_iff_isRep_small (abs_natCast_lt_of_lt64 v hv (by norm_num))).symm
    · intro x hx
      simp only [to_f64] at hx
      cases hb : can_represent_as_f64 v with
      | false =>
        rw [hb] at hx
        simp at hx
      | true =>
        rw [hb] at hx
        simp only [if_true] at hx
        injection hx with hx
        rw [← hx, toRat]
        exact roundRat_eq_self ((canRep64_nat_iff_isRep v hv).mp hb)
  | f64 q =>
    unfold wf at h
    refine ⟨?_, ?_⟩
    · simp only [to_f64, toRat, Option.isSome_some, true_iff]
      exact h
    · intro x hx
      simp only [to_f64] at hx
      injection hx with hx
      rw [← hx]
      rfl

set_option maxHeartbeats 1000000 in
theorem to_f32_spec (n : INumber) (h : n.wf) :
    ((n.to_f32.isSome = true ↔ isF32 n.toRat) ∧
      ∀ x, n.to_f32 = some x → x = n.toRat) := by
  cases n with
  | static v =>
    unfold wf STATIC_LOWER STATIC_UPPER at h
    refine ⟨?_, ?_⟩
    · simp only [to_f32, toRat, Option.isSome_some, true_iff]
      exact isF32_intCast_small v (by omega)
    · intro x hx
      simp only [to_f32] at hx
      injection hx with hx
      rw [← hx]
      rfl
  | i24 v =>
    unfold wf SHORT_LOWER SHORT_UPPER at h
    have hrep : isRep 24 (-149) (v : ℚ) := isRep_int 24 (-149) (by norm_num) v (by omega)
    refine ⟨?_, ?_⟩
    · simp only [to_f32, toRat, Option.isSome_some, true_iff]
      exact isF32_intCast_small v (by omega)
    · intro x hx
      simp only [to_f32] at hx
      injection hx with hx
      rw [← hx, toRat]
      unfold i32_as_f32
      exact roundRat_eq_self hrep
  | i64 v =>
    unfold wf SHORT_LOWER SHORT_UPPER at h
    have hv : v.natAbs ≤ 2 ^ 63 := by omega
    refine ⟨?_, ?_⟩
    · simp only [to_f32, toRat, isSome_ite]
      rw [guard32_iff_isRep v hv]
      exact (isF32_iff_isRep_small (abs_intCast_lt_of_le63 v hv (by norm_num))).symm
    · intro x hx
      simp only [to_f32] at hx
      cases hb : (if v < 0 then can_represent_as_f32 (-v).toNat
          else can_represent_as_f32 v.toNat) with
      | false =>
        rw [hb] at hx
        simp at hx
      | true =>
        rw [hb] at hx
        simp only [if_true] at hx
        injection hx with hx
        rw [← hx, toRat]
        exact roundRat_eq_self ((guard32_iff_isRep v hv).mp hb)
  | u64 v =>
    unfold wf at h
    have hv : v < 2 ^ 64 := h.2
    refine ⟨?_, ?_⟩
    · simp only [to_f32, toRat, isSome_ite]
      rw [canRep32_nat_iff_isRep v hv]
      exact (isF32_iff_isRep_small (abs_natCast_lt_of_lt64 v hv (by norm_num))).symm
    · intro x hx
      simp only [to_f32] at hx
      cases hb : can_represent_as_f32 v with
      | false =>
        rw [hb] at hx
        simp at hx
      | true =>
        rw [hb] at hx
        simp only [if_true] at hx
        injection hx with hx
        rw [← hx, toRat]
        exact roundRat_eq_self ((canRep32_nat_iff_isRep v hv).mp hb)
  | f64 q =>
    unfold wf at h
    by_cases hover : |roundRat 24 (-149) q| < 2 ^ 128
    · by_cases heq : q = roundRat 24 (-149) q
      · have hrep : isRep 24 (-149) q := isRep_of_roundRat_eq heq.symm
        have hf32 : isF32 q := ⟨hrep, by rw [heq]; exact hover⟩
        refine ⟨?_, ?_⟩
        · simp only [to_f32, to_f32F64, toRat, f64_as_f32, if_pos hover, if_pos heq,
            Option.isSome_some, true_iff]
          exact hf32
        · intro x hx
          simp only [to_f32, to_f32F64, f64_as_f32, if_pos hover, if_pos heq] at hx
          injection hx with hx
          rw [← hx, toRat]
          exact heq.symm
      · refine ⟨?_, ?_⟩
        · simp only [to_f32, to_f32F64, toRat, f64_as_f32, if_pos hover, if_neg heq,
            Option.isSome_none, Bool.false_eq_true, false_iff]
          intro hf32
          exact heq (roundRat_eq_self hf32.1).symm
        · intro x hx
          simp only [to_f32, to_f32F64, f64_as_f32, if_pos hover, if_neg heq] at hx
          exact absurd hx (by simp)
    · have hnone : (f64 q).to_f32 = none := by
        simp only [to_f32, to_f32F64, f64_as_f32, if_neg hover]
        split
        · rename_i r hr
          exfalso
          by_cases h0 : 0 < q
          · rw [if_pos h0] at hr
            exact F32.noConfusion hr
          · rw [if_neg h0] at hr
            exact F32.noConfusion hr
        · rfl
        · rfl
      refine ⟨?_, ?_⟩
      · rw [hnone]
        simp only [toRat, Option.isSome_none, Bool.false_eq_true, false_iff]
        intro hf32
        have hr : roundRat 24 (-149) q = q := roundRat_eq_self hf32.1
        rw [hr] at hover
        exact hover hf32.2
      · intro x hx
        rw [hnone] at hx
        exact absurd hx (by simp)

end INumber

/-- Claim C1 counterexample: the INumber constructed from the double 0.0
represents the value 0, which is exactly representable in u64, yet
to_u64() returns None (the source guard requires v > 0.0 strictly).  This
refutes the claim as stated. -/
theorem C1_counterexample :
    (INumber.new_f64 0).toRat = 0 ∧ repU64 (0 : ℚ) ∧
      (INumber.new_f64 0).to_u64 = none := by
  refine ⟨rfl, ?_, ?_⟩
  · unfold repU64
    refine ⟨rfl, ?_, ?_⟩ <;> decide
  · simp only [INumber.new_f64, INumber.to_u64]
    rw [if_neg]
    rintro ⟨-, h0, -⟩
    exact absurd h0 (lt_irrefl 0)

/-- Claim C1 (amended): for every INumber built by the constructors (any
supported primitive input) and every target among i64, u64, i32, u32,
isize, usize, f64 and f32, the exact conversion returns Some of the
represented value exactly when that value is exactly representable in the
target — except for two F64-encoding boundary cases forced by the source
guards: a float-encoded 0 converts to the unsigned targets as None, and a
float-encoded -2^63 converts to i64/isize as None.  The lossy conversions
always return a value. -/
theorem C1_amended_exact_conversions (n : INumber) (h : n.wf) :
    ((n.to_i64.isSome = true ↔
        repI64 n.toRat ∧ ¬(n.isF64enc = true ∧ n.toRat = -(2 ^ 63 : ℚ))) ∧
      (∀ x, n.to_i64 = some x → (x : ℚ) = n.toRat)) ∧
    ((n.to_u64.isSome = true ↔
        repU64 n.toRat ∧ ¬(n.isF64enc = true ∧ n.toRat = 0)) ∧
      (∀ x, n.to_u64 = some x → (x : ℚ) = n.toRat)) ∧
    ((n.to_i32.isSome = true ↔ repI32 n.toRat) ∧
      (∀ x, n.to_i32 = some x → (x : ℚ) = n.toRat)) ∧
    ((n.to_u32.isSome = true ↔
        repU32 n.toRat ∧ ¬(n.isF64enc = true ∧ n.toRat = 0)) ∧
      (∀ x, n.to_u32 = some x → (x : ℚ) = n.toRat)) ∧
    ((n.to_isize.isSome = true ↔
        repI64 n.toRat ∧ ¬(n.isF64enc = true ∧ n.toRat = -(2 ^ 63 : ℚ))) ∧
      (∀ x, n.to_isize = some x → (x : ℚ) = n.toRat)) ∧
    ((n.to_usize.isSome = true ↔
        repU64 n.toRat ∧ ¬(n.isF64enc = true ∧ n.toRat = 0)) ∧
      (∀ x, n.to_usize = some x → (x : ℚ) = n.toRat)) ∧
    ((n.to_f64.isSome = true ↔ isF64 n.toRat) ∧
      (∀ x, n.to_f64 = some x → x = n.toRat)) ∧
    ((n.to_f32.isSome = true ↔ isF32 n.toRat) ∧
      (∀ x, n.to_f32 = some x → x = n.toRat)) ∧
    (∃ r : ℚ, n.to_f64_lossy = r) ∧ (∃ u : F32, n.to_f32_lossy = u) :=
  ⟨INumber.to_i64_spec n h, INumber.to_u64_spec n h, INumber.to_i32_spec n h,
    INumber.to_u32_spec n h, INumber.to_i64_spec n h, INumber.to_u64_spec n h,
    INumber.to_f64_spec n h, INumber.to_f32_spec n h, ⟨_, rfl⟩, ⟨_, rfl⟩⟩

/-- Witness for the amended C1 at the concrete number 7 (built through the
u64 constructor). -/
theorem C1_witness :
    ((INumber.new_u64 7).to_i64.isSome = true ↔
      repI64 (INumber.new_u64 7).toRat ∧
        ¬((INumber.new_u64 7).isF64enc = true ∧
          (INumber.new_u64 7).toRat = -(2 ^ 63 : ℚ))) := by
  have hwf : (INumber.new_u64 7).wf := by
    norm_num [INumber.new_u64, INumber.new_i64, INumber.new_short,
      INumber.new_static, INumber.wf, INumber.STATIC_LOWER,
      INumber.STATIC_UPPER, INumber.SHORT_LOWER, INumber.SHORT_UPPER]
  exact (C1_amended_exact_conversions (INumber.new_u64 7) hwf).1.1


/-! ## Number comparison (src/number.rs) -/

/-- Ordering of two rationals (the semantics of Ord/partial_cmp on the
exact values of finite numbers). -/
def ratCmp (a b : ℚ) : Ordering :=
  if a < b then .lt else if a = b then .eq else .gt

/-- i64 Ord::cmp. -/
def intCmp (a b : ℤ) : Ordering :=
  if a < b then .lt else if a = b then .eq else .gt

/-- u64 Ord::cmp. -/
def natCmp (a b : ℕ) : Ordering :=
  if a < b then .lt else if a = b then .eq else .gt

/-- Option i64 Ord::cmp (None sorts below Some). -/
def optIntCmp : Option ℤ → Option ℤ → Ordering
  | none, none => .eq
  | none, some _ => .lt
  | some _, none => .gt
  | some a, some b => intCmp a b

/-- cmp_u64_to_f64 from number.rs.  The constant casts
`0x0020_0000_0000_0000_u64 as f64` and `u64::MAX as f64` evaluate to 2^53
and 2^64 respectively. -/
def cmp_u64_to_f64 (a : ℕ) (b : ℚ) : Ordering :=
  if can_represent_as_f64 a then ratCmp (u64_as_f64 a) b
  else if b ≤ (2 ^ 53 : ℚ) then .gt
  else if (2 ^ 64 : ℚ) ≤ b then .lt
  else natCmp a (f64_as_u64 b)

/-- cmp_i64_to_f64 from number.rs (wrapping negation of the i64 maps into
u64 range). -/
def cmp_i64_to_f64 (a : ℤ) (b : ℚ) : Ordering :=
  if a < 0 then (cmp_u64_to_f64 (-a).toNat (-b)).swap
  else cmp_u64_to_f64 a.toNat b

namespace INumber

/-- Header::cmp from number.rs: the same-encoding fast paths, the four
dedicated 64-bit/f64 pairings, the generic f64 pairings through
to_f64().unwrap() (exact for Static and I24), the U64 dominance arms, and
the final to_i64 comparison. -/
def cmp : INumber → INumber → Ordering
  | .static a, .static b => intCmp a b
  | .i24 a, .i24 b => intCmp a b
  | .i64 a, .i64 b => intCmp a b
  | .u64 a, .u64 b => natCmp a b
  | .f64 a, .f64 b => ratCmp a b
  | .u64 a, .f64 b => cmp_u64_to_f64 a b
  | .f64 a, .u64 b => (cmp_u64_to_f64 b a).swap
  | .i64 a, .f64 b => cmp_i64_to_f64 a b
  | .f64 a, .i64 b => (cmp_i64_to_f64 b a).swap
  | .static a, .f64 b => ratCmp (a : ℚ) b
  | .i24 a, .f64 b => ratCmp (a : ℚ) b
  | .f64 a, .static b => (ratCmp (b : ℚ) a).swap
  | .f64 a, .i24 b => (ratCmp (b : ℚ) a).swap
  | .u64 _, _ => .gt
  | _, .u64 _ => .lt
  | a, b => optIntCmp a.to_i64 b.to_i64

end INumber

theorem ratCmp_swap (a b : ℚ) : (ratCmp a b).swap = ratCmp b a := by
  unfold ratCmp
  rcases lt_trichotomy a b with h | h | h
  · rw [if_pos h, if_neg (by linarith),
      if_neg (by intro he; rw [he] at h; exact lt_irrefl _ h)]
    rfl
  · subst h
    rw [if_neg (lt_irrefl a), if_pos rfl]
    rfl
  · rw [if_neg (by linarith),
      if_neg (by intro he; rw [he] at h; exact lt_irrefl _ h), if_pos h]
    rfl

theorem ratCmp_lt_of_lt {a b : ℚ} (h : a < b) : ratCmp a b = .lt := by
  unfold ratCmp
  rw [if_pos h]

theorem ratCmp_gt_of_lt {a b : ℚ} (h : b < a) : ratCmp a b = .gt := by
  unfold ratCmp
  rw [if_neg (by linarith),
    if_neg (by intro he; rw [he] at h; exact lt_irrefl _ h)]

theorem intCmp_eq_ratCmp (a b : ℤ) : intCmp a b = ratCmp (a : ℚ) (b : ℚ) := by
  unfold intCmp ratCmp
  rcases lt_trichotomy a b with h | h | h
  · have hq : (a : ℚ) < (b : ℚ) := by exact_mod_cast h
    rw [if_pos h, if_pos hq]
  · subst h
    rw [if_neg (lt_irrefl a), if_pos rfl, if_neg (lt_irrefl (a : ℚ)), if_pos rfl]
  · have hq : (b : ℚ) < (a : ℚ) := by exact_mod_cast h
    rw [if_neg (by omega : ¬ a < b), if_neg (by omega : ¬ a = b),
      if_neg (by linarith : ¬ (a : ℚ) < (b : ℚ)),
      if_neg (show ¬ (a : ℚ) = (b : ℚ) by
        intro he
        rw [he] at hq
        exact lt_irrefl _ hq)]

theorem natCmp_eq_ratCmp (a b : ℕ) : natCmp a b = ratCmp (a : ℚ) (b : ℚ) := by
  unfold natCmp ratCmp
  rcases lt_trichotomy a b with h | h | h
  · have hq : (a : ℚ) < (b : ℚ) := by exact_mod_cast h
    rw [if_pos h, if_pos hq]
  · subst h
    rw [if_neg (lt_irrefl a), if_pos rfl, if_neg (lt_irrefl (a : ℚ)), if_pos rfl]
  · have hq : (b : ℚ) < (a : ℚ) := by exact_mod_cast h
    rw [if_neg (by omega : ¬ a < b), if_neg (by omega : ¬ a = b),
      if_neg (by linarith : ¬ (a : ℚ) < (b : ℚ)),
      if_neg (show ¬ (a : ℚ) = (b : ℚ) by
        intro he
        rw [he] at hq
        exact lt_irrefl _ hq)]

theorem ratCmp_neg_swap (a b : ℚ) : (ratCmp (-a) (-b)).swap = ratCmp a b := by
  unfold ratCmp
  rcases lt_trichotomy a b with h | h | h
  · rw [if_neg (by linarith : ¬ -a < -b),
      if_neg (show ¬ -a = -b by
        intro he
        have heq : a = b := by linarith
        rw [heq] at h
        exact lt_irrefl _ h),
      if_pos h]
    rfl
  · subst h
    rw [if_neg (lt_irrefl (-a)), if_pos rfl, if_neg (lt_irrefl a), if_pos rfl]
    rfl
  · rw [if_pos (by linarith : -a < -b),
      if_neg (by linarith : ¬ a < b),
      if_neg (show ¬ a = b by
        intro he
        rw [he] at h
        exact lt_irrefl _ h)]
    rfl

theorem canRep64_of_le (a : ℕ) (h : a ≤ 2 ^ 53) : can_represent_as_f64 a = true := by
  rw [INumber.canRep64_eq_true_iff, canRep_iff 53 (by norm_num) a (by norm_num; omega)]
  rcases eq_or_lt_of_le h with he | hlt
  · exact ⟨2 ^ 52, 1, by rw [he]; norm_num, by norm_num⟩
  · exact ⟨a, 0, by norm_num, hlt⟩

theorem isF64_neg {q : ℚ} (h : isF64 q) : isF64 (-q) :=
  ⟨isRep_neg _ _ h.1, by rw [abs_neg]; exact h.2⟩

theorem cmp_u64_to_f64_correct (a : ℕ) (ha : a < 2 ^ 64) (b : ℚ)
    (hb : isF64 b) : cmp_u64_to_f64 a b = ratCmp (a : ℚ) b := by
  unfold cmp_u64_to_f64
  by_cases hrep : can_represent_as_f64 a = true
  · rw [if_pos hrep]
    have : u64_as_f64 a = (a : ℚ) :=
      roundRat_eq_self ((INumber.canRep64_nat_iff_isRep a ha).mp hrep)
    rw [this]
  · rw [if_neg hrep]
    have hgt : (2 ^ 53 : ℚ) < (a : ℚ) := by
      have h1 : 2 ^ 53 < a := by
        by_contra hc
        push_neg at hc
        exact hrep (canRep64_of_le a hc)
      have h2 : ((2 ^ 53 : ℕ) : ℚ) < ((a : ℕ) : ℚ) := by exact_mod_cast h1
      calc (2 ^ 53 : ℚ) = ((2 ^ 53 : ℕ) : ℚ) := by push_cast; ring
      _ < (a : ℚ) := h2
    by_cases hb1 : b ≤ (2 ^ 53 : ℚ)
    · rw [if_pos hb1]
      exact (ratCmp_gt_of_lt (by linarith)).symm
    · rw [if_neg hb1]
      push_neg at hb1
      by_cases hb2 : (2 ^ 64 : ℚ) ≤ b
      · rw [if_pos hb2]
        have hlt : (a : ℚ) < b := by
          have h2 : ((a : ℕ) : ℚ) < ((2 ^ 64 : ℕ) : ℚ) := by exact_mod_cast ha
          have h3 : ((2 ^ 64 : ℕ) : ℚ) = (2 ^ 64 : ℚ) := by push_cast; ring
          rw [h3] at h2
          linarith
        exact (ratCmp_lt_of_lt hlt).symm
      · rw [if_neg hb2]
        push_neg at hb2
        obtain ⟨n, hn⟩ := rep_large_is_int hb.1 (by
          rw [abs_of_pos (by linarith : (0:ℚ) < b)]
          exact hb1)
        have hn0 : 0 < n := by
          have : (0 : ℚ) < (n : ℚ) := by rw [← hn]; linarith
          exact_mod_cast this
        have hfl : f64_as_u64 b = n.toNat := by
          unfold f64_as_u64
          rw [if_neg (by linarith), hn, Int.floor_intCast]
        rw [hfl, natCmp_eq_ratCmp]
        congr 1
        rw [hn]
        have h2 : (n.toNat : ℤ) = n := Int.toNat_of_nonneg (by omega)
        exact_mod_cast congrArg (fun z : ℤ => (z : ℚ)) h2

theorem cmp_i64_to_f64_correct (a : ℤ) (ha : a.natAbs ≤ 2 ^ 63) (b : ℚ)
    (hb : isF64 b) : cmp_i64_to_f64 a b = ratCmp (a : ℚ) b := by
  unfold cmp_i64_to_f64
  by_cases hneg : a < 0
  · rw [if_pos hneg]
    have h1 : (-a).toNat < 2 ^ 64 := by
      have : (2:ℕ) ^ 63 < 2 ^ 64 := by norm_num
      omega
    rw [cmp_u64_to_f64_correct _ h1 _ (isF64_neg hb)]
    have hcast : (((-a).toNat : ℕ) : ℚ) = -(a : ℚ) := by
      have h2 : ((-a).toNat : ℤ) = -a := Int.toNat_of_nonneg (by omega)
      have h3 : (((-a).toNat : ℕ) : ℚ) = (((-a).toNat : ℤ) : ℚ) :=
        (Int.cast_natCast _).symm
      rw [h3, h2]
      push_cast
      ring
    rw [hcast]
    exact ratCmp_neg_swap (a : ℚ) b
  · rw [if_neg hneg]
    have h1 : a.toNat < 2 ^ 64 := by
      have : (2:ℕ) ^ 63 < 2 ^ 64 := by norm_num
      omega
    rw [cmp_u64_to_f64_correct _ h1 _ hb]
    congr 1
    have h2 : (a.toNat : ℤ) = a := Int.toNat_of_nonneg (by omega)
    calc ((a.toNat : ℕ) : ℚ) = ((a.toNat : ℤ) : ℚ) := (Int.cast_natCast _).symm
    _ = (a : ℚ) := by rw [h2]


theorem intCast_lt_natCast_q {a : ℤ} {b : ℕ} (h : a < (b : ℤ)) :
    (a : ℚ) < ((b : ℕ) : ℚ) := by
  have hc : ((a : ℤ) : ℚ) < (((b : ℕ) : ℤ) : ℚ) := by exact_mod_cast h
  calc (a : ℚ) < (((b : ℕ) : ℤ) : ℚ) := hc
  _ = ((b : ℕ) : ℚ) := Int.cast_natCast _

theorem natCast_lt_intCast_q {a : ℕ} {b : ℤ} (h : (a : ℤ) < b) :
    ((a : ℕ) : ℚ) < (b : ℚ) := by
  have hc : (((a : ℕ) : ℤ) : ℚ) < ((b : ℤ) : ℚ) := by exact_mod_cast h
  calc ((a : ℕ) : ℚ) = (((a : ℕ) : ℤ) : ℚ) := (Int.cast_natCast _).symm
  _ < (b : ℚ) := hc

/-- Header::cmp computes the true numeric order on well-formed numbers,
whatever the two encodings. -/
theorem cmp_correct (n1 n2 : INumber) (h1 : n1.wf) (h2 : n2.wf) :
    INumber.cmp n1 n2 = ratCmp n1.toRat n2.toRat := by
  cases n1 with
  | static a =>
    unfold INumber.wf INumber.STATIC_LOWER INumber.STATIC_UPPER at h1
    cases n2 with
    | static b => exact intCmp_eq_ratCmp a b
    | i24 b => exact intCmp_eq_ratCmp a b
    | i64 b => exact intCmp_eq_ratCmp a b
    | u64 b =>
      unfold INumber.wf at h2
      exact (ratCmp_lt_of_lt (intCast_lt_natCast_q (by omega))).symm
    | f64 b => rfl
  | i24 a =>
    unfold INumber.wf INumber.SHORT_LOWER INumber.SHORT_UPPER at h1
    cases n2 with
    | static b => exact intCmp_eq_ratCmp a b
    | i24 b => exact intCmp_eq_ratCmp a b
    | i64 b => exact intCmp_eq_ratCmp a b
    | u64 b =>
      unfold INumber.wf at h2
      exact (ratCmp_lt_of_lt (intCast_lt_natCast_q (by omega))).symm
    | f64 b => rfl
  | i64 a =>
    unfold INumber.wf INumber.SHORT_LOWER INumber.SHORT_UPPER at h1
    cases n2 with
    | static b => exact intCmp_eq_ratCmp a b
    | i24 b => exact intCmp_eq_ratCmp a b
    | i64 b => exact intCmp_eq_ratCmp a b
    | u64 b =>
      unfold INumber.wf at h2
      exact (ratCmp_lt_of_lt (intCast_lt_natCast_q (by omega))).symm
    | f64 b =>
      unfold INumber.wf at h2
      exact cmp_i64_to_f64_correct a (by omega) b h2
  | u64 a =>
    unfold INumber.wf at h1
    cases n2 with
    | static b =>
      unfold INumber.wf INumber.STATIC_LOWER INumber.STATIC_UPPER at h2
      exact (ratCmp_gt_of_lt (intCast_lt_natCast_q (by omega))).symm
    | i24 b =>
      unfold INumber.wf INumber.SHORT_LOWER INumber.SHORT_UPPER at h2
      exact (ratCmp_gt_of_lt (intCast_lt_natCast_q (by omega))).symm
    | i64 b =>
      unfold INumber.wf INumber.SHORT_LOWER INumber.SHORT_UPPER at h2
      exact (ratCmp_gt_of_lt (intCast_lt_natCast_q (by omega))).symm
    | u64 b => exact natCmp_eq_ratCmp a b
    | f64 b =>
      unfold INumber.wf at h2
      exact cmp_u64_to_f64_correct a h1.2 b h2
  | f64 a =>
    unfold INumber.wf at h1
    cases n2 with
    | static b =>
      show (ratCmp ((b : ℤ) : ℚ) a).swap = _
      rw [ratCmp_swap]
      rfl
    | i24 b =>
      show (ratCmp ((b : ℤ) : ℚ) a).swap = _
      rw [ratCmp_swap]
      rfl
    | i64 b =>
      unfold INumber.wf INumber.SHORT_LOWER INumber.SHORT_UPPER at h2
      show (cmp_i64_to_f64 b a).swap = _
      rw [cmp_i64_to_f64_correct b (by omega) a h1, ratCmp_swap]
      rfl
    | u64 b =>
      unfold INumber.wf at h2
      show (cmp_u64_to_f64 b a).swap = _
      rw [cmp_u64_to_f64_correct b h2.2 a h1, ratCmp_swap]
      rfl
    | f64 b => rfl


/-- Claim C2: for every pair of well-formed INumber values, whatever their
internal encodings, Header::cmp computes the true mathematical order of
the represented numbers; in particular the INumber for the double
99999999000.0 is strictly below the INumber for 99999999001 u64, and the
INumber for the double 1e30 (whose exact value is
1000000000000000019884624838656) is above those for u64::MAX and
i64::MAX. -/
theorem C2_cmp_total_order :
    (∀ n1 n2 : INumber, n1.wf → n2.wf →
      INumber.cmp n1 n2 = ratCmp n1.toRat n2.toRat) ∧
    INumber.cmp (INumber.new_f64 99999999000) (INumber.new_u64 99999999001) =
      .lt ∧
    INumber.cmp (INumber.new_f64 1000000000000000019884624838656)
      (INumber.new_u64 (2 ^ 64 - 1)) = .gt ∧
    INumber.cmp (INumber.new_f64 1000000000000000019884624838656)
      (INumber.new_i64 (2 ^ 63 - 1)) = .gt := by
  have hw1 : (INumber.new_f64 99999999000).wf :=
    ⟨⟨12499999875, 3, by norm_num, by norm_num, by norm_num⟩, by norm_num⟩
  have hw2 : (INumber.new_u64 99999999001).wf := by
    norm_num [INumber.new_u64, INumber.new_i64, INumber.new_short,
      INumber.new_static, INumber.wf, INumber.STATIC_LOWER,
      INumber.STATIC_UPPER, INumber.SHORT_LOWER, INumber.SHORT_UPPER]
  have hw3 : (INumber.new_f64 1000000000000000019884624838656).wf :=
    ⟨⟨3552713678800501, 48, by norm_num, by norm_num, by norm_num⟩, by norm_num⟩
  have hw4 : (INumber.new_u64 (2 ^ 64 - 1)).wf := by
    norm_num [INumber.new_u64, INumber.new_i64, INumber.new_short,
      INumber.new_static, INumber.wf, INumber.STATIC_LOWER,
      INumber.STATIC_UPPER, INumber.SHORT_LOWER, INumber.SHORT_UPPER]
  have hw5 : (INumber.new_i64 (2 ^ 63 - 1)).wf := by
    norm_num [INumber.new_i64, INumber.new_short, INumber.new_static,
      INumber.wf, INumber.STATIC_LOWER, INumber.STATIC_UPPER,
      INumber.SHORT_LOWER, INumber.SHORT_UPPER]
  refine ⟨cmp_correct, ?_, ?_, ?_⟩
  · rw [cmp_correct _ _ hw1 hw2]
    norm_num [INumber.toRat, INumber.new_f64, INumber.new_u64, INumber.new_i64,
      INumber.new_short, INumber.new_static, INumber.SHORT_LOWER,
      INumber.SHORT_UPPER, INumber.STATIC_LOWER, INumber.STATIC_UPPER, ratCmp]
  · rw [cmp_correct _ _ hw3 hw4]
    norm_num [INumber.toRat, INumber.new_f64, INumber.new_u64, INumber.new_i64,
      INumber.new_short, INumber.new_static, INumber.SHORT_LOWER,
      INumber.SHORT_UPPER, INumber.STATIC_LOWER, INumber.STATIC_UPPER, ratCmp]
  · rw [cmp_correct _ _ hw3 hw5]
    norm_num [INumber.toRat, INumber.new_f64, INumber.new_u64, INumber.new_i64,
      INumber.new_short, INumber.new_static, INumber.SHORT_LOWER,
      INumber.SHORT_UPPER, INumber.STATIC_LOWER, INumber.STATIC_UPPER, ratCmp]

/-- Witness for C2 applied at the concrete pair 2 and 3 (both built
through new_i64, landing in the static encoding). -/
theorem C2_witness :
    INumber.cmp (INumber.new_i64 2) (INumber.new_i64 3) =
      ratCmp (INumber.new_i64 2).toRat (INumber.new_i64 3).toRat := by
  have hw1 : (INumber.new_i64 2).wf := by
    norm_num [INumber.new_i64, INumber.new_short, INumber.new_static,
      INumber.wf, INumber.STATIC_LOWER, INumber.STATIC_UPPER,
      INumber.SHORT_LOWER, INumber.SHORT_UPPER]
  have hw2 : (INumber.new_i64 3).wf := by
    norm_num [INumber.new_i64, INumber.new_short, INumber.new_static,
      INumber.wf, INumber.STATIC_LOWER, INumber.STATIC_UPPER,
      INumber.SHORT_LOWER, INumber.SHORT_UPPER]
  exact C2_cmp_total_order.1 _ _ hw1 hw2

/-! ## Hash object model (src/object.rs)

The IObject stores entries densely in `items` (in insertion order) plus a
Robin Hood open-addressing probe table `table` of size
`hash_capacity cap`.  In the source the probe table stores `usize`
indices with `usize::MAX` as the empty sentinel; a dense index can never
reach `usize::MAX` (allocations are bounded well below it), so the
sentinel is modelled as `none` and a stored index as `some i`.  The
source hash function `hash_fn` hashes the interned string pointer, so its
values are not derivable from key contents; every operation therefore
takes the hash function as an explicit parameter and all theorems hold
for an arbitrary `hash : K → ℕ`. -/

def hash_capacity (cap : ℕ) : ℕ := cap + cap / 4

structure IObject (K V : Type) where
  cap : ℕ
  items : List (K × V)
  table : List (Option ℕ)
  deriving DecidableEq

namespace IObject

variable {K V : Type}

/-- Read a probe-table slot; out-of-range reads yield the empty sentinel
(the source only indexes in range, guaranteed by the invariant). -/
def tget (table : List (Option ℕ)) (b : ℕ) : Option ℕ := table.getD b none

/-- slice::swap on the probe table. -/
def tswap (table : List (Option ℕ)) (i j : ℕ) : List (Option ℕ) :=
  (table.set i (tget table j)).set j (tget table i)

/-- slice::swap on the dense item array. -/
def iswap (items : List (K × V)) (i j : ℕ) : List (K × V) :=
  match items.get? i, items.get? j with
  | some a, some b => (items.set i b).set j a
  | _, _ => items

/-- hash_bucket(s, hash_cap) = hash_fn(s) % hash_cap. -/
def hash_bucket (hash : K → ℕ) (k : K) (hash_cap : ℕ) : ℕ := hash k % hash_cap

/-- The probe distance of a key stored at `bucket`:
(bucket + hash_cap - hash_bucket(k)) % hash_cap, as computed in
SplitHeader::find_bucket. -/
def distOf (hash : K → ℕ) (hash_cap bucket : ℕ) (k : K) : ℕ :=
  (bucket + hash_cap - hash_bucket hash k hash_cap) % hash_cap

/-- The probe loop of SplitHeader::find_bucket, scanning at most
`hash_cap` buckets; `i` is the current probe offset.  `.error none`
models `Err(usize::MAX)` (loop exhausted). -/
def find_bucket_go [DecidableEq K] (hash : K → ℕ) (items : List (K × V))
    (table : List (Option ℕ)) (hash_cap initial_bucket : ℕ) (key : K) :
    ℕ → ℕ → Except (Option ℕ) ℕ
  | 0, _ => .error none
  | fuel + 1, i =>
    match tget table ((initial_bucket + i) % hash_cap) with
    | none => .error (some ((initial_bucket + i) % hash_cap))
    | some index =>
      match items.get? index with
      | none => .error none
      | some kv =>
        if kv.1 = key then .ok ((initial_bucket + i) % hash_cap)
        else if distOf hash hash_cap ((initial_bucket + i) % hash_cap) kv.1 < i then
          .error (some ((initial_bucket + i) % hash_cap))
        else
          find_bucket_go hash items table hash_cap initial_bucket key fuel (i + 1)

/-- SplitHeader::find_bucket. -/
def find_bucket [DecidableEq K] (hash : K → ℕ) (o : IObject K V) (key : K) :
    Except (Option ℕ) ℕ :=
  find_bucket_go hash o.items o.table (hash_capacity o.cap)
    (hash_bucket hash key (hash_capacity o.cap)) key (hash_capacity o.cap) 0

/-- The loop of SplitHeader::find_bucket_from_index.  The source loop is
unbounded; under the invariant the bucket is found within `hash_cap`
steps, so fuel `hash_cap` is sufficient. -/
def find_bucket_from_index_go (table : List (Option ℕ)) (index hash_cap : ℕ) :
    ℕ → ℕ → Option ℕ
  | 0, _ => none
  | fuel + 1, bucket =>
    if tget table bucket = some index then some bucket
    else find_bucket_from_index_go table index hash_cap fuel ((bucket + 1) % hash_cap)

/-- SplitHeader::find_bucket_from_index (safety precondition in the
source: `index` in bounds; out of bounds gives `none` here). -/
def find_bucket_from_index (hash : K → ℕ) (o : IObject K V) (index : ℕ) :
    Option ℕ :=
  match o.items.get? index with
  | none => none
  | some kv =>
    find_bucket_from_index_go o.table index (hash_capacity o.cap)
      (hash_capacity o.cap) (hash_bucket hash kv.1 (hash_capacity o.cap))

/-- The loop of SplitHeaderMut::unshift (`for i in 1..hash_cap`):
starting from the empty `initial_bucket`, displaced elements are shifted
back one bucket until an empty or ideally-placed element is hit. -/
def unshift_go (hash : K → ℕ) (items : List (K × V)) (hash_cap initial_bucket : ℕ) :
    ℕ → ℕ → ℕ → List (Option ℕ) → List (Option ℕ)
  | 0, _, _, table => table
  | fuel + 1, i, prev_bucket, table =>
    match tget table ((initial_bucket + i) % hash_cap) with
    | none => table
    | some index =>
      match items.get? index with
      | none => table
      | some kv =>
        if hash_bucket hash kv.1 hash_cap = (initial_bucket + i) % hash_cap then table
        else unshift_go hash items hash_cap initial_bucket fuel (i + 1)
          ((initial_bucket + i) % hash_cap)
          (tswap table prev_bucket ((initial_bucket + i) % hash_cap))

/-- SplitHeaderMut::unshift. -/
def unshift (hash : K → ℕ) (items : List (K × V)) (hash_cap initial_bucket : ℕ)
    (table : List (Option ℕ)) : List (Option ℕ) :=
  unshift_go hash items hash_cap initial_bucket (hash_cap - 1) 1 initial_bucket table

/-- The loop of SplitHeaderMut::shift: insert `index` at its bucket and
shift the existing run down one bucket until an empty slot absorbs it. -/
def shift_go (hash_cap initial_bucket : ℕ) :
    ℕ → ℕ → Option ℕ → List (Option ℕ) → List (Option ℕ)
  | 0, _, _, table => table
  | fuel + 1, i, index, table =>
    match index with
    | none => table
    | some n =>
      shift_go hash_cap initial_bucket fuel (i + 1)
        (tget table ((initial_bucket + i) % hash_cap))
        (table.set ((initial_bucket + i) % hash_cap) (some n))

/-- SplitHeaderMut::shift. -/
def shift (hash_cap initial_bucket index : ℕ) (table : List (Option ℕ)) :
    List (Option ℕ) := shift_go hash_cap initial_bucket hash_cap 0 (some index) table

/-- The book-keeping tail of SplitHeaderMut::remove_bucket after the
unshift (`table2` is the repaired probe table): if the removed entry is
not the last, swap the last entry into its slot and re-aim that entry's
probe-table pointer at `index`. -/
def remove_bucket_fix (hash : K → ℕ) (o : IObject K V) (index : ℕ)
    (table2 : List (Option ℕ)) : IObject K V :=
  if o.items.length - 1 ≠ index then
    match find_bucket_from_index hash { o with table := table2 } (o.items.length - 1) with
    | some b2 =>
      { o with table := table2.set b2 (some index),
               items := iswap o.items index (o.items.length - 1) }
    | none => { o with table := table2 }
  else { o with table := table2 }

/-- SplitHeaderMut::remove_bucket (safety precondition in the source:
`bucket` in range and occupied; an empty bucket is a no-op here).  The
subsequent `pop` is modelled separately, as in the source. -/
def remove_bucket (hash : K → ℕ) (o : IObject K V) (bucket : ℕ) : IObject K V :=
  match tget o.table bucket with
  | none => o
  | some index =>
    remove_bucket_fix hash o index
      (unshift hash o.items (hash_capacity o.cap) bucket (o.table.set bucket none))

/-- HeaderMut::pop (safety precondition: not empty, hence the Option). -/
def popKV (o : IObject K V) : IObject K V × Option (K × V) :=
  ({ o with items := o.items.dropLast }, o.items.getLast?)

/-- IObject::new / the static empty object. -/
def new : IObject K V := ⟨0, [], []⟩

/-- IObject::with_capacity; alloc fills the probe table with the empty
sentinel. -/
def with_capacity (cap : ℕ) : IObject K V :=
  if cap = 0 then new else ⟨cap, [], List.replicate (hash_capacity cap) none⟩

/-- The bucket payload of a vacant find_bucket result. `Err(usize::MAX)`
(modelled `none`) is unreachable whenever the table has an empty slot;
it is mapped to bucket 0 to keep the model total. -/
def errBucket : Option ℕ → ℕ
  | some b => b
  | none => 0

/-- One step of the reinsertion loop of IObject::resize_internal: push
and shift the pair if its key is still vacant. -/
def reinsert [DecidableEq K] (hash : K → ℕ) (acc : IObject K V) (kv : K × V) :
    IObject K V :=
  match find_bucket hash acc kv.1 with
  | .error e =>
    { acc with items := acc.items ++ [kv],
               table := shift (hash_capacity acc.cap) (errBucket e)
                 acc.items.length acc.table }
  | .ok _ => acc

/-- IObject::resize_internal: replace self with a fresh
`with_capacity cap` and reinsert all old items in order (IntoIterator
yields them in insertion order); for cap = 0 the new object is static
and the items are dropped. -/
def resize_internal [DecidableEq K] (hash : K → ℕ) (o : IObject K V) (cap : ℕ) :
    IObject K V :=
  if cap = 0 then with_capacity cap
  else o.items.foldl (reinsert hash) (with_capacity cap)

/-- IObject::reserve. -/
def reserve [DecidableEq K] (hash : K → ℕ) (o : IObject K V) (additional : ℕ) :
    IObject K V :=
  if o.items.length + additional ≤ o.cap then o
  else resize_internal hash o (max (o.cap * 2) (max (o.items.length + additional) 4))

/-- The entry-based part of IObject::insert, after the reserve:
an occupied entry has its value replaced (returning the old value); a
vacant entry is pushed at the end and shifted into the table. -/
def insertPost [DecidableEq K] (hash : K → ℕ) (o1 : IObject K V) (k : K) (v : V) :
    IObject K V × Option V :=
  match find_bucket hash o1 k with
  | .ok bucket =>
    match tget o1.table bucket with
    | some index =>
      match o1.items.get? index with
      | some kv => ({ o1 with items := o1.items.set index (kv.1, v) }, some kv.2)
      | none => (o1, none)
    | none => (o1, none)
  | .error e =>
    ({ o1 with items := o1.items ++ [(k, v)],
               table := shift (hash_capacity o1.cap) (errBucket e)
                 o1.items.length o1.table }, none)

/-- IObject::insert = entry (which reserves one slot) + Occupied/Vacant
insert. -/
def insert [DecidableEq K] (hash : K → ℕ) (o : IObject K V) (k : K) (v : V) :
    IObject K V × Option V :=
  insertPost hash (reserve hash o 1) k v

/-- ObjectIndex::index_into for &IString (the basis of IObject::get). -/
def get [DecidableEq K] (hash : K → ℕ) (o : IObject K V) (k : K) : Option V :=
  if o.items.length = 0 then none
  else
    match find_bucket hash o k with
    | .ok bucket =>
      match tget o.table bucket with
      | some index => (o.items.get? index).map Prod.snd
      | none => none
    | .error _ => none

/-- ObjectIndex::remove for &IString (the basis of IObject::remove):
find the bucket, remove_bucket, pop. -/
def remove [DecidableEq K] (hash : K → ℕ) (o : IObject K V) (k : K) :
    IObject K V × Option (K × V) :=
  if o.items.length = 0 then (o, none)
  else
    match find_bucket hash o k with
    | .ok bucket => popKV (remove_bucket hash o bucket)
    | .error _ => (o, none)

/-- The loop of IObject::retain (`while index < hd.len`); each iteration
either advances the index or removes the current entry (shrinking the
length), so `items.length` iterations of fuel suffice.  In-place value
mutation by the predicate does not interact with the probe table and is
not modelled. -/
def retain_go [DecidableEq K] (hash : K → ℕ) (f : K → V → Bool) :
    ℕ → ℕ → IObject K V → IObject K V
  | 0, _, o => o
  | fuel + 1, index, o =>
    if index < o.items.length then
      match o.items.get? index with
      | some kv =>
        if f kv.1 kv.2 then retain_go hash f fuel (index + 1) o
        else
          match find_bucket_from_index hash o index with
          | some bucket =>
            retain_go hash f fuel index (popKV (remove_bucket hash o bucket)).1
          | none => o
      | none => o
    else o

/-- IObject::retain. -/
def retain [DecidableEq K] (hash : K → ℕ) (f : K → V → Bool) (o : IObject K V) :
    IObject K V :=
  if o.items.length = 0 then o else retain_go hash f o.items.length 0 o

/-- IObject::shrink_to_fit. -/
def shrink_to_fit [DecidableEq K] (hash : K → ℕ) (o : IObject K V) : IObject K V :=
  resize_internal hash o o.items.length

/-- The structural probe-table invariant of an IObject (claim C5): the
table has length hash_capacity cap, the items fit the capacity, every
slot holds the empty sentinel or a valid dense index, distinct buckets
hold distinct indices, every dense index is held by some bucket, keys
are pairwise distinct, the Robin Hood probe-distance condition holds (an
entry with positive probe distance d is preceded by an entry of probe
distance at least d - 1), and a completely full probe table (which can
only arise for cap ≤ 3, where hash_capacity cap = cap) contains at
least one ideally-placed entry. -/
structure Inv (hash : K → ℕ) (o : IObject K V) : Prop where
  lenT : o.table.length = hash_capacity o.cap
  lenI : o.items.length ≤ o.cap
  slot : ∀ b i, tget o.table b = some i → i < o.items.length
  inj : ∀ b1 b2 i, tget o.table b1 = some i → tget o.table b2 = some i → b1 = b2
  surj : ∀ i, i < o.items.length → ∃ b, tget o.table b = some i
  nodup : (o.items.map Prod.fst).Nodup
  robin : ∀ b i kv, tget o.table b = some i → o.items.get? i = some kv →
    0 < distOf hash (hash_capacity o.cap) b kv.1 →
    ∃ i2 kv2,
      tget o.table ((b + hash_capacity o.cap - 1) % hash_capacity o.cap) = some i2 ∧
      o.items.get? i2 = some kv2 ∧
      distOf hash (hash_capacity o.cap) b kv.1 ≤
        distOf hash (hash_capacity o.cap)
          ((b + hash_capacity o.cap - 1) % hash_capacity o.cap) kv2.1 + 1
  full0 : 0 < o.items.length → o.items.length = hash_capacity o.cap →
    ∃ b i kv, tget o.table b = some i ∧ o.items.get? i = some kv ∧
      distOf hash (hash_capacity o.cap) b kv.1 = 0

/-- ObjectIndex::index_into + unwrap, i.e. Index<I> for IObject: panics
(error) when the key is missing. -/
def index_op [DecidableEq K] (hash : K → ℕ) (o : IObject K V) (k : K) :
    Except Unit V :=
  match get hash o k with
  | some v => .ok v
  | none => .error ()

/-- Entry::or_insert on the already-reserved object `o1`: an occupied
entry returns its stored value unchanged, a vacant entry is filled with
`dflt` (push + shift, as VacantEntry::insert). -/
def or_insert [DecidableEq K] (hash : K → ℕ) (o1 : IObject K V) (k : K)
    (dflt : V) : IObject K V × V :=
  match find_bucket hash o1 k with
  | .ok bucket =>
    match tget o1.table bucket with
    | some index =>
      match o1.items.get? index with
      | some kv => (o1, kv.2)
      | none => (o1, dflt)
    | none => (o1, dflt)
  | .error e =>
    ({ o1 with items := o1.items ++ [(k, dflt)],
               table := shift (hash_capacity o1.cap) (errBucket e)
                 o1.items.length o1.table }, dflt)

/-- ObjectIndex::index_or_insert, i.e. IndexMut<I> for IObject:
entry(key).or_insert(default) — the call sites pass IValue::NULL. -/
def index_or_insert [DecidableEq K] (hash : K → ℕ) (o : IObject K V) (k : K)
    (dflt : V) : IObject K V × V :=
  or_insert hash (reserve hash o 1) k dflt

end IObject

/-! ## IValue (src/value.rs)

The dynamic JSON value.  Containers carry their backing structure
inline: an array its capacity and dense items, an object additionally
its probe table. -/

inductive IValue where
  | null
  | bool (b : Bool)
  | number (n : INumber)
  | string (s : String)
  | array (cap : ℕ) (items : List IValue)
  | object (cap : ℕ) (items : List (String × IValue)) (table : List (Option ℕ))

namespace IValue

def NULL : IValue := .null

/-- IValue::as_array (None on a non-array value). -/
def as_array : IValue → Option (IArray IValue)
  | .array cap items => some ⟨cap, items⟩
  | _ => none

/-- IValue::as_object (None on a non-object value). -/
def as_object : IValue → Option (IObject String IValue)
  | .object cap items table => some ⟨cap, items, table⟩
  | _ => none

/-- ValueIndex<usize>::index_into = as_array().unwrap().get(i): the
unwrap on a non-array receiver panics (error); a slice get is an
Option. -/
def index_into_usize (v : IValue) (i : ℕ) : Except Unit (Option IValue) :=
  match v.as_array with
  | some a => .ok (a.items.get? i)
  | none => .error ()

/-- Index<usize> for IValue: index_into(i).unwrap() — an out-of-range
index (or non-array receiver) panics. -/
def index_usize (v : IValue) (i : ℕ) : Except Unit IValue :=
  match v.index_into_usize i with
  | .ok (some x) => .ok x
  | _ => .error ()

/-- IndexMut<usize> for IValue: index_or_insert =
index_into_mut(i).unwrap() — for arrays the mutable index op also
panics out of range (get_mut has the same bounds as get). -/
def index_mut_usize (v : IValue) (i : ℕ) : Except Unit IValue :=
  match v.as_array with
  | some a =>
    match a.items.get? i with
    | some x => .ok x
    | none => .error ()
  | none => .error ()

/-- Index<&IString> for IValue: as_object().unwrap().get(key) then
unwrap, panicking on a missing key or non-object receiver. -/
def index_str (hash : String → ℕ) (v : IValue) (k : String) :
    Except Unit IValue :=
  match v.as_object with
  | some o =>
    match IObject.get hash o k with
    | some x => .ok x
    | none => .error ()
  | none => .error ()

end IValue

/-! ## Floating-point construction of IValue (src/value.rs, number.rs) -/

/-- A raw f64 input: a finite double carried exactly as a rational, or
one of the non-finite classes. -/
inductive Double where
  | finite (q : ℚ)
  | nan
  | inf
  | neginf
  deriving DecidableEq

/-- f64::is_finite. -/
def Double.is_finite : Double → Bool
  | .finite _ => true
  | _ => false

/-- TryFrom<f64> for INumber: Ok(new_f64(v)) for finite v, Err otherwise. -/
def try_from_f64 : Double → Except Unit INumber
  | .finite q => .ok (INumber.new_f64 q)
  | _ => .error ()

/-- TryFrom<f32> for INumber: Ok(new_f64(f64::from(v))) for finite v
(the f32 → f64 widening is exact), Err otherwise. -/
def try_from_f32 : Double → Except Unit INumber
  | .finite q => .ok (INumber.new_f64 q)
  | _ => .error ()

/-- From<f64> for IValue: INumber::try_from(v).map(Into::into)
.unwrap_or(IValue::NULL). -/
def IValue.from_f64 (v : Double) : IValue :=
  match try_from_f64 v with
  | .ok n => .number n
  | .error _ => IValue.NULL

/-- From<f32> for IValue: INumber::try_from(v).map(Into::into)
.unwrap_or(IValue::NULL). -/
def IValue.from_f32 (v : Double) : IValue :=
  match try_from_f32 v with
  | .ok n => .number n
  | .error _ => IValue.NULL


/-- C10: converting a non-finite f32 or f64 (NaN or an infinity) into an
IValue via the From<f32>/From<f64> conversions silently produces
IValue::NULL rather than a number or an error, even though constructing
an INumber from the same input fails with an explicit Err. -/
theorem C10_nonfinite_to_null (v : Double) (h : v.is_finite = false) :
    IValue.from_f64 v = IValue.NULL ∧ IValue.from_f32 v = IValue.NULL ∧
    try_from_f64 v = .error () ∧ try_from_f32 v = .error () := by
  cases v with
  | finite q => simp [Double.is_finite] at h
  | nan => exact ⟨rfl, rfl, rfl, rfl⟩
  | inf => exact ⟨rfl, rfl, rfl, rfl⟩
  | neginf => exact ⟨rfl, rfl, rfl, rfl⟩

/-- Witness for C10 at the concrete non-finite input NaN. -/
theorem C10_witness :
    Double.nan.is_finite = false ∧
    (IValue.from_f64 .nan = IValue.NULL ∧ IValue.from_f32 .nan = IValue.NULL ∧
     try_from_f64 .nan = .error () ∧ try_from_f32 .nan = .error ()) :=
  ⟨rfl, C10_nonfinite_to_null .nan rfl⟩

/-- C7 counterexample: the mutable index operator on an object with a
missing key does not panic.  IndexMut for IObject is
entry(key).or_insert(IValue::NULL): mutably indexing the empty object
with the key "a" inserts a NULL entry for "a" and returns NULL. -/
theorem C7_counterexample :
    (IObject.index_or_insert (fun _ => 0) (IObject.new : IObject String IValue)
        "a" IValue.NULL).1.items = [("a", IValue.NULL)] ∧
    (IObject.index_or_insert (fun _ => 0) (IObject.new : IObject String IValue)
        "a" IValue.NULL).2 = IValue.NULL := ⟨rfl, rfl⟩

/-- C7 (amended): the immutable index operator panics (modelled as an
error) on a missing key or out-of-range index, for arrays and objects,
and the mutable index operator panics for arrays; but the mutable index
operator on an OBJECT does not panic on a missing key: it inserts the
NULL default into the object and returns it (Entry::or_insert), while
on a present key it returns the stored value and leaves the entries
unchanged. -/
theorem C7_amended_indexing {K V : Type} [DecidableEq K] (hash : K → ℕ)
    (hs : String → ℕ) (v : IValue) (i : ℕ) (o : IObject K V) (k : K)
    (ks : String) (dflt : V) :
    (v.as_array = none →
      v.index_usize i = .error () ∧ v.index_mut_usize i = .error ()) ∧
    (∀ a, v.as_array = some a → a.items.length ≤ i →
      v.index_usize i = .error () ∧ v.index_mut_usize i = .error ()) ∧
    (∀ a x, v.as_array = some a → a.items.get? i = some x →
      v.index_usize i = .ok x ∧ v.index_mut_usize i = .ok x) ∧
    (IObject.get hash o k = none → IObject.index_op hash o k = .error ()) ∧
    (∀ x, IObject.get hash o k = some x → IObject.index_op hash o k = .ok x) ∧
    (∀ ov, v.as_object = some ov → IObject.get hs ov ks = none →
      IValue.index_str hs v ks = .error ()) ∧
    (∀ e, IObject.find_bucket hash (IObject.reserve hash o 1) k = .error e →
      (IObject.index_or_insert hash o k dflt).2 = dflt ∧
      (IObject.index_or_insert hash o k dflt).1.items =
        (IObject.reserve hash o 1).items ++ [(k, dflt)]) ∧
    (∀ b idx kv, IObject.find_bucket hash (IObject.reserve hash o 1) k = .ok b →
      IObject.tget (IObject.reserve hash o 1).table b = some idx →
      (IObject.reserve hash o 1).items.get? idx = some kv →
      IObject.index_or_insert hash o k dflt = (IObject.reserve hash o 1, kv.2)) := by
  refine ⟨?_, ?_, ?_, ?_, ?_, ?_, ?_, ?_⟩
  · intro h
    constructor
    · simp [IValue.index_usize, IValue.index_into_usize, h]
    · simp [IValue.index_mut_usize, h]
  · intro a h hle
    have hn : a.items.get? i = none := List.get?_len_le hle
    rw [List.get?_eq_getElem?] at hn
    constructor
    · simp [IValue.index_usize, IValue.index_into_usize, h, hn]
    · simp [IValue.index_mut_usize, h, hn]
  · intro a x h hx
    rw [List.get?_eq_getElem?] at hx
    constructor
    · simp [IValue.index_usize, IValue.index_into_usize, h, hx]
    · simp [IValue.index_mut_usize, h, hx]
  · intro h
    simp [IObject.index_op, h]
  · intro x h
    simp [IObject.index_op, h]
  · intro ov h hn
    simp [IValue.index_str, h, hn]
  · intro e h
    constructor
    · simp [IObject.index_or_insert, IObject.or_insert, h]
    · simp [IObject.index_or_insert, IObject.or_insert, h]
  · intro b idx kv h hidx hkv
    rw [List.get?_eq_getElem?] at hkv
    simp [IObject.index_or_insert, IObject.or_insert, h, hidx, hkv]

/-- Witness for C7 applied at concrete inputs: the array [null] indexed
at 1 (out of range), the empty object read at key 0, and the empty
object mutably indexed at vacant key 0 with default 7. -/
theorem C7_witness :
    ((IValue.array 2 [IValue.null]).index_usize 1 = .error () ∧
      (IValue.array 2 [IValue.null]).index_mut_usize 1 = .error ()) ∧
    IObject.index_op (fun n => n) (IObject.new : IObject ℕ ℕ) 0 = .error () ∧
    ((IObject.index_or_insert (fun n => n) (IObject.new : IObject ℕ ℕ) 0 7).2 = 7 ∧
      (IObject.index_or_insert (fun n => n) (IObject.new : IObject ℕ ℕ) 0 7).1.items =
        (IObject.reserve (fun n => n) (IObject.new : IObject ℕ ℕ) 1).items ++ [(0, 7)]) := by
  refine ⟨?_, ?_, ?_⟩
  · exact (C7_amended_indexing (fun n => n) (fun _ => 0) (IValue.array 2 [IValue.null])
      1 (IObject.new : IObject ℕ ℕ) 0 "a" 7).2.1 ⟨2, [IValue.null]⟩ rfl (by decide)
  · exact (C7_amended_indexing (fun n => n) (fun _ => 0) (IValue.array 2 [IValue.null])
      1 (IObject.new : IObject ℕ ℕ) 0 "a" 7).2.2.2.1 rfl
  · exact (C7_amended_indexing (fun n => n) (fun _ => 0) (IValue.array 2 [IValue.null])
      1 (IObject.new : IObject ℕ ℕ) 0 "a" 7).2.2.2.2.2.2.1 (some 0) rfl


/-! ## IObject verification: probe-table characterizations and map semantics -/

namespace IObject

variable {K V : Type}

/-! ### Modular index arithmetic -/

/-- Scanning offsets that differ by less than a full cycle land on
distinct buckets. -/
theorem mod_shift_ne {H : ℕ} (hH : 0 < H) (x d : ℕ) (hd1 : 0 < d) (hd2 : d < H) :
    (x + d) % H ≠ x % H := by
  intro he
  rw [← Nat.mod_add_mod] at he
  rcases lt_or_ge (x % H + d) H with hc | hc
  · rw [Nat.mod_eq_of_lt hc] at he
    omega
  · have hx := Nat.mod_lt x hH
    have h2 : x % H + d - H < H := by omega
    rw [Nat.mod_eq_sub_mod hc, Nat.mod_eq_of_lt h2] at he
    omega

theorem scan_ne {H : ℕ} (hH : 0 < H) (x a b : ℕ) (hab : a < b) (hd : b - a < H) :
    (x + a) % H ≠ (x + b) % H := by
  have h1 : x + b = (x + a) + (b - a) := by omega
  rw [h1]
  exact (mod_shift_ne hH (x + a) (b - a) (by omega) hd).symm

theorem scan_ne0 {H : ℕ} (hH : 0 < H) (x b : ℕ) (hb1 : 0 < b) (hb2 : b < H) :
    x % H ≠ (x + b) % H := (mod_shift_ne hH x b hb1 hb2).symm

/-- The ideal bucket plus the probe distance recovers the bucket. -/
theorem add_sub_mod {H : ℕ} (b k : ℕ) (hb : b < H) (hk : k ≤ H) :
    (k + (b + H - k) % H) % H = b := by
  rw [Nat.add_mod_mod]
  have h1 : k + (b + H - k) = b + H := by omega
  rw [h1, Nat.add_mod_right, Nat.mod_eq_of_lt hb]

/-- The probe distance of the bucket `(base + s) % H` from the ideal
bucket `base` is s, for s < H. -/
theorem dist_scan {H : ℕ} (base s : ℕ) (hs : s < H) (hbase : base < H) :
    ((base + s) % H + H - base) % H = s := by
  rcases lt_or_ge (base + s) H with hc | hc
  · rw [Nat.mod_eq_of_lt hc]
    have h1 : base + s + H - base = s + H := by omega
    rw [h1, Nat.add_mod_right, Nat.mod_eq_of_lt hs]
  · have h0 : (base + s) % H = base + s - H := by
      rw [Nat.mod_eq_sub_mod hc, Nat.mod_eq_of_lt (by omega)]
    rw [h0]
    have h1 : base + s - H + H - base = s := by omega
    rw [h1, Nat.mod_eq_of_lt hs]

/-! ### Probe-table slot lemmas -/

theorem tget_eq (table : List (Option ℕ)) (b : ℕ) :
    tget table b = (table.get? b).getD none := rfl

theorem tget_set_self (table : List (Option ℕ)) (b : ℕ) (v : Option ℕ)
    (hb : b < table.length) : tget (table.set b v) b = v := by
  rw [tget_eq, List.get?_set_eq_of_lt v hb]
  rfl

theorem tget_set_other (table : List (Option ℕ)) (b bq : ℕ) (v : Option ℕ)
    (h : b ≠ bq) : tget (table.set b v) bq = tget table bq := by
  rw [tget_eq, tget_eq, List.get?_set_ne v table h]

theorem tget_oob (table : List (Option ℕ)) (b : ℕ) (h : table.length ≤ b) :
    tget table b = none := by
  rw [tget_eq, List.get?_len_le h]
  rfl

theorem lt_length_of_tget_some {table : List (Option ℕ)} {b i : ℕ}
    (h : tget table b = some i) : b < table.length := by
  by_contra hc
  rw [tget_oob table b (by omega)] at h
  exact Option.noConfusion h

theorem tget_replicate (n b : ℕ) :
    tget (List.replicate n (none : Option ℕ)) b = none := by
  rw [tget_eq]
  simp [List.getD]

/-! ### Shift: pointwise characterization -/

theorem shift_go_none (H init fuel i : ℕ) (table : List (Option ℕ)) :
    shift_go H init fuel i none table = table := by
  cases fuel <;> rfl

/-- Characterization of the shift loop: if the scan starting at offset
`i` meets its first empty bucket at offset `i + t`, the loop writes `c`
at offset `i`, moves each of the `t` run entries down one bucket, and
leaves all other buckets unchanged. -/
theorem shift_go_spec (H init : ℕ) (hH : 0 < H) :
    ∀ (t fuel i c : ℕ) (table : List (Option ℕ)),
      table.length = H →
      t < fuel →
      t < H →
      tget table ((init + i + t) % H) = none →
      (∀ j, j < t → tget table ((init + i + j) % H) ≠ none) →
      (shift_go H init fuel i (some c) table).length = H ∧
      tget (shift_go H init fuel i (some c) table) ((init + i) % H) = some c ∧
      (∀ j, 1 ≤ j → j ≤ t →
        tget (shift_go H init fuel i (some c) table) ((init + i + j) % H) =
          tget table ((init + i + (j - 1)) % H)) ∧
      (∀ b, (∀ j, j ≤ t → b ≠ (init + i + j) % H) →
        tget (shift_go H init fuel i (some c) table) b = tget table b) := by
  intro t
  induction t with
  | zero =>
    intro fuel i c table hlen hfuel _ hempty _
    obtain ⟨f, rfl⟩ : ∃ f, fuel = f + 1 := ⟨fuel - 1, by omega⟩
    have he : tget table ((init + i) % H) = none := hempty
    have hstep : shift_go H init (f + 1) i (some c) table =
        table.set ((init + i) % H) (some c) := by
      simp only [shift_go]
      rw [he, shift_go_none]
    rw [hstep]
    have hpos : (init + i) % H < table.length := by
      rw [hlen]; exact Nat.mod_lt _ hH
    refine ⟨by simp [hlen], tget_set_self table _ _ hpos, by omega, ?_⟩
    intro b hb
    have hbne : (init + i) % H ≠ b := fun heq => hb 0 (by omega) heq.symm
    exact tget_set_other table _ b _ hbne
  | succ t ih =>
    intro fuel i c table hlen hfuel ht hempty hocc
    obtain ⟨f, rfl⟩ : ∃ f, fuel = f + 1 := ⟨fuel - 1, by omega⟩
    have h0 : tget table ((init + i) % H) ≠ none := hocc 0 (by omega)
    obtain ⟨c0, hc0⟩ : ∃ c0, tget table ((init + i) % H) = some c0 := by
      cases hx : tget table ((init + i) % H) with
      | none => exact absurd hx h0
      | some c0 => exact ⟨c0, rfl⟩
    have hstep : shift_go H init (f + 1) i (some c) table =
        shift_go H init f (i + 1) (some c0) (table.set ((init + i) % H) (some c)) := by
      simp only [shift_go]
      rw [hc0]
    have hlen1 : (table.set ((init + i) % H) (some c)).length = H := by
      simp [hlen]
    have hempty1 : tget (table.set ((init + i) % H) (some c))
        ((init + (i + 1) + t) % H) = none := by
      have e1 : init + (i + 1) + t = init + i + (t + 1) := by omega
      rw [e1, tget_set_other table _ _ _ (scan_ne0 hH (init + i) (t + 1) (by omega) ht)]
      exact hempty
    have hocc1 : ∀ j, j < t → tget (table.set ((init + i) % H) (some c))
        ((init + (i + 1) + j) % H) ≠ none := by
      intro j hj
      have e1 : init + (i + 1) + j = init + i + (j + 1) := by omega
      rw [e1, tget_set_other table _ _ _
        (scan_ne0 hH (init + i) (j + 1) (by omega) (by omega))]
      exact hocc (j + 1) (by omega)
    obtain ⟨iha, ihb, ihc, ihd⟩ := ih f (i + 1) c0 (table.set ((init + i) % H) (some c))
      hlen1 (by omega) (by omega) hempty1 hocc1
    rw [hstep]
    refine ⟨iha, ?_, ?_, ?_⟩
    · rw [ihd ((init + i) % H) ?_]
      · exact tget_set_self table _ _ (by rw [hlen]; exact Nat.mod_lt _ hH)
      · intro j hj
        have e1 : init + (i + 1) + j = init + i + (j + 1) := by omega
        rw [e1]
        exact scan_ne0 hH (init + i) (j + 1) (by omega) (by omega)
    · intro j hj1 hj2
      rcases eq_or_lt_of_le hj1 with hj | hj
      · subst hj
        rw [show init + i + 1 = init + (i + 1) from by omega]
        exact ihb.trans hc0.symm
      · have h1 := ihc (j - 1) (by omega) (by omega)
        have e1 : init + (i + 1) + (j - 1) = init + i + j := by omega
        have e2 : init + (i + 1) + (j - 1 - 1) = init + i + (j - 1) := by omega
        rw [e1, e2] at h1
        rw [h1, tget_set_other table _ _ _
          (scan_ne0 hH (init + i) (j - 1) (by omega) (by omega))]
    · intro b hb
      have hbne : (init + i) % H ≠ b := fun heq => hb 0 (by omega) heq.symm
      rw [ihd b ?_]
      · exact tget_set_other table _ b _ hbne
      · intro j hj
        have e1 : init + (i + 1) + j = init + i + (j + 1) := by omega
        rw [e1]
        exact hb (j + 1) (by omega)

/-- Every bucket below H is reached by some scan offset below H. -/
theorem exists_offset_of_bucket {H : ℕ} (hH : 0 < H) (init b : ℕ) (hb : b < H) :
    ∃ s, s < H ∧ (init + s) % H = b := by
  refine ⟨(b + H - init % H) % H, Nat.mod_lt _ hH, ?_⟩
  rw [Nat.add_mod_mod, ← Nat.mod_add_mod]
  have h1 : init % H + (b + H - init % H) = b + H := by
    have := Nat.mod_lt init hH
    omega
  rw [h1, Nat.add_mod_right, Nat.mod_eq_of_lt hb]

/-- If some scanned bucket is empty there is a FIRST empty scan offset. -/
theorem exists_first_empty (table : List (Option ℕ)) (H init : ℕ)
    (h : ∃ s, s < H ∧ tget table ((init + s) % H) = none) :
    ∃ t, t < H ∧ tget table ((init + t) % H) = none ∧
      ∀ j, j < t → tget table ((init + j) % H) ≠ none := by
  obtain ⟨s, hs, hse⟩ := h
  have hex : ∃ j, tget table ((init + j) % H) = none := ⟨s, hse⟩
  refine ⟨Nat.find hex, ?_, Nat.find_spec hex, ?_⟩
  · exact lt_of_le_of_lt (Nat.find_min' hex hse) hs
  · intro j hj
    exact Nat.find_min hex hj


/-! ### Swap lemmas -/

theorem tswap_length (table : List (Option ℕ)) (i j : ℕ) :
    (tswap table i j).length = table.length := by
  simp [tswap]

theorem tget_tswap_left (table : List (Option ℕ)) (i j : ℕ)
    (hi : i < table.length) (hij : j ≠ i) :
    tget (tswap table i j) i = tget table j := by
  unfold tswap
  rw [tget_set_other _ j i _ hij, tget_set_self table i _ hi]

theorem tget_tswap_right (table : List (Option ℕ)) (i j : ℕ)
    (hj : j < table.length) :
    tget (tswap table i j) j = tget table i := by
  unfold tswap
  rw [tget_set_self _ j _ (by simpa using hj)]

theorem tget_tswap_other (table : List (Option ℕ)) (i j b : ℕ)
    (hbi : i ≠ b) (hbj : j ≠ b) :
    tget (tswap table i j) b = tget table b := by
  unfold tswap
  rw [tget_set_other _ j b _ hbj, tget_set_other _ i b _ hbi]

/-! ### Unshift: pointwise characterization -/

/-- Characterization of the unshift loop.  Starting with a hole at
scan offset `i - 1` and `t` displaced entries at offsets `i .. i+t-1`,
followed by a stopper (empty or ideally-placed entry) unless the fuel
runs out exactly, the loop pulls each displaced entry back one bucket
and moves the hole to offset `i + t - 1`; all other buckets are
untouched. -/
theorem unshift_go_spec (hash : K → ℕ) (items : List (K × V)) (H init : ℕ)
    (hH : 0 < H) :
    ∀ (t fuel i prev : ℕ) (table : List (Option ℕ)),
      table.length = H →
      1 ≤ i →
      i + fuel ≤ H →
      t ≤ fuel →
      prev = (init + (i - 1)) % H →
      tget table prev = none →
      (∀ j, i ≤ j → j < i + t →
        ∃ idx kv, tget table ((init + j) % H) = some idx ∧
          items.get? idx = some kv ∧
          hash_bucket hash kv.1 H ≠ (init + j) % H) →
      (t = fuel ∨ (t < fuel ∧ (tget table ((init + (i + t)) % H) = none ∨
        ∃ idx kv, tget table ((init + (i + t)) % H) = some idx ∧
          items.get? idx = some kv ∧
          hash_bucket hash kv.1 H = (init + (i + t)) % H))) →
      (unshift_go hash items H init fuel i prev table).length = H ∧
      (∀ j, i ≤ j → j < i + t →
        tget (unshift_go hash items H init fuel i prev table) ((init + (j - 1)) % H) =
          tget table ((init + j) % H)) ∧
      tget (unshift_go hash items H init fuel i prev table) ((init + (i + t - 1)) % H) = none ∧
      (∀ b, (∀ j, i - 1 ≤ j → j ≤ i + t - 1 → b ≠ (init + j) % H) →
        tget (unshift_go hash items H init fuel i prev table) b = tget table b) := by
  intro t
  induction t with
  | zero =>
    intro fuel i prev table hlen h1i hiH htf hprev hhole hdisp hstop
    have hret : unshift_go hash items H init fuel i prev table = table := by
      rcases hstop with h | ⟨hlt, hs⟩
      · subst h
        rfl
      · obtain ⟨f, rfl⟩ : ∃ f, fuel = f + 1 := ⟨fuel - 1, by omega⟩
        rcases hs with hs | ⟨idx, kv, hidx, hkv, hid⟩
        · have hs2 : tget table ((init + i) % H) = none := hs
          simp only [unshift_go]
          rw [hs2]
        · have hidx2 : tget table ((init + i) % H) = some idx := hidx
          have hid2 : hash_bucket hash kv.1 H = (init + i) % H := hid
          simp only [unshift_go]
          split
          · rfl
          · next index heq =>
              rw [hidx2] at heq
              injection heq with heq2
              subst heq2
              split
              · rfl
              · next kv2 heq3 =>
                  rw [hkv] at heq3
                  injection heq3 with heq4
                  subst heq4
                  rw [if_pos hid2]
    rw [hret]
    refine ⟨hlen, by omega, ?_, fun b hb => rfl⟩
    have he : i + 0 - 1 = i - 1 := by omega
    rw [he, ← hprev]
    exact hhole
  | succ t ih =>
    intro fuel i prev table hlen h1i hiH htf hprev hhole hdisp hstop
    obtain ⟨f, rfl⟩ : ∃ f, fuel = f + 1 := ⟨fuel - 1, by omega⟩
    obtain ⟨idx, kv, hidx, hkv, hne⟩ := hdisp i (le_refl i) (by omega)
    have hstep : unshift_go hash items H init (f + 1) i prev table =
        unshift_go hash items H init f (i + 1) ((init + i) % H)
          (tswap table prev ((init + i) % H)) := by
      simp only [unshift_go]
      split
      · next heq =>
          rw [heq] at hidx
          exact Option.noConfusion hidx
      · next index heq =>
          rw [hidx] at heq
          injection heq with heq2
          subst heq2
          split
          · next heq3 =>
              rw [hkv] at heq3
              exact Option.noConfusion heq3
          · next kv2 heq3 =>
              rw [hkv] at heq3
              injection heq3 with heq4
              subst heq4
              rw [if_neg hne]
    -- distinctness of prev and the current bucket
    have hpb : prev ≠ (init + i) % H := by
      rw [hprev]
      have e1 : init + i = init + (i - 1) + (i - (i - 1)) := by omega
      rw [e1]
      exact scan_ne0 hH (init + (i - 1)) (i - (i - 1)) (by omega) (by omega)
    have hbH : (init + i) % H < H := Nat.mod_lt _ hH
    have hpH : prev < H := by rw [hprev]; exact Nat.mod_lt _ hH
    set table1 := tswap table prev ((init + i) % H) with htab1
    have hlen1 : table1.length = H := by rw [htab1, tswap_length, hlen]
    have hhole1 : tget table1 ((init + i) % H) = none := by
      rw [htab1, tget_tswap_right table prev _ (by omega)]
      exact hhole
    have hdisp1 : ∀ j, i + 1 ≤ j → j < i + 1 + t →
        ∃ idx2 kv2, tget table1 ((init + j) % H) = some idx2 ∧
          items.get? idx2 = some kv2 ∧
          hash_bucket hash kv2.1 H ≠ (init + j) % H := by
      intro j hj1 hj2
      obtain ⟨idx2, kv2, h1, h2, h3⟩ := hdisp j (by omega) (by omega)
      refine ⟨idx2, kv2, ?_, h2, h3⟩
      rw [htab1, tget_tswap_other table prev _ _ ?_ ?_]
      · exact h1
      · rw [hprev]
        have e1 : init + j = init + (i - 1) + (j - (i - 1)) := by omega
        rw [e1]
        exact scan_ne0 hH (init + (i - 1)) (j - (i - 1)) (by omega) (by omega)
      · have e1 : init + j = init + i + (j - i) := by omega
        rw [e1]
        exact scan_ne0 hH (init + i) (j - i) (by omega) (by omega)
    have hstop1 : t = f ∨ (t < f ∧ (tget table1 ((init + (i + 1 + t)) % H) = none ∨
        ∃ idx2 kv2, tget table1 ((init + (i + 1 + t)) % H) = some idx2 ∧
          items.get? idx2 = some kv2 ∧
          hash_bucket hash kv2.1 H = (init + (i + 1 + t)) % H)) := by
      rcases hstop with h | ⟨hlt, hs⟩
      · left; omega
      · right
        refine ⟨by omega, ?_⟩
        have e0 : i + 1 + t = i + (t + 1) := by omega
        have hsame : tget table1 ((init + (i + 1 + t)) % H) =
            tget table ((init + (i + (t + 1))) % H) := by
          rw [e0, htab1, tget_tswap_other table prev _ _ ?_ ?_]
          · rw [hprev]
            have e1 : init + (i + (t + 1)) = init + (i - 1) + (t + 2) := by omega
            rw [e1]
            exact scan_ne0 hH (init + (i - 1)) (t + 2) (by omega) (by omega)
          · have e1 : init + (i + (t + 1)) = init + i + (t + 1) := by omega
            rw [e1]
            exact scan_ne0 hH (init + i) (t + 1) (by omega) (by omega)
        rcases hs with hs | ⟨idx2, kv2, h1, h2, h3⟩
        · left
          rw [hsame]
          exact hs
        · right
          refine ⟨idx2, kv2, ?_, h2, ?_⟩
          · rw [hsame]
            exact h1
          · rw [show init + (i + 1 + t) = init + (i + (t + 1)) from by omega]
            exact h3
    obtain ⟨iha, ihb, ihc, ihd⟩ := ih f (i + 1) ((init + i) % H) table1
      hlen1 (by omega) (by omega) (by omega) (by rw [show i + 1 - 1 = i from by omega])
      hhole1 hdisp1 hstop1
    rw [hstep]
    refine ⟨iha, ?_, ?_, ?_⟩
    · intro j hj1 hj2
      rcases eq_or_lt_of_le hj1 with hj | hj
      · -- j = i: the pulled-back entry now sits at prev
        subst hj
        have hbprev : ∀ j2, i + 1 - 1 ≤ j2 → j2 ≤ i + 1 + t - 1 →
            (init + (i - 1)) % H ≠ (init + j2) % H := by
          intro j2 hj21 hj22
          have e1 : init + j2 = init + (i - 1) + (j2 - (i - 1)) := by omega
          rw [e1]
          exact scan_ne0 hH (init + (i - 1)) (j2 - (i - 1)) (by omega) (by omega)
        rw [ihd ((init + (i - 1)) % H) hbprev, htab1, ← hprev,
          tget_tswap_left table prev _ (by omega) (Ne.symm hpb)]
      · -- i < j: inside the recursive window
        have h1 := ihb j (by omega) (by omega)
        rw [h1, htab1, tget_tswap_other table prev _ _ ?_ ?_]
        · rw [hprev]
          have e1 : init + j = init + (i - 1) + (j - (i - 1)) := by omega
          rw [e1]
          exact scan_ne0 hH (init + (i - 1)) (j - (i - 1)) (by omega) (by omega)
        · have e1 : init + j = init + i + (j - i) := by omega
          rw [e1]
          exact scan_ne0 hH (init + i) (j - i) (by omega) (by omega)
    · have e1 : i + 1 + t - 1 = i + (t + 1) - 1 := by omega
      rw [← e1]
      exact ihc
    · intro b hb
      have hb1 : ∀ j, i + 1 - 1 ≤ j → j ≤ i + 1 + t - 1 → b ≠ (init + j) % H := by
        intro j hj1 hj2
        exact hb j (by omega) (by omega)
      rw [ihd b hb1, htab1, tget_tswap_other table prev _ b ?_ ?_]
      · rw [hprev]
        exact (hb (i - 1) (le_refl _) (by omega)).symm
      · exact (hb i (by omega) (by omega)).symm

/-! ### find_bucket loop lemmas -/

/-- An Ok result of the probe loop points at an occupied bucket holding
the searched key. -/
theorem find_bucket_go_ok [DecidableEq K] (hash : K → ℕ) (items : List (K × V))
    (table : List (Option ℕ)) (H init : ℕ) (key : K) :
    ∀ (fuel i b : ℕ),
      find_bucket_go hash items table H init key fuel i = .ok b →
      ∃ idx kv, tget table b = some idx ∧ items.get? idx = some kv ∧ kv.1 = key := by
  intro fuel
  induction fuel with
  | zero =>
    intro i b h
    exact Except.noConfusion h
  | succ f ih =>
    intro i b h
    simp only [find_bucket_go] at h
    split at h
    · exact Except.noConfusion h
    · next index heq =>
        split at h
        · exact Except.noConfusion h
        · next kv heq2 =>
            split at h
            · next hkey =>
                injection h with h2
                subst h2
                exact ⟨index, kv, heq, heq2, hkey⟩
            · next hkey =>
                split at h
                · exact Except.noConfusion h
                · exact ih (i + 1) b h

/-- An `Err(bucket)` result of the probe loop: the scan stopped at an
offset s with an empty bucket or an occupant whose probe distance is
below s, after passing only occupants of different keys displaced at
least as far as the scan. -/
theorem find_bucket_go_err [DecidableEq K] (hash : K → ℕ) (items : List (K × V))
    (table : List (Option ℕ)) (H init : ℕ) (key : K) :
    ∀ (fuel i b : ℕ),
      find_bucket_go hash items table H init key fuel i = .error (some b) →
      ∃ s, i ≤ s ∧ s < i + fuel ∧ b = (init + s) % H ∧
        (tget table b = none ∨
          ∃ idx kv, tget table b = some idx ∧ items.get? idx = some kv ∧
            kv.1 ≠ key ∧ distOf hash H b kv.1 < s) ∧
        (∀ j, i ≤ j → j < s →
          ∃ idx kv, tget table ((init + j) % H) = some idx ∧
            items.get? idx = some kv ∧ kv.1 ≠ key ∧
            j ≤ distOf hash H ((init + j) % H) kv.1) := by
  intro fuel
  induction fuel with
  | zero =>
    intro i b h
    have h2 : (Except.error none : Except (Option ℕ) ℕ) = .error (some b) := h
    injection h2 with h3
    exact Option.noConfusion h3
  | succ f ih =>
    intro i b h
    simp only [find_bucket_go] at h
    split at h
    · next heq =>
        injection h with h2
        injection h2 with h3
        refine ⟨i, le_refl i, by omega, h3.symm, Or.inl ?_, by omega⟩
        rw [← h3]
        exact heq
    · next index heq =>
        split at h
        · next heq2 =>
            injection h with h2
            exact Option.noConfusion h2
        · next kv heq2 =>
            split at h
            · exact Except.noConfusion h
            · next hkey =>
                split at h
                · next hdist =>
                    injection h with h2
                    injection h2 with h3
                    refine ⟨i, le_refl i, by omega, h3.symm, Or.inr ?_, by omega⟩
                    exact ⟨index, kv, h3 ▸ heq, heq2, hkey, h3 ▸ hdist⟩
                · next hdist =>
                    obtain ⟨s, hs1, hs2, hs3, hs4, hs5⟩ := ih (i + 1) b h
                    refine ⟨s, by omega, by omega, hs3, hs4, ?_⟩
                    intro j hj1 hj2
                    rcases eq_or_lt_of_le hj1 with hj | hj
                    · subst hj
                      exact ⟨index, kv, heq, heq2, hkey, by omega⟩
                    · exact hs5 j (by omega) hj2

/-- With every stored index in range and an empty bucket among the
scanned ones, the probe loop cannot end in `Err(usize::MAX)`. -/
theorem find_bucket_go_not_err_none [DecidableEq K] (hash : K → ℕ)
    (items : List (K × V)) (table : List (Option ℕ)) (H init : ℕ) (key : K)
    (hv : ∀ b idx, tget table b = some idx → idx < items.length) :
    ∀ (fuel i : ℕ),
      (∃ s, i ≤ s ∧ s < i + fuel ∧ tget table ((init + s) % H) = none) →
      find_bucket_go hash items table H init key fuel i ≠ .error none := by
  intro fuel
  induction fuel with
  | zero =>
    intro i h
    obtain ⟨s, h1, h2, _⟩ := h
    omega
  | succ f ih =>
    intro i hex h
    simp only [find_bucket_go] at h
    split at h
    · next heq =>
        injection h with h2
        exact Option.noConfusion h2
    · next index heq =>
        split at h
        · next heq2 =>
            rw [List.get?_eq_get (hv _ _ heq)] at heq2
            exact Option.noConfusion heq2
        · next kv heq2 =>
            split at h
            · exact Except.noConfusion h
            · split at h
              · injection h with h2
                exact Option.noConfusion h2
              · obtain ⟨s, hs1, hs2, hs3⟩ := hex
                have hsi : s ≠ i := by
                  intro he
                  subst he
                  rw [hs3] at heq
                  exact Option.noConfusion heq
                exact ih (i + 1) ⟨s, by omega, by omega, hs3⟩ h

/-- The probe loop finds a stored key: if the key sits at scan offset D
from its ideal bucket and every earlier scanned bucket holds a
different key displaced at least as far, the loop returns its bucket. -/
theorem find_bucket_go_reach [DecidableEq K] (hash : K → ℕ)
    (items : List (K × V)) (table : List (Option ℕ)) (H init : ℕ) (key : K)
    (D idx : ℕ) (kv : K × V)
    (hB : tget table ((init + D) % H) = some idx)
    (hkv : items.get? idx = some kv)
    (hkey : kv.1 = key)
    (hpath : ∀ j, j < D →
      ∃ idx2 kv2, tget table ((init + j) % H) = some idx2 ∧
        items.get? idx2 = some kv2 ∧ kv2.1 ≠ key ∧
        j ≤ distOf hash H ((init + j) % H) kv2.1) :
    ∀ (fuel i : ℕ), i ≤ D → D - i < fuel →
      find_bucket_go hash items table H init key fuel i = .ok ((init + D) % H) := by
  intro fuel
  induction fuel with
  | zero =>
    intro i h1 h2
    omega
  | succ f ih =>
    intro i h1 h2
    rcases eq_or_lt_of_le h1 with hi | hi
    · subst hi
      simp only [find_bucket_go]
      split
      · next heq =>
          rw [heq] at hB
          exact Option.noConfusion hB
      · next index heq =>
          rw [hB] at heq
          injection heq with heq2
          subst heq2
          split
          · next heq3 =>
              rw [hkv] at heq3
              exact Option.noConfusion heq3
          · next kv2 heq3 =>
              rw [hkv] at heq3
              injection heq3 with heq4
              subst heq4
              rw [if_pos hkey]
    · obtain ⟨idx2, kv2, hocc, hkv2, hne2, hdist2⟩ := hpath i hi
      simp only [find_bucket_go]
      split
      · next heq =>
          rw [heq] at hocc
          exact Option.noConfusion hocc
      · next index heq =>
          rw [hocc] at heq
          injection heq with heq2
          subst heq2
          split
          · next heq3 =>
              rw [hkv2] at heq3
              exact Option.noConfusion heq3
          · next kv3 heq3 =>
              rw [hkv2] at heq3
              injection heq3 with heq4
              subst heq4
              rw [if_neg hne2, if_neg (by omega)]
              exact ih (i + 1) (by omega) (by omega)

/-! ### Robin Hood path walking and find/get correctness -/

theorem step_back {H : ℕ} (hH : 0 < H) (x : ℕ) :
    ((x + 1) % H + H - 1) % H = x % H := by
  have e1 : (x + 1) % H + H - 1 = (x + 1) % H + (H - 1) := by omega
  rw [e1, Nat.mod_add_mod]
  have e2 : x + 1 + (H - 1) = x + H := by omega
  rw [e2, Nat.add_mod_right]

theorem lt_length_of_get?_some {α : Type} {l : List α} {n : ℕ} {a : α}
    (h : l.get? n = some a) : n < l.length := by
  by_contra hc
  rw [List.get?_len_le (by omega)] at h
  exact Option.noConfusion h

/-- From the local Robin Hood invariant, walk the probe chain of an
entry backwards: every scan offset j ≤ D of the path leading to a
stored entry holds an entry displaced at least j. -/
theorem robin_path (hash : K → ℕ) (items : List (K × V))
    (table : List (Option ℕ)) (H init : ℕ) (hH : 0 < H)
    (hrobin : ∀ b i kv, tget table b = some i → items.get? i = some kv →
      0 < distOf hash H b kv.1 →
      ∃ i2 kv2, tget table ((b + H - 1) % H) = some i2 ∧
        items.get? i2 = some kv2 ∧
        distOf hash H b kv.1 ≤ distOf hash H ((b + H - 1) % H) kv2.1 + 1)
    (D idx : ℕ) (kv : K × V)
    (hB : tget table ((init + D) % H) = some idx)
    (hkv : items.get? idx = some kv)
    (hD : D ≤ distOf hash H ((init + D) % H) kv.1) :
    ∀ j, j ≤ D → ∃ idx2 kv2, tget table ((init + j) % H) = some idx2 ∧
      items.get? idx2 = some kv2 ∧ j ≤ distOf hash H ((init + j) % H) kv2.1 := by
  have main : ∀ k, k ≤ D → ∃ idx2 kv2,
      tget table ((init + (D - k)) % H) = some idx2 ∧
      items.get? idx2 = some kv2 ∧
      D - k ≤ distOf hash H ((init + (D - k)) % H) kv2.1 := by
    intro k
    induction k with
    | zero => exact fun _ => ⟨idx, kv, hB, hkv, hD⟩
    | succ k ih =>
      intro hk
      obtain ⟨idx2, kv2, h1, h2, h3⟩ := ih (by omega)
      have hpos : 0 < distOf hash H ((init + (D - k)) % H) kv2.1 := by omega
      obtain ⟨idx3, kv3, g1, g2, g3⟩ := hrobin _ _ _ h1 h2 hpos
      have e1 : init + (D - k) = init + (D - (k + 1)) + 1 := by omega
      rw [e1, step_back hH] at g1
      rw [e1] at g3 h3
      rw [step_back hH] at g3
      exact ⟨idx3, kv3, g1, g2, by omega⟩
  intro j hj
  have h := main (D - j) (by omega)
  rw [show D - (D - j) = j from by omega] at h
  exact h

/-- With pairwise distinct keys, an index is determined by its key. -/
theorem index_eq_of_key_eq {items : List (K × V)}
    (hnd : (items.map Prod.fst).Nodup)
    {i1 i2 : ℕ} {kv1 kv2 : K × V} (h1 : items.get? i1 = some kv1)
    (h2 : items.get? i2 = some kv2) (hk : kv1.1 = kv2.1) : i1 = i2 := by
  have hm1 : (items.map Prod.fst).get? i1 = some kv1.1 := by
    rw [List.get?_map, h1]
    rfl
  have hm2 : (items.map Prod.fst).get? i2 = some kv2.1 := by
    rw [List.get?_map, h2]
    rfl
  have hlen : i1 < (items.map Prod.fst).length := by
    rw [List.length_map]
    exact lt_length_of_get?_some h1
  exact List.get?_inj hlen hnd (by rw [hm1, hm2, hk])

/-- Under the invariant, find_bucket on a stored key returns that
entry's unique bucket. -/
theorem find_bucket_found [DecidableEq K] (hash : K → ℕ) {o : IObject K V}
    (hinv : Inv hash o) {idx : ℕ} {kv : K × V}
    (hkv : o.items.get? idx = some kv) :
    ∃ b, find_bucket hash o kv.1 = .ok b ∧ tget o.table b = some idx := by
  obtain ⟨b, hb⟩ := hinv.surj idx (lt_length_of_get?_some hkv)
  have hbH : b < hash_capacity o.cap := by
    have := lt_length_of_tget_some hb
    rwa [hinv.lenT] at this
  have hH : 0 < hash_capacity o.cap := by omega
  have hinitH : hash_bucket hash kv.1 (hash_capacity o.cap) < hash_capacity o.cap :=
    Nat.mod_lt _ hH
  have hBD : (hash_bucket hash kv.1 (hash_capacity o.cap) +
      distOf hash (hash_capacity o.cap) b kv.1) % hash_capacity o.cap = b :=
    add_sub_mod b (hash_bucket hash kv.1 (hash_capacity o.cap)) hbH (le_of_lt hinitH)
  have hDH : distOf hash (hash_capacity o.cap) b kv.1 < hash_capacity o.cap :=
    Nat.mod_lt _ hH
  have hBD2 : tget o.table ((hash_bucket hash kv.1 (hash_capacity o.cap) +
      distOf hash (hash_capacity o.cap) b kv.1) % hash_capacity o.cap) = some idx := by
    rw [hBD]
    exact hb
  have hD2 : distOf hash (hash_capacity o.cap) b kv.1 ≤
      distOf hash (hash_capacity o.cap)
        ((hash_bucket hash kv.1 (hash_capacity o.cap) +
          distOf hash (hash_capacity o.cap) b kv.1) % hash_capacity o.cap) kv.1 := by
    rw [hBD]
  have hpath := robin_path hash o.items o.table (hash_capacity o.cap)
    (hash_bucket hash kv.1 (hash_capacity o.cap)) hH hinv.robin
    (distOf hash (hash_capacity o.cap) b kv.1) idx kv hBD2 hkv hD2
  refine ⟨b, ?_, hb⟩
  have hreach := find_bucket_go_reach hash o.items o.table (hash_capacity o.cap)
    (hash_bucket hash kv.1 (hash_capacity o.cap)) kv.1
    (distOf hash (hash_capacity o.cap) b kv.1) idx kv hBD2 hkv rfl
    ?_ (hash_capacity o.cap) 0 (by omega) (by omega)
  · unfold find_bucket
    rw [hreach, hBD]
  · intro j hj
    obtain ⟨idx2, kv2, g1, g2, g3⟩ := hpath j (by omega)
    refine ⟨idx2, kv2, g1, g2, ?_, g3⟩
    intro hkeq
    have hieq : idx2 = idx := index_eq_of_key_eq hinv.nodup g2 hkv hkeq
    subst hieq
    have hbeq := hinv.inj _ _ _ g1 hb
    rw [← hBD] at hbeq
    exact scan_ne hH (hash_bucket hash kv.1 (hash_capacity o.cap)) j
      (distOf hash (hash_capacity o.cap) b kv.1) hj (by omega) hbeq

/-- Under the invariant, get finds every stored entry. -/
theorem get_found [DecidableEq K] (hash : K → ℕ) {o : IObject K V}
    (hinv : Inv hash o) {idx : ℕ} {kv : K × V}
    (hkv : o.items.get? idx = some kv) :
    get hash o kv.1 = some kv.2 := by
  obtain ⟨b, hfb, hb⟩ := find_bucket_found hash hinv hkv
  have hne : ¬ o.items.length = 0 := by
    have := lt_length_of_get?_some hkv
    omega
  unfold get
  rw [if_neg hne]
  split
  · next b2 heq =>
      rw [hfb] at heq
      injection heq with heq2
      subst heq2
      rw [hb]
      show (o.items.get? idx).map Prod.snd = some kv.2
      rw [hkv]
      rfl
  · next e heq =>
      rw [hfb] at heq
      exact Except.noConfusion heq

/-- Under the invariant, get returns none for a key that is not
stored. -/
theorem get_absent [DecidableEq K] (hash : K → ℕ) {o : IObject K V}
    {key : K} (habs : ∀ kv, kv ∈ o.items → kv.1 ≠ key) :
    get hash o key = none := by
  unfold get
  split
  · rfl
  · next hne =>
      split
      · next b heq =>
          obtain ⟨idx, kv, h1, h2, h3⟩ :=
            find_bucket_go_ok hash o.items o.table (hash_capacity o.cap)
              (hash_bucket hash key (hash_capacity o.cap)) key
              (hash_capacity o.cap) 0 b heq
          exact absurd h3 (habs kv (List.get?_mem h2))
      · rfl

/-- The first stored entry with a given key. -/
def getEntry [DecidableEq K] (items : List (K × V)) (key : K) :
    Option (K × V) :=
  items.find? (fun kv => decide (kv.1 = key))

/-- Under the invariant, get agrees with association-list lookup on the
dense items. -/
theorem get_eq_getEntry [DecidableEq K] (hash : K → ℕ) {o : IObject K V}
    (hinv : Inv hash o) (key : K) :
    get hash o key = (getEntry o.items key).map Prod.snd := by
  cases hfind : getEntry o.items key with
  | none =>
    rw [get_absent hash ?_]
    · rfl
    · intro kv hm
      have := List.find?_eq_none.mp hfind kv hm
      simpa using this
  | some kv =>
    have hp : kv.1 = key := by
      have := List.find?_some hfind
      simpa using this
    have hm : kv ∈ o.items := List.mem_of_find?_eq_some hfind
    obtain ⟨idx, hidx⟩ := List.mem_iff_get?.mp hm
    rw [← hp]
    rw [get_found hash hinv hidx]
    rfl

/-! ### Invariant preservation: helpers -/

theorem cap_le_hash_capacity (cap : ℕ) : cap ≤ hash_capacity cap := by
  unfold hash_capacity
  omega

/-- With fewer items than capacity, some bucket is empty (pigeonhole:
buckets map injectively into the dense indices). -/
theorem exists_empty_bucket (hash : K → ℕ) {o : IObject K V}
    (hinv : Inv hash o) (hspace : o.items.length < o.cap) :
    ∃ be, be < hash_capacity o.cap ∧ tget o.table be = none := by
  by_contra hall
  push_neg at hall
  have hocc : ∀ b, b < hash_capacity o.cap → ∃ i, tget o.table b = some i := by
    intro b hb
    cases hx : tget o.table b with
    | none => exact absurd hx (hall b hb)
    | some i => exact ⟨i, rfl⟩
  have hcard : (Finset.range (hash_capacity o.cap)).card ≤
      (Finset.range o.items.length).card := by
    apply Finset.card_le_card_of_injOn (fun b => (tget o.table b).getD 0)
    · intro b hb
      rw [Finset.mem_range] at hb ⊢
      obtain ⟨i, hi⟩ := hocc b hb
      rw [hi]
      exact hinv.slot b i hi
    · intro b1 hb1 b2 hb2 hf
      rw [Finset.mem_coe, Finset.mem_range] at hb1 hb2
      obtain ⟨i1, hi1⟩ := hocc b1 hb1
      obtain ⟨i2, hi2⟩ := hocc b2 hb2
      simp only [hi1, hi2, Option.getD_some] at hf
      subst hf
      exact hinv.inj b1 b2 i1 hi1 hi2
  rw [Finset.card_range, Finset.card_range] at hcard
  have := cap_le_hash_capacity o.cap
  omega

/-- Under the invariant, if any bucket is empty then every stored entry
has probe distance at most hash_capacity - 2 (its whole probe chain is
occupied, so it cannot cover all buckets). -/
theorem dist_succ_lt (hash : K → ℕ) {o : IObject K V} (hinv : Inv hash o)
    {be : ℕ} (hbeH : be < hash_capacity o.cap) (hbee : tget o.table be = none)
    {b2 i2 : ℕ} {kv2 : K × V}
    (h1 : tget o.table b2 = some i2) (h2 : o.items.get? i2 = some kv2) :
    distOf hash (hash_capacity o.cap) b2 kv2.1 + 1 < hash_capacity o.cap := by
  have hH : 0 < hash_capacity o.cap := by omega
  have hb2H : b2 < hash_capacity o.cap := by
    have := lt_length_of_tget_some h1
    rwa [hinv.lenT] at this
  have hinit2 : hash_bucket hash kv2.1 (hash_capacity o.cap) < hash_capacity o.cap :=
    Nat.mod_lt _ hH
  have hb2eq : (hash_bucket hash kv2.1 (hash_capacity o.cap) +
      distOf hash (hash_capacity o.cap) b2 kv2.1) % hash_capacity o.cap = b2 :=
    add_sub_mod b2 _ hb2H (le_of_lt hinit2)
  have hpath2 := robin_path hash o.items o.table (hash_capacity o.cap)
    (hash_bucket hash kv2.1 (hash_capacity o.cap)) hH hinv.robin
    (distOf hash (hash_capacity o.cap) b2 kv2.1) i2 kv2
    (by rw [hb2eq]; exact h1) h2 (by rw [hb2eq])
  by_contra hc
  push_neg at hc
  have hdH : distOf hash (hash_capacity o.cap) b2 kv2.1 < hash_capacity o.cap :=
    Nat.mod_lt _ hH
  obtain ⟨j, hj, hje⟩ := exists_offset_of_bucket hH
    (hash_bucket hash kv2.1 (hash_capacity o.cap)) be hbeH
  obtain ⟨i3, kv3, g1, _, _⟩ := hpath2 j (by omega)
  rw [hje, hbee] at g1
  exact Option.noConfusion g1

/-- A key stored nowhere: find_bucket cannot return Ok under a stored
key mismatch everywhere. -/
theorem key_not_stored [DecidableEq K] (hash : K → ℕ) {o : IObject K V}
    (hinv : Inv hash o) {k : K} {e : Option ℕ}
    (hfb : find_bucket hash o k = .error e) :
    ∀ kv2, kv2 ∈ o.items → kv2.1 ≠ k := by
  intro kv2 hm hkeq
  obtain ⟨idx2, hidx2⟩ := List.mem_iff_get?.mp hm
  obtain ⟨bb, hbb, _⟩ := find_bucket_found hash hinv hidx2
  rw [hkeq] at hbb
  rw [hbb] at hfb
  exact Except.noConfusion hfb


/-- Counting: at least `items.length` buckets are occupied. -/
theorem occupied_card_ge (hash : K → ℕ) {o : IObject K V} (hinv : Inv hash o) :
    o.items.length ≤ ((Finset.range (hash_capacity o.cap)).filter
      (fun b => tget o.table b ≠ none)).card := by
  classical
  have hmem : ∀ i ∈ Finset.range o.items.length,
      (fun i => if h : i < o.items.length then Classical.choose (hinv.surj i h) else 0) i ∈
      (Finset.range (hash_capacity o.cap)).filter (fun b => tget o.table b ≠ none) := by
    intro i hi
    rw [Finset.mem_range] at hi
    simp only [dif_pos hi, Finset.mem_filter, Finset.mem_range]
    have hspec := Classical.choose_spec (hinv.surj i hi)
    constructor
    · have := lt_length_of_tget_some hspec
      rwa [hinv.lenT] at this
    · rw [hspec]
      exact fun h => Option.noConfusion h
  have hinj : Set.InjOn
      (fun i => if h : i < o.items.length then Classical.choose (hinv.surj i h) else 0)
      (Finset.range o.items.length) := by
    intro i1 h1 i2 h2 hf
    rw [Finset.mem_coe, Finset.mem_range] at h1 h2
    simp only [dif_pos h1, dif_pos h2] at hf
    have s1 := Classical.choose_spec (hinv.surj i1 h1)
    have s2 := Classical.choose_spec (hinv.surj i2 h2)
    rw [hf] at s1
    rw [s2] at s1
    injection s1 with h3
    exact h3.symm
  have h := Finset.card_le_card_of_injOn _ hmem hinj
  rwa [Finset.card_range] at h

/-- With exactly one item less than the table size there cannot be two
distinct empty buckets. -/
theorem not_two_empty (hash : K → ℕ) {o : IObject K V} (hinv : Inv hash o)
    (hlen : o.items.length + 1 = hash_capacity o.cap) {E Q : ℕ}
    (hEH : E < hash_capacity o.cap) (hQH : Q < hash_capacity o.cap) (hEQ : E ≠ Q)
    (hEe : tget o.table E = none) (hQe : tget o.table Q = none) : False := by
  classical
  have hocc := occupied_card_ge hash hinv
  have hsub : (Finset.range (hash_capacity o.cap)).filter
      (fun b => tget o.table b ≠ none) ⊆
      ((Finset.range (hash_capacity o.cap)).erase E).erase Q := by
    intro b hb
    rw [Finset.mem_filter] at hb
    rw [Finset.mem_erase, Finset.mem_erase]
    refine ⟨?_, ?_, hb.1⟩
    · intro he
      subst he
      exact hb.2 hQe
    · intro he
      subst he
      exact hb.2 hEe
  have hcard := Finset.card_le_card hsub
  rw [Finset.card_erase_of_mem, Finset.card_erase_of_mem, Finset.card_range] at hcard
  · omega
  · rw [Finset.mem_range]
    exact hEH
  · rw [Finset.mem_erase]
    exact ⟨Ne.symm hEQ, by rw [Finset.mem_range]; exact hQH⟩

/-- VacantEntry::insert (push then shift) preserves the invariant: the
Err payload of find_bucket is a real bucket, and pushing the pair at the
end of the items with a shift at that bucket yields a well-formed
object. -/
theorem insert_vacant_inv [DecidableEq K] (hash : K → ℕ) {o : IObject K V}
    (hinv : Inv hash o) (hspace : o.items.length < o.cap) {k : K} {v : V}
    {e : Option ℕ} (hfb : find_bucket hash o k = .error e) :
    ∃ b, e = some b ∧
      Inv hash (⟨o.cap, o.items ++ [(k, v)],
        shift (hash_capacity o.cap) b o.items.length o.table⟩ : IObject K V) := by
  have hcap : 0 < o.cap := by omega
  have hH : 0 < hash_capacity o.cap := by
    have := cap_le_hash_capacity o.cap
    omega
  obtain ⟨be, hbeH, hbee⟩ := exists_empty_bucket hash hinv hspace
  obtain ⟨b, rfl⟩ : ∃ b, e = some b := by
    cases e with
    | some b => exact ⟨b, rfl⟩
    | none =>
      exfalso
      refine find_bucket_go_not_err_none hash o.items o.table (hash_capacity o.cap)
        (hash_bucket hash k (hash_capacity o.cap)) k
        (fun b2 idx h => hinv.slot b2 idx h) (hash_capacity o.cap) 0 ?_ hfb
      obtain ⟨s2, hs2, hs2e⟩ := exists_offset_of_bucket hH
        (hash_bucket hash k (hash_capacity o.cap)) be hbeH
      exact ⟨s2, by omega, by omega, by rw [hs2e]; exact hbee⟩
  refine ⟨b, rfl, ?_⟩
  obtain ⟨s, hs0, hsH, hbdef, hstop, hpath⟩ := find_bucket_go_err hash o.items
    o.table (hash_capacity o.cap) (hash_bucket hash k (hash_capacity o.cap)) k
    (hash_capacity o.cap) 0 b hfb
  have hsH2 : s < hash_capacity o.cap := by omega
  have hinit0 : hash_bucket hash k (hash_capacity o.cap) < hash_capacity o.cap :=
    Nat.mod_lt _ hH
  have hbH : b < hash_capacity o.cap := by
    rw [hbdef]
    exact Nat.mod_lt _ hH
  have hbmod : b % hash_capacity o.cap = b := Nat.mod_eq_of_lt hbH
  have hpre : ∃ s2, s2 < hash_capacity o.cap ∧
      tget o.table ((b + s2) % hash_capacity o.cap) = none := by
    obtain ⟨s2, hs2, hs2e⟩ := exists_offset_of_bucket hH b be hbeH
    exact ⟨s2, hs2, by rw [hs2e]; exact hbee⟩
  obtain ⟨t, htH, hte, hto⟩ := exists_first_empty o.table (hash_capacity o.cap) b hpre
  show Inv hash (⟨o.cap, o.items ++ [(k, v)],
    shift_go (hash_capacity o.cap) b (hash_capacity o.cap) 0
      (some o.items.length) o.table⟩ : IObject K V)
  obtain ⟨sha, shb0, shc0, shd0⟩ := shift_go_spec (hash_capacity o.cap) b hH t
    (hash_capacity o.cap) 0 o.items.length o.table hinv.lenT htH htH hte hto
  have shb : tget (shift_go (hash_capacity o.cap) b (hash_capacity o.cap) 0
      (some o.items.length) o.table) b = some o.items.length := by
    have h0 := shb0
    rw [Nat.add_zero, hbmod] at h0
    exact h0
  have shc : ∀ j, 1 ≤ j → j ≤ t →
      tget (shift_go (hash_capacity o.cap) b (hash_capacity o.cap) 0
        (some o.items.length) o.table) ((b + j) % hash_capacity o.cap) =
      tget o.table ((b + (j - 1)) % hash_capacity o.cap) := shc0
  have shd : ∀ b2, (∀ j, j ≤ t → b2 ≠ (b + j) % hash_capacity o.cap) →
      tget (shift_go (hash_capacity o.cap) b (hash_capacity o.cap) 0
        (some o.items.length) o.table) b2 = tget o.table b2 := shd0
  have hitem_old : ∀ i2, i2 < o.items.length →
      (o.items ++ [(k, v)]).get? i2 = o.items.get? i2 :=
    fun i2 h => List.get?_append h
  have hitem_new : (o.items ++ [(k, v)]).get? o.items.length = some (k, v) :=
    List.get?_concat_length o.items (k, v)
  have hknotin := key_not_stored hash hinv hfb
  have hgetkv : ∀ i3, i3 < o.items.length → ∃ kv3, o.items.get? i3 = some kv3 :=
    fun i3 h => ⟨o.items.get ⟨i3, h⟩, List.get?_eq_get h⟩
  have hposinj : ∀ j1 j2, j1 < hash_capacity o.cap → j2 < hash_capacity o.cap →
      (b + j1) % hash_capacity o.cap = (b + j2) % hash_capacity o.cap → j1 = j2 := by
    intro j1 j2 h1 h2 he
    by_contra hne
    rcases Nat.lt_or_ge j1 j2 with hlt | hge
    · exact scan_ne hH b j1 j2 hlt (by omega) he
    · exact scan_ne hH b j2 j1 (by omega) (by omega) he.symm
  have hsource : ∀ b2 i2,
      tget (shift_go (hash_capacity o.cap) b (hash_capacity o.cap) 0
        (some o.items.length) o.table) b2 = some i2 →
      (b2 = b ∧ i2 = o.items.length) ∨
      (∃ j, 1 ≤ j ∧ j ≤ t ∧ b2 = (b + j) % hash_capacity o.cap ∧
        tget o.table ((b + (j - 1)) % hash_capacity o.cap) = some i2) ∨
      ((∀ j, j ≤ t → b2 ≠ (b + j) % hash_capacity o.cap) ∧
        tget o.table b2 = some i2) := by
    intro b2 i2 h2
    by_cases hc : ∃ j, j ≤ t ∧ b2 = (b + j) % hash_capacity o.cap
    · obtain ⟨j, hj, rfl⟩ := hc
      rcases Nat.eq_zero_or_pos j with h0 | hpos
      · subst h0
        rw [Nat.add_zero, hbmod] at h2
        rw [shb] at h2
        injection h2 with h3
        exact Or.inl ⟨by rw [Nat.add_zero, hbmod], h3.symm⟩
      · right
        left
        rw [shc j hpos hj] at h2
        exact ⟨j, hpos, hj, rfl, h2⟩
    · right
      right
      push_neg at hc
      rw [shd b2 hc] at h2
      exact ⟨hc, h2⟩
  have hbcase : (t = 0 ∧ tget o.table b = none) ∨
      (1 ≤ t ∧ ∃ idxb kvb, tget o.table b = some idxb ∧
        o.items.get? idxb = some kvb ∧ kvb.1 ≠ k ∧
        distOf hash (hash_capacity o.cap) b kvb.1 < s) := by
    rcases hstop with hemp | ⟨idxb, kvb, h1, h2, h3, h4⟩
    · left
      refine ⟨?_, hemp⟩
      by_contra hne
      have h5 := hto 0 (by omega)
      rw [Nat.add_zero, hbmod] at h5
      exact h5 hemp
    · right
      refine ⟨?_, idxb, kvb, h1, h2, h3, h4⟩
      by_contra hne
      have ht0 : t = 0 := by omega
      subst ht0
      rw [Nat.add_zero, hbmod] at hte
      rw [hte] at h1
      exact Option.noConfusion h1
  have hdistb : distOf hash (hash_capacity o.cap) b k = s := by
    rw [hbdef]
    exact dist_scan _ _ hsH2 hinit0
  have hstepdist : ∀ (β : ℕ) (key2 : K),
      distOf hash (hash_capacity o.cap) ((β + 1) % hash_capacity o.cap) key2 =
        (distOf hash (hash_capacity o.cap) β key2 + 1) % hash_capacity o.cap := by
    intro β key2
    unfold distOf
    have hhb : hash_bucket hash key2 (hash_capacity o.cap) < hash_capacity o.cap :=
      Nat.mod_lt _ hH
    have h1 : (β + 1) % hash_capacity o.cap + hash_capacity o.cap -
        hash_bucket hash key2 (hash_capacity o.cap) =
        (β + 1) % hash_capacity o.cap +
          (hash_capacity o.cap - hash_bucket hash key2 (hash_capacity o.cap)) := by
      omega
    rw [h1, Nat.mod_add_mod]
    have h2 : β + 1 + (hash_capacity o.cap -
        hash_bucket hash key2 (hash_capacity o.cap)) =
        β + hash_capacity o.cap - hash_bucket hash key2 (hash_capacity o.cap) + 1 := by
      omega
    rw [h2, ← Nat.mod_add_mod]
  refine ⟨sha, ?_, ?_, ?_, ?_, ?_, ?_, ?_⟩
  · rw [List.length_append]
    simp only [List.length_singleton]
    omega
  · intro b2 i2 h2
    rw [List.length_append]
    simp only [List.length_singleton]
    rcases hsource b2 i2 h2 with ⟨_, rfl⟩ | ⟨j, _, _, _, hold⟩ | ⟨_, hold⟩
    · omega
    · have := hinv.slot _ _ hold
      omega
    · have := hinv.slot _ _ hold
      omega
  · intro b1 b2 i2 h1 h2
    rcases hsource b1 i2 h1 with ⟨rfl, rfl⟩ | ⟨j1, hj11, hj12, rfl, hold1⟩ | ⟨hnot1, hold1⟩
    · rcases hsource b2 _ h2 with ⟨rfl, _⟩ | ⟨j2, hj21, hj22, rfl, hold2⟩ | ⟨hnot2, hold2⟩
      · rfl
      · have := hinv.slot _ _ hold2
        omega
      · have := hinv.slot _ _ hold2
        omega
    · rcases hsource b2 i2 h2 with ⟨rfl, rfl⟩ | ⟨j2, hj21, hj22, rfl, hold2⟩ | ⟨hnot2, hold2⟩
      · have := hinv.slot _ _ hold1
        omega
      · have heq := hinv.inj _ _ _ hold1 hold2
        have hje := hposinj (j1 - 1) (j2 - 1) (by omega) (by omega) heq
        rw [show j1 = j2 from by omega]
      · have heq := hinv.inj _ _ _ hold1 hold2
        exact absurd heq.symm (hnot2 (j1 - 1) (by omega))
    · rcases hsource b2 i2 h2 with ⟨rfl, rfl⟩ | ⟨j2, hj21, hj22, rfl, hold2⟩ | ⟨hnot2, hold2⟩
      · have := hinv.slot _ _ hold1
        omega
      · have heq := hinv.inj _ _ _ hold2 hold1
        exact absurd heq.symm (hnot1 (j2 - 1) (by omega))
      · exact hinv.inj _ _ _ hold1 hold2
  · intro i2 hi2
    rw [List.length_append] at hi2
    simp only [List.length_singleton] at hi2
    rcases Nat.lt_or_ge i2 o.items.length with hlt | hge
    · obtain ⟨b_old, hbold⟩ := hinv.surj i2 hlt
      by_cases hc : ∃ j, j ≤ t ∧ b_old = (b + j) % hash_capacity o.cap
      · obtain ⟨j, hj, rfl⟩ := hc
        have hjt : j < t := by
          rcases eq_or_lt_of_le hj with hj2 | hj2
          · subst hj2
            rw [hte] at hbold
            exact absurd hbold (fun h => Option.noConfusion h)
          · exact hj2
        refine ⟨(b + (j + 1)) % hash_capacity o.cap, ?_⟩
        rw [shc (j + 1) (by omega) (by omega)]
        exact hbold
      · push_neg at hc
        refine ⟨b_old, ?_⟩
        rw [shd b_old hc]
        exact hbold
    · have hie : i2 = o.items.length := by omega
      subst hie
      exact ⟨b, shb⟩
  · rw [List.map_append]
    refine List.nodup_append.mpr ⟨hinv.nodup, List.nodup_singleton k, ?_⟩
    intro a ha hain
    have hak : a = k := by simpa using hain
    subst hak
    obtain ⟨kv2, hkv2m, hkv2e⟩ := List.mem_map.mp ha
    exact hknotin kv2 hkv2m hkv2e
  · show ∀ b2 i2 kv2,
        tget (shift_go (hash_capacity o.cap) b (hash_capacity o.cap) 0
          (some o.items.length) o.table) b2 = some i2 →
        (o.items ++ [(k, v)]).get? i2 = some kv2 →
        0 < distOf hash (hash_capacity o.cap) b2 kv2.1 →
        ∃ i3 kv3,
          tget (shift_go (hash_capacity o.cap) b (hash_capacity o.cap) 0
            (some o.items.length) o.table)
            ((b2 + hash_capacity o.cap - 1) % hash_capacity o.cap) = some i3 ∧
          (o.items ++ [(k, v)]).get? i3 = some kv3 ∧
          distOf hash (hash_capacity o.cap) b2 kv2.1 ≤
            distOf hash (hash_capacity o.cap)
              ((b2 + hash_capacity o.cap - 1) % hash_capacity o.cap) kv3.1 + 1
    intro b2 i2 kv2 h2 hkv2 hdpos
    rcases hsource b2 i2 h2 with ⟨heqb, rfl⟩ | ⟨j, hj1, hjt, rfl, holdj⟩ | ⟨hnot, holdb⟩
    · -- the new entry at bucket b, probe distance s
      rw [heqb] at hdpos ⊢
      rw [hitem_new] at hkv2
      injection hkv2 with hkv2e
      subst hkv2e
      have hdpos2 : 0 < s := by
        rw [← hdistb]
        exact hdpos
      have epred : (b + hash_capacity o.cap - 1) % hash_capacity o.cap =
          (hash_bucket hash k (hash_capacity o.cap) + (s - 1)) % hash_capacity o.cap := by
        rw [hbdef, show hash_bucket hash k (hash_capacity o.cap) + s =
          hash_bucket hash k (hash_capacity o.cap) + (s - 1) + 1 from by omega,
          step_back hH]
      obtain ⟨idx3, kv3, hp1, hp2, hp3, hp4⟩ := hpath (s - 1) (by omega) (by omega)
      have hprednot : ∀ j2, j2 ≤ t →
          (b + hash_capacity o.cap - 1) % hash_capacity o.cap ≠
            (b + j2) % hash_capacity o.cap := by
        intro j2 hj2 he
        have eb : b + hash_capacity o.cap - 1 = b + (hash_capacity o.cap - 1) := by
          omega
        rw [eb] at he
        have hj2e : hash_capacity o.cap - 1 = j2 :=
          hposinj (hash_capacity o.cap - 1) j2 (by omega) (by omega) he
        have hpe : tget o.table
            ((b + (hash_capacity o.cap - 1)) % hash_capacity o.cap) = none := by
          rw [show hash_capacity o.cap - 1 = t from by omega]
          exact hte
        rw [← eb, epred] at hpe
        rw [hpe] at hp1
        exact Option.noConfusion hp1
      have hpredu : tget (shift_go (hash_capacity o.cap) b (hash_capacity o.cap) 0
          (some o.items.length) o.table)
          ((b + hash_capacity o.cap - 1) % hash_capacity o.cap) = some idx3 := by
        rw [shd _ hprednot, epred]
        exact hp1
      have hidx3len := hinv.slot _ _ hp1
      refine ⟨idx3, kv3, hpredu, ?_, ?_⟩
      · rw [hitem_old idx3 hidx3len]
        exact hp2
      · have hgoal : distOf hash (hash_capacity o.cap) b (k, v).1 = s := hdistb
        rw [hgoal, epred]
        omega
    · -- a run entry, moved one bucket down from (b + (j - 1))
      have hi2len := hinv.slot _ _ holdj
      rw [hitem_old i2 hi2len] at hkv2
      have hb2eq2 : (b + j) % hash_capacity o.cap =
          ((b + (j - 1)) % hash_capacity o.cap + 1) % hash_capacity o.cap := by
        rw [Nat.mod_add_mod, show b + (j - 1) + 1 = b + j from by omega]
      have hdnew : distOf hash (hash_capacity o.cap)
          ((b + j) % hash_capacity o.cap) kv2.1 =
          distOf hash (hash_capacity o.cap)
            ((b + (j - 1)) % hash_capacity o.cap) kv2.1 + 1 := by
        rw [hb2eq2, hstepdist]
        exact Nat.mod_eq_of_lt (by
          have := dist_succ_lt hash hinv hbeH hbee holdj hkv2
          omega)
      have hpredrun : ((b + j) % hash_capacity o.cap + hash_capacity o.cap - 1) %
          hash_capacity o.cap = (b + (j - 1)) % hash_capacity o.cap := by
        rw [show b + j = b + (j - 1) + 1 from by omega]
        exact step_back hH (b + (j - 1))
      rcases eq_or_lt_of_le hj1 with hj1e | hj1e
      · -- j = 1: the predecessor bucket b now holds the new entry
        rcases hbcase with ⟨ht0, _⟩ | ⟨ht1, idxb, kvb, hob1, hob2, hob3, hob4⟩
        · omega
        · have hj1s : j = 1 := hj1e.symm
          subst hj1s
          have holdb2 : tget o.table b = some i2 := by
            have h0 := holdj
            rw [show (1 : ℕ) - 1 = 0 from rfl, Nat.add_zero, hbmod] at h0
            exact h0
          rw [hob1] at holdb2
          injection holdb2 with hie
          subst hie
          rw [hob2] at hkv2
          injection hkv2 with hkve
          subst hkve
          refine ⟨o.items.length, (k, v), ?_, hitem_new, ?_⟩
          · rw [hpredrun, show (1 : ℕ) - 1 = 0 from rfl, Nat.add_zero, hbmod]
            exact shb
          · have e0 : distOf hash (hash_capacity o.cap)
                ((b + (1 - 1)) % hash_capacity o.cap) kvb.1 =
                distOf hash (hash_capacity o.cap) b kvb.1 := by
              rw [show (1 : ℕ) - 1 = 0 from rfl, Nat.add_zero, hbmod]
            have e1 : ((b + 1) % hash_capacity o.cap + hash_capacity o.cap - 1) %
                hash_capacity o.cap = b := by
              rw [hpredrun, show (1 : ℕ) - 1 = 0 from rfl, Nat.add_zero, hbmod]
            have hds : distOf hash (hash_capacity o.cap) b (k, v).1 = s := hdistb
            rw [e1, hdnew, e0, hds]
            omega
      · -- j at least 2: the predecessor holds the shifted occupant of (b + (j - 2))
        have hocc2 : tget o.table ((b + (j - 2)) % hash_capacity o.cap) ≠ none :=
          hto (j - 2) (by omega)
        obtain ⟨idx4, hidx4⟩ : ∃ idx4,
            tget o.table ((b + (j - 2)) % hash_capacity o.cap) = some idx4 := by
          cases hx : tget o.table ((b + (j - 2)) % hash_capacity o.cap) with
          | none => exact absurd hx hocc2
          | some i4 => exact ⟨i4, rfl⟩
        have hidx4len := hinv.slot _ _ hidx4
        obtain ⟨kv4, hkv4⟩ := hgetkv idx4 hidx4len
        have hpredv : tget (shift_go (hash_capacity o.cap) b (hash_capacity o.cap) 0
            (some o.items.length) o.table)
            ((b + (j - 1)) % hash_capacity o.cap) = some idx4 := by
          rw [shc (j - 1) (by omega) (by omega),
            show j - 1 - 1 = j - 2 from by omega]
          exact hidx4
        refine ⟨idx4, kv4, by rw [hpredrun]; exact hpredv, ?_, ?_⟩
        · rw [hitem_old idx4 hidx4len]
          exact hkv4
        · have hdnew4 : distOf hash (hash_capacity o.cap)
              ((b + (j - 1)) % hash_capacity o.cap) kv4.1 =
              distOf hash (hash_capacity o.cap)
                ((b + (j - 2)) % hash_capacity o.cap) kv4.1 + 1 := by
            have hb4eq : (b + (j - 1)) % hash_capacity o.cap =
                ((b + (j - 2)) % hash_capacity o.cap + 1) % hash_capacity o.cap := by
              rw [Nat.mod_add_mod, show b + (j - 2) + 1 = b + (j - 1) from by omega]
            rw [hb4eq, hstepdist]
            exact Nat.mod_eq_of_lt (by
              have := dist_succ_lt hash hinv hbeH hbee hidx4 hkv4
              omega)
          have hold_le : distOf hash (hash_capacity o.cap)
              ((b + (j - 1)) % hash_capacity o.cap) kv2.1 ≤
              distOf hash (hash_capacity o.cap)
                ((b + (j - 2)) % hash_capacity o.cap) kv4.1 + 1 := by
            rcases Nat.eq_zero_or_pos (distOf hash (hash_capacity o.cap)
                ((b + (j - 1)) % hash_capacity o.cap) kv2.1) with h0 | hpos
            · omega
            · obtain ⟨i5, kv5, q1, q2, q3⟩ := hinv.robin _ _ _ holdj hkv2 hpos
              have hpredb : ((b + (j - 1)) % hash_capacity o.cap +
                  hash_capacity o.cap - 1) % hash_capacity o.cap =
                  (b + (j - 2)) % hash_capacity o.cap := by
                rw [show b + (j - 1) = b + (j - 2) + 1 from by omega]
                exact step_back hH (b + (j - 2))
              rw [hpredb] at q1 q3
              rw [hidx4] at q1
              injection q1 with hq1
              subst hq1
              rw [hkv4] at q2
              injection q2 with hq2
              subst hq2
              exact q3
          rw [hdnew, hpredrun, hdnew4]
          omega
    · -- an untouched bucket: the old robin clause transfers
      have hi2len := hinv.slot _ _ holdb
      rw [hitem_old i2 hi2len] at hkv2
      obtain ⟨idx3, kv3, q1, q2, q3⟩ := hinv.robin b2 i2 kv2 holdb hkv2 hdpos
      have hb2H : b2 < hash_capacity o.cap := by
        have := lt_length_of_tget_some holdb
        rwa [hinv.lenT] at this
      by_cases hc : ∃ j2, j2 ≤ t ∧
          (b2 + hash_capacity o.cap - 1) % hash_capacity o.cap =
            (b + j2) % hash_capacity o.cap
      · obtain ⟨j2, hj2t, hj2e⟩ := hc
        rcases eq_or_lt_of_le hj2t with hj2e2 | hj2lt
        · exfalso
          rw [hj2e, hj2e2, hte] at q1
          exact Option.noConfusion q1
        · exfalso
          have hb2back : b2 = (b + (j2 + 1)) % hash_capacity o.cap := by
            have h1 : ((b2 + hash_capacity o.cap - 1) % hash_capacity o.cap + 1) %
                hash_capacity o.cap = b2 := by
              rw [Nat.mod_add_mod,
                show b2 + hash_capacity o.cap - 1 + 1 = b2 + hash_capacity o.cap
                  from by omega,
                Nat.add_mod_right]
              exact Nat.mod_eq_of_lt hb2H
            rw [← h1, hj2e, Nat.mod_add_mod,
              show b + j2 + 1 = b + (j2 + 1) from by omega]
          exact hnot (j2 + 1) (by omega) hb2back
      · push_neg at hc
        refine ⟨idx3, kv3, ?_, ?_, q3⟩
        · rw [shd _ hc]
          exact q1
        · rw [hitem_old idx3 (hinv.slot _ _ q1)]
          exact q2
  · show 0 < (o.items ++ [(k, v)]).length →
        (o.items ++ [(k, v)]).length = hash_capacity o.cap →
        ∃ b2 i2 kv2, tget (shift_go (hash_capacity o.cap) b (hash_capacity o.cap) 0
            (some o.items.length) o.table) b2 = some i2 ∧
          (o.items ++ [(k, v)]).get? i2 = some kv2 ∧
          distOf hash (hash_capacity o.cap) b2 kv2.1 = 0
    intro hpos hfull
    rw [List.length_append, List.length_singleton] at hfull
    rcases Nat.eq_zero_or_pos s with hs0 | hs1
    · refine ⟨b, o.items.length, (k, v), shb, hitem_new, ?_⟩
      have hgoal : distOf hash (hash_capacity o.cap) b (k, v).1 = s := hdistb
      rw [hgoal]
      omega
    · have htl : t + 1 < hash_capacity o.cap := by
        by_contra hcon
        have ht1 : t = hash_capacity o.cap - 1 := by omega
        obtain ⟨idxp, kvp, hp1, _, _, _⟩ := hpath (s - 1) (by omega) (by omega)
        have hEeq : (hash_bucket hash k (hash_capacity o.cap) + (s - 1)) %
            hash_capacity o.cap = (b + t) % hash_capacity o.cap := by
          rw [ht1, hbdef, Nat.mod_add_mod,
            show hash_bucket hash k (hash_capacity o.cap) + s +
              (hash_capacity o.cap - 1) =
              hash_bucket hash k (hash_capacity o.cap) + (s - 1) +
                hash_capacity o.cap from by omega,
            Nat.add_mod_right]
        rw [hEeq, hte] at hp1
        exact Option.noConfusion hp1
      have hQne : ∀ j, j ≤ t → (b + (t + 1)) % hash_capacity o.cap ≠
          (b + j) % hash_capacity o.cap := by
        intro j hj he
        have := hposinj (t + 1) j (by omega) (by omega) he
        omega
      have hQocc : tget o.table ((b + (t + 1)) % hash_capacity o.cap) ≠ none := by
        intro hQe
        exact not_two_empty hash hinv (by omega) (Nat.mod_lt _ hH) (Nat.mod_lt _ hH)
          (fun he => by have := hposinj t (t + 1) (by omega) (by omega) he; omega)
          hte hQe
      obtain ⟨i4, hi4⟩ : ∃ i4,
          tget o.table ((b + (t + 1)) % hash_capacity o.cap) = some i4 := by
        cases hx : tget o.table ((b + (t + 1)) % hash_capacity o.cap) with
        | none => exact absurd hx hQocc
        | some i4 => exact ⟨i4, rfl⟩
      have hi4len := hinv.slot _ _ hi4
      obtain ⟨kv4, hkv4⟩ := hgetkv i4 hi4len
      have hd4 : distOf hash (hash_capacity o.cap)
          ((b + (t + 1)) % hash_capacity o.cap) kv4.1 = 0 := by
        by_contra hd
        obtain ⟨i5, kv5, q1, _, _⟩ := hinv.robin _ _ _ hi4 hkv4 (by omega)
        have hpredQ : ((b + (t + 1)) % hash_capacity o.cap +
            hash_capacity o.cap - 1) % hash_capacity o.cap =
            (b + t) % hash_capacity o.cap := by
          rw [show b + (t + 1) = b + t + 1 from by omega]
          exact step_back hH (b + t)
        rw [hpredQ, hte] at q1
        exact Option.noConfusion q1
      refine ⟨(b + (t + 1)) % hash_capacity o.cap, i4, kv4, ?_, ?_, hd4⟩
      · rw [shd _ hQne]
        exact hi4
      · rw [hitem_old i4 hi4len]
        exact hkv4

/-- A freshly allocated object satisfies the invariant. -/
theorem with_capacity_inv (hash : K → ℕ) (cap : ℕ) :
    Inv hash (with_capacity cap : IObject K V) := by
  unfold with_capacity new
  split
  · next h =>
      subst h
      refine ⟨by simp [hash_capacity], le_refl 0, ?_, ?_, ?_, List.nodup_nil, ?_, ?_⟩
      · intro b i h2
        rw [tget_oob _ _ (by simp)] at h2
        exact Option.noConfusion h2
      · intro b1 b2 i h1 h2
        rw [tget_oob _ _ (by simp)] at h1
        exact Option.noConfusion h1
      · intro i hi
        simp at hi
      · intro b i kv h1 h2
        rw [tget_oob _ _ (by simp)] at h1
        exact Option.noConfusion h1
      · intro h1 _
        simp at h1
  · next h =>
      refine ⟨by simp, by simp, ?_, ?_, ?_, List.nodup_nil, ?_, ?_⟩
      · intro b i h2
        rw [tget_replicate] at h2
        exact Option.noConfusion h2
      · intro b1 b2 i h1 h2
        rw [tget_replicate] at h1
        exact Option.noConfusion h1
      · intro i hi
        simp at hi
      · intro b i kv h1 h2
        rw [tget_replicate] at h1
        exact Option.noConfusion h1
      · intro h1 _
        simp at h1

/-- Replacing the value of a stored entry (key unchanged) preserves the
invariant. -/
theorem set_value_inv (hash : K → ℕ) {o : IObject K V} (hinv : Inv hash o)
    {idx : ℕ} {kv : K × V} (hkv : o.items.get? idx = some kv) (v : V) :
    Inv hash (⟨o.cap, o.items.set idx (kv.1, v), o.table⟩ : IObject K V) := by
  have hkeys : (o.items.set idx (kv.1, v)).map Prod.fst = o.items.map Prod.fst := by
    rw [List.map_set]
    apply List.ext_get?
    intro n
    rcases eq_or_ne idx n with rfl | hne
    · have hlt : idx < (List.map Prod.fst o.items).length := by
        rw [List.length_map]
        exact lt_length_of_get?_some hkv
      rw [List.get?_set_eq_of_lt _ hlt, List.get?_map, hkv]
      rfl
    · rw [List.get?_set_ne _ _ hne]
  have hsame : ∀ i2 kv2, (o.items.set idx (kv.1, v)).get? i2 = some kv2 →
      ∃ kv2o, o.items.get? i2 = some kv2o ∧ kv2o.1 = kv2.1 := by
    intro i2 kv2 h2
    rcases eq_or_ne idx i2 with rfl | hne
    · rw [List.get?_set_eq_of_lt _ (lt_length_of_get?_some hkv)] at h2
      injection h2 with h3
      exact ⟨kv, hkv, by rw [← h3]⟩
    · rw [List.get?_set_ne _ _ hne] at h2
      exact ⟨kv2, h2, rfl⟩
  have hsame2 : ∀ i2 kv2o, o.items.get? i2 = some kv2o →
      ∃ kv2, (o.items.set idx (kv.1, v)).get? i2 = some kv2 ∧ kv2.1 = kv2o.1 := by
    intro i2 kv2o h2
    rcases eq_or_ne idx i2 with rfl | hne
    · refine ⟨(kv.1, v), List.get?_set_eq_of_lt _ (lt_length_of_get?_some hkv), ?_⟩
      rw [hkv] at h2
      injection h2 with h3
      rw [← h3]
    · exact ⟨kv2o, by rw [List.get?_set_ne _ _ hne]; exact h2, rfl⟩
  refine ⟨hinv.lenT, by rw [List.length_set]; exact hinv.lenI, ?_, hinv.inj, ?_, ?_, ?_, ?_⟩
  · intro b i h
    rw [List.length_set]
    exact hinv.slot b i h
  · intro i hi
    rw [List.length_set] at hi
    exact hinv.surj i hi
  · rw [hkeys]
    exact hinv.nodup
  · intro b2 i2 kv2 h2 hkv2 hdpos
    obtain ⟨kv2o, ho1, ho2⟩ := hsame i2 kv2 hkv2
    rw [← ho2] at hdpos
    obtain ⟨i3, kv3, q1, q2, q3⟩ := hinv.robin b2 i2 kv2o h2 ho1 hdpos
    obtain ⟨kv3n, hn1, hn2⟩ := hsame2 i3 kv3 q2
    refine ⟨i3, kv3n, q1, hn1, ?_⟩
    rw [← ho2, hn2]
    exact q3
  · intro hpos hfull
    rw [List.length_set] at hpos hfull
    obtain ⟨b2, i2, kv2o, q1, q2, q3⟩ := hinv.full0 hpos hfull
    obtain ⟨kv2, hn1, hn2⟩ := hsame2 i2 kv2o q2
    refine ⟨b2, i2, kv2, q1, hn1, ?_⟩
    rw [hn2]
    exact q3

/-- Association lookup ignores a value-only update at a different key. -/
theorem getEntry_set_ne [DecidableEq K] :
    ∀ (l : List (K × V)) (i : ℕ) (kvold kvnew : K × V),
      l.get? i = some kvold → kvold.1 = kvnew.1 →
      ∀ k2, k2 ≠ kvnew.1 → getEntry (l.set i kvnew) k2 = getEntry l k2 := by
  intro l
  induction l with
  | nil =>
    intro i kvold kvnew h
    rw [List.get?_len_le (by simp)] at h
    exact absurd h (fun h2 => Option.noConfusion h2)
  | cons a t ih =>
    intro i kvold kvnew hget hkeq k2 hk2
    cases i with
    | zero =>
      rw [List.get?_eq_getElem?] at hget
      simp at hget
      show getEntry (kvnew :: t) k2 = getEntry (a :: t) k2
      unfold getEntry
      rw [List.find?_cons, List.find?_cons]
      have h1 : (decide (kvnew.1 = k2)) = false := by
        simp
        exact fun h => hk2 h.symm
      have h2 : (decide (a.1 = k2)) = false := by
        simp
        rw [hget, hkeq]
        exact fun h => hk2 h.symm
      rw [h1, h2]
    | succ n =>
      rw [List.get?_eq_getElem?] at hget
      simp at hget
      show getEntry (a :: t.set n kvnew) k2 = getEntry (a :: t) k2
      unfold getEntry
      rw [List.find?_cons, List.find?_cons]
      cases hd : decide (a.1 = k2) with
      | true => rfl
      | false =>
        have := ih n kvold kvnew (by rw [List.get?_eq_getElem?]; simp [hget]) hkeq k2 hk2
        unfold getEntry at this
        exact this

/-- Association lookup on an appended fresh pair. -/
theorem getEntry_append_ne [DecidableEq K] (l : List (K × V)) (kv : K × V)
    (k2 : K) (h : k2 ≠ kv.1) : getEntry (l ++ [kv]) k2 = getEntry l k2 := by
  unfold getEntry
  rw [List.find?_append]
  have h1 : List.find? (fun x => decide (x.1 = k2)) [kv] = none := by
    simp
    exact fun h2 => h h2.symm
  rw [h1]
  cases List.find? (fun x => decide (x.1 = k2)) l <;> rfl

/-- The entry-based insert on a reserved object: invariant preservation
and association-map semantics. -/
theorem insertPost_spec [DecidableEq K] (hash : K → ℕ) {o1 : IObject K V}
    (hinv : Inv hash o1) (hspace : o1.items.length < o1.cap) (k : K) (v : V) :
    Inv hash (insertPost hash o1 k v).1 ∧
    get hash (insertPost hash o1 k v).1 k = some v ∧
    (∀ k2, k2 ≠ k → get hash (insertPost hash o1 k v).1 k2 = get hash o1 k2) ∧
    (insertPost hash o1 k v).2 = get hash o1 k := by
  cases hfb : find_bucket hash o1 k with
  | error e =>
    obtain ⟨b, rfl, hinv2⟩ := insert_vacant_inv hash hinv hspace (v := v) hfb
    have hred : insertPost hash o1 k v =
        (⟨o1.cap, o1.items ++ [(k, v)],
          shift (hash_capacity o1.cap) b o1.items.length o1.table⟩, none) := by
      unfold insertPost
      rw [hfb]
      rfl
    rw [hred]
    have hknotin := key_not_stored hash hinv hfb
    refine ⟨hinv2, ?_, ?_, ?_⟩
    · have hnew : (o1.items ++ [(k, v)]).get? o1.items.length = some (k, v) :=
        List.get?_concat_length o1.items (k, v)
      have h2 : get hash (⟨o1.cap, o1.items ++ [(k, v)],
          shift (hash_capacity o1.cap) b o1.items.length o1.table⟩ : IObject K V) k =
          some v := get_found hash hinv2 hnew
      exact h2
    · intro k2 hk2
      rw [get_eq_getEntry hash hinv2 k2, get_eq_getEntry hash hinv k2]
      rw [getEntry_append_ne o1.items (k, v) k2 hk2]
    · rw [get_absent hash hknotin]
  | ok bucket =>
    obtain ⟨idx, kv, hb, hkv, hkey⟩ := find_bucket_go_ok hash o1.items o1.table
      (hash_capacity o1.cap) (hash_bucket hash k (hash_capacity o1.cap)) k
      (hash_capacity o1.cap) 0 bucket hfb
    have hred : insertPost hash o1 k v =
        (⟨o1.cap, o1.items.set idx (kv.1, v), o1.table⟩, some kv.2) := by
      simp only [insertPost, hfb, hb, hkv]
    rw [hred]
    have hinv2 := set_value_inv hash hinv hkv v
    refine ⟨hinv2, ?_, ?_, ?_⟩
    · have hnew : (o1.items.set idx (kv.1, v)).get? idx = some (kv.1, v) :=
        List.get?_set_eq_of_lt _ (lt_length_of_get?_some hkv)
      have h2 : get hash (⟨o1.cap, o1.items.set idx (kv.1, v), o1.table⟩ : IObject K V)
          kv.1 = some v := get_found hash hinv2 hnew
      rw [← hkey]
      exact h2
    · intro k2 hk2
      have hk2b : k2 ≠ (kv.1, v).1 := by
        show k2 ≠ kv.1
        rw [hkey]
        exact hk2
      rw [get_eq_getEntry hash hinv2 k2, get_eq_getEntry hash hinv k2,
        getEntry_set_ne o1.items idx kv (kv.1, v) hkv rfl k2 hk2b]
    · have h2 := get_found hash hinv hkv
      rw [hkey] at h2
      exact h2.symm

/-- The reinsertion fold of resize_internal rebuilds the invariant and
reproduces the items in order. -/
theorem reinsert_fold [DecidableEq K] (hash : K → ℕ) (cap : ℕ) :
    ∀ (l done : List (K × V)) (acc : IObject K V),
      Inv hash acc → acc.items = done → acc.cap = cap →
      done.length + l.length ≤ cap →
      ((done ++ l).map Prod.fst).Nodup →
      Inv hash (l.foldl (reinsert hash) acc) ∧
      (l.foldl (reinsert hash) acc).items = done ++ l ∧
      (l.foldl (reinsert hash) acc).cap = cap := by
  intro l
  induction l with
  | nil =>
    intro done acc h1 h2 h3 _ _
    simp only [List.foldl_nil, List.append_nil]
    exact ⟨h1, h2, h3⟩
  | cons kv l ih =>
    intro done acc h1 h2 h3 hlen hnd
    rw [List.foldl_cons]
    have hfb : ∃ e, find_bucket hash acc kv.1 = .error e := by
      cases hx : find_bucket hash acc kv.1 with
      | error e => exact ⟨e, rfl⟩
      | ok bucket =>
        exfalso
        obtain ⟨idx, kvd, hbd, hkvd, hkeyd⟩ := find_bucket_go_ok hash acc.items
          acc.table (hash_capacity acc.cap)
          (hash_bucket hash kv.1 (hash_capacity acc.cap)) kv.1
          (hash_capacity acc.cap) 0 bucket hx
        have hmem : kv.1 ∈ done.map Prod.fst := by
          rw [← h2, ← hkeyd]
          exact List.mem_map_of_mem Prod.fst (List.get?_mem hkvd)
        have hmem2 : kv.1 ∈ (kv :: l).map Prod.fst := by
          simp
        rw [List.map_append] at hnd
        exact (List.nodup_append.mp hnd).2.2 hmem hmem2
    obtain ⟨e, hfbe⟩ := hfb
    have hspace : acc.items.length < acc.cap := by
      rw [h2, h3]
      simp at hlen
      omega
    obtain ⟨b, rfl, hinv2⟩ := insert_vacant_inv hash h1 hspace (v := kv.2) hfbe
    have hred : reinsert hash acc kv =
        (⟨acc.cap, acc.items ++ [(kv.1, kv.2)],
          shift (hash_capacity acc.cap) b acc.items.length acc.table⟩ : IObject K V) := by
      simp only [reinsert, hfbe, errBucket]
    rw [hred]
    have hstep := ih (done ++ [kv])
      (⟨acc.cap, acc.items ++ [(kv.1, kv.2)],
        shift (hash_capacity acc.cap) b acc.items.length acc.table⟩ : IObject K V)
      hinv2 (by rw [h2]) h3 (by simp; simp at hlen; omega)
      (by rw [List.append_assoc]; simpa using hnd)
    rw [List.append_assoc] at hstep
    simpa using hstep

/-- IObject::resize_internal with enough room: the invariant holds, the
items are preserved, and the capacity is the requested one. -/
theorem resize_internal_spec [DecidableEq K] (hash : K → ℕ) {o : IObject K V}
    (hinv : Inv hash o) {cap : ℕ} (hcap : o.items.length ≤ cap) :
    Inv hash (resize_internal hash o cap) ∧
    (resize_internal hash o cap).items = o.items ∧
    (resize_internal hash o cap).cap = cap := by
  unfold resize_internal
  split
  · next h =>
    subst h
    have hnil : o.items = [] := List.length_eq_zero.mp (by omega)
    rw [hnil]
    exact ⟨with_capacity_inv hash 0, rfl, rfl⟩
  · next h =>
    have := reinsert_fold hash cap o.items [] (with_capacity cap)
      (with_capacity_inv hash cap) (by unfold with_capacity new; split <;> rfl)
      (by unfold with_capacity new; split <;> simp_all) (by simpa using hcap)
      (by simpa using hinv.nodup)
    simpa using this

/-- IObject::reserve: invariant, items and a capacity guarantee. -/
theorem reserve_spec [DecidableEq K] (hash : K → ℕ) {o : IObject K V}
    (hinv : Inv hash o) (additional : ℕ) :
    Inv hash (reserve hash o additional) ∧
    (reserve hash o additional).items = o.items ∧
    o.items.length + additional ≤ (reserve hash o additional).cap := by
  unfold reserve
  split
  · next h => exact ⟨hinv, rfl, h⟩
  · next h =>
    have hcap : o.items.length ≤
        max (o.cap * 2) (max (o.items.length + additional) 4) := by
      have := le_max_left (o.items.length + additional) 4
      have := le_max_right (o.cap * 2) (max (o.items.length + additional) 4)
      omega
    obtain ⟨h1, h2, h3⟩ := resize_internal_spec hash hinv hcap
    refine ⟨h1, h2, ?_⟩
    rw [h3]
    have := le_max_left (o.items.length + additional) 4
    have := le_max_right (o.cap * 2) (max (o.items.length + additional) 4)
    omega

/-- IObject::insert: invariant preservation and full map semantics. -/
theorem insert_spec [DecidableEq K] (hash : K → ℕ) {o : IObject K V}
    (hinv : Inv hash o) (k : K) (v : V) :
    Inv hash (insert hash o k v).1 ∧
    get hash (insert hash o k v).1 k = some v ∧
    (∀ k2, k2 ≠ k → get hash (insert hash o k v).1 k2 = get hash o k2) ∧
    (insert hash o k v).2 = get hash o k := by
  obtain ⟨h1, h2, h3⟩ := reserve_spec hash hinv 1
  have hspace : (reserve hash o 1).items.length < (reserve hash o 1).cap := by
    rw [h2]
    omega
  obtain ⟨g1, g2, g3, g4⟩ := insertPost_spec hash h1 hspace k v
  have hsame : ∀ k2, get hash (reserve hash o 1) k2 = get hash o k2 := by
    intro k2
    rw [get_eq_getEntry hash h1 k2, get_eq_getEntry hash hinv k2, h2]
  unfold insert
  refine ⟨g1, g2, ?_, ?_⟩
  · intro k2 hk2
    rw [g3 k2 hk2, hsame k2]
  · rw [g4, hsame k]
end IObject

namespace IObject

variable {K V : Type}

/-! ### Remove path: support lemmas -/

theorem get?_some_of_lt {α : Type} {l : List α} {n : ℕ} (h : n < l.length) :
    ∃ a, l.get? n = some a := by
  cases hx : l.get? n with
  | none =>
    rw [List.get?_eq_none] at hx
    omega
  | some a => exact ⟨a, rfl⟩

theorem get?_dropLast {α : Type} (l : List α) (i : ℕ) (h : i < l.length - 1) :
    l.dropLast.get? i = l.get? i := by
  rw [List.dropLast_eq_take, List.get?_take h]

theorem nodup_of_get?_inj {α : Type} (l : List α)
    (h : ∀ i j a, l.get? i = some a → l.get? j = some a → i = j) : l.Nodup := by
  induction l with
  | nil => exact List.nodup_nil
  | cons a t ih =>
    refine List.nodup_cons.mpr ⟨?_, ?_⟩
    · intro hmem
      obtain ⟨j, hj⟩ := List.get?_of_mem hmem
      have := h 0 (j + 1) a rfl (by simpa using hj)
      omega
    · exact ih (fun i j b hi hj => by
        have := h (i + 1) (j + 1) b (by simpa using hi) (by simpa using hj)
        omega)

/-- A probe distance of zero means the entry sits at its ideal bucket. -/
theorem distOf_eq_zero_iff (hash : K → ℕ) {H : ℕ} (hH : 0 < H) (pos : ℕ) (k : K)
    (hpos : pos < H) :
    distOf hash H pos k = 0 ↔ hash_bucket hash k H = pos := by
  unfold distOf
  have hhb : hash_bucket hash k H < H := Nat.mod_lt _ hH
  constructor
  · intro h
    by_cases hle : hash_bucket hash k H ≤ pos
    · have h1 : pos + H - hash_bucket hash k H = (pos - hash_bucket hash k H) + H := by
        omega
      rw [h1, Nat.add_mod_right] at h
      have h2 : pos - hash_bucket hash k H < H := by omega
      rw [Nat.mod_eq_of_lt h2] at h
      omega
    · have h1 : pos + H - hash_bucket hash k H < H := by omega
      rw [Nat.mod_eq_of_lt h1] at h
      omega
  · intro h
    rw [h]
    have h1 : pos + H - pos = H := by omega
    rw [h1, Nat.mod_self]

/-- Stepping back one bucket decreases a positive probe distance by
one. -/
theorem dist_pred (hash : K → ℕ) {H : ℕ} (hH : 0 < H) (pos : ℕ) (k : K)
    (hpos : pos < H) (hdpos : 0 < distOf hash H pos k) :
    distOf hash H ((pos + H - 1) % H) k = distOf hash H pos k - 1 := by
  have hhb : hash_bucket hash k H < H := Nat.mod_lt _ hH
  have hd : distOf hash H pos k < H := Nat.mod_lt _ hH
  have hposeq : (hash_bucket hash k H + distOf hash H pos k) % H = pos :=
    add_sub_mod pos _ hpos (le_of_lt hhb)
  have e1 : hash_bucket hash k H + distOf hash H pos k =
      (hash_bucket hash k H + (distOf hash H pos k - 1)) + 1 := by omega
  have e2 : (pos + H - 1) % H = (hash_bucket hash k H + (distOf hash H pos k - 1)) % H := by
    conv_lhs => rw [← hposeq]
    rw [e1, step_back hH]
  show ((pos + H - 1) % H + H - hash_bucket hash k H) % H = distOf hash H pos k - 1
  rw [e2]
  exact dist_scan (hash_bucket hash k H) (distOf hash H pos k - 1) (by omega) hhb

/-- A fully occupied probe table forces as many items as buckets. -/
theorem full_table_len (hash : K → ℕ) {o : IObject K V} (hinv : Inv hash o)
    (hall : ∀ b, b < hash_capacity o.cap → tget o.table b ≠ none) :
    o.items.length = hash_capacity o.cap := by
  classical
  have hocc : ∀ b, b < hash_capacity o.cap → ∃ i, tget o.table b = some i := by
    intro b hb
    cases hx : tget o.table b with
    | none => exact absurd hx (hall b hb)
    | some i => exact ⟨i, rfl⟩
  have hcard : (Finset.range (hash_capacity o.cap)).card ≤
      (Finset.range o.items.length).card := by
    apply Finset.card_le_card_of_injOn (fun b => (tget o.table b).getD 0)
    · intro b hb
      rw [Finset.mem_range] at hb ⊢
      obtain ⟨i, hi⟩ := hocc b hb
      rw [hi]
      exact hinv.slot b i hi
    · intro b1 hb1 b2 hb2 hf
      rw [Finset.mem_coe, Finset.mem_range] at hb1 hb2
      obtain ⟨i1, hi1⟩ := hocc b1 hb1
      obtain ⟨i2, hi2⟩ := hocc b2 hb2
      simp only [hi1, hi2, Option.getD_some] at hf
      subst hf
      exact hinv.inj b1 b2 i1 hi1 hi2
  rw [Finset.card_range, Finset.card_range] at hcard
  have h1 := hinv.lenI
  have h2 := cap_le_hash_capacity o.cap
  omega

/-- find_bucket_from_index_go returns the first scanned bucket holding
`index`. -/
theorem find_from_index_go_found (table : List (Option ℕ)) (index H : ℕ)
    (hH : 0 < H) :
    ∀ (s fuel start : ℕ), s < fuel → start < H →
      tget table ((start + s) % H) = some index →
      (∀ j, j < s → tget table ((start + j) % H) ≠ some index) →
      find_bucket_from_index_go table index H fuel start = some ((start + s) % H) := by
  intro s
  induction s with
  | zero =>
    intro fuel start hf hsH hfound _
    obtain ⟨f, rfl⟩ : ∃ f, fuel = f + 1 := ⟨fuel - 1, by omega⟩
    have h0 : tget table start = some index := by
      have h := hfound
      rwa [Nat.add_zero, Nat.mod_eq_of_lt hsH] at h
    simp only [find_bucket_from_index_go]
    rw [if_pos h0, Nat.add_zero, Nat.mod_eq_of_lt hsH]
  | succ s ih =>
    intro fuel start hf hsH hfound hnot
    obtain ⟨f, rfl⟩ : ∃ f, fuel = f + 1 := ⟨fuel - 1, by omega⟩
    have h0 : ¬ tget table start = some index := by
      have h := hnot 0 (by omega)
      rwa [Nat.add_zero, Nat.mod_eq_of_lt hsH] at h
    simp only [find_bucket_from_index_go]
    rw [if_neg h0]
    have hprem1 : tget table (((start + 1) % H + s) % H) = some index := by
      rw [Nat.mod_add_mod, show start + 1 + s = start + (s + 1) from by omega]
      exact hfound
    have hprem2 : ∀ j, j < s → tget table (((start + 1) % H + j) % H) ≠ some index := by
      intro j hj
      rw [Nat.mod_add_mod, show start + 1 + j = start + (j + 1) from by omega]
      exact hnot (j + 1) (by omega)
    have hrec := ih f ((start + 1) % H) (by omega) (Nat.mod_lt _ hH) hprem1 hprem2
    rw [hrec, Nat.mod_add_mod, show start + 1 + s = start + (s + 1) from by omega]

/-- Whenever some bucket holds `index` for an in-range item,
find_bucket_from_index finds a bucket holding `index`. -/
theorem find_from_index_found (hash : K → ℕ) {o : IObject K V}
    (hlenT : o.table.length = hash_capacity o.cap)
    {index : ℕ} {kv : K × V} (hkv : o.items.get? index = some kv)
    {b : ℕ} (hb : tget o.table b = some index) :
    ∃ b2, find_bucket_from_index hash o index = some b2 ∧
      tget o.table b2 = some index := by
  classical
  have hbH : b < hash_capacity o.cap := by
    have := lt_length_of_tget_some hb
    rwa [hlenT] at this
  have hH : 0 < hash_capacity o.cap := by omega
  have hstartH : hash_bucket hash kv.1 (hash_capacity o.cap) < hash_capacity o.cap :=
    Nat.mod_lt _ hH
  obtain ⟨s1, hs1H, hs1⟩ := exists_offset_of_bucket hH
    (hash_bucket hash kv.1 (hash_capacity o.cap)) b hbH
  have hex : ∃ s, tget o.table
      ((hash_bucket hash kv.1 (hash_capacity o.cap) + s) % hash_capacity o.cap) =
      some index := ⟨s1, by rw [hs1]; exact hb⟩
  have hfind := find_from_index_go_found o.table index (hash_capacity o.cap) hH
    (Nat.find hex) (hash_capacity o.cap)
    (hash_bucket hash kv.1 (hash_capacity o.cap))
    (lt_of_le_of_lt (Nat.find_min' hex (by rw [hs1]; exact hb)) hs1H)
    hstartH (Nat.find_spec hex) (fun j hj => Nat.find_min hex hj)
  refine ⟨(hash_bucket hash kv.1 (hash_capacity o.cap) + Nat.find hex) %
    hash_capacity o.cap, ?_, Nat.find_spec hex⟩
  unfold find_bucket_from_index
  rw [hkv]
  exact hfind

/-- Characterization of unshift as called by remove_bucket: emptying
bucket `B` and unshifting yields a run of `t` displaced entries pulled
back one bucket, a hole at scan offset `t`, everything else untouched;
the run either covers the whole table (which forces a fully occupied
table) or ends at an empty or ideally placed stopper. -/
theorem unshift_setup (hash : K → ℕ) (items : List (K × V))
    (table : List (Option ℕ)) (H : ℕ) (hH : 0 < H) (hlenT : table.length = H)
    (hslot : ∀ b i, tget table b = some i → i < items.length)
    {B index : ℕ} (hBH : B < H) (hB : tget table B = some index) :
    ∃ t, t ≤ H - 1 ∧
      (unshift hash items H B (table.set B none)).length = H ∧
      (∀ j, 1 ≤ j → j ≤ t →
        tget (unshift hash items H B (table.set B none)) ((B + (j - 1)) % H) =
          tget table ((B + j) % H)) ∧
      tget (unshift hash items H B (table.set B none)) ((B + t) % H) = none ∧
      (∀ b2, (∀ j, j ≤ t → b2 ≠ (B + j) % H) →
        tget (unshift hash items H B (table.set B none)) b2 = tget table b2) ∧
      (∀ j, 1 ≤ j → j ≤ t → ∃ idx kv,
        tget table ((B + j) % H) = some idx ∧
        items.get? idx = some kv ∧
        0 < distOf hash H ((B + j) % H) kv.1) ∧
      ((t = H - 1 ∧ ∀ b, b < H → tget table b ≠ none) ∨
       (t < H - 1 ∧
        (tget table ((B + (t + 1)) % H) = none ∨
         ∃ idx kv, tget table ((B + (t + 1)) % H) = some idx ∧
           items.get? idx = some kv ∧
           distOf hash H ((B + (t + 1)) % H) kv.1 = 0))) := by
  classical
  have hBmod : B % H = B := Nat.mod_eq_of_lt hBH
  have hBne : ∀ j, 1 ≤ j → j ≤ H - 1 → B ≠ (B + j) % H := by
    intro j h1 h2
    have h := scan_ne0 hH B j (by omega) (by omega)
    rwa [hBmod] at h
  have ht1len : (table.set B none).length = H := by
    rw [List.length_set]
    exact hlenT
  have ht1B : tget (table.set B none) B = none :=
    tget_set_self table B none (by rw [hlenT]; exact hBH)
  have ht1other : ∀ p, p ≠ B → tget (table.set B none) p = tget table p := by
    intro p hp
    exact tget_set_other table B p none (Ne.symm hp)
  have hoffother : ∀ j, 1 ≤ j → j ≤ H - 1 →
      tget (table.set B none) ((B + j) % H) = tget table ((B + j) % H) := by
    intro j h1 h2
    exact ht1other _ (Ne.symm (hBne j h1 h2))
  have hdisp_of : ∀ j, 1 ≤ j → j ≤ H - 1 →
      ¬(tget (table.set B none) ((B + j) % H) = none ∨
        ∃ idx kv, tget (table.set B none) ((B + j) % H) = some idx ∧
          items.get? idx = some kv ∧
          hash_bucket hash kv.1 H = (B + j) % H) →
      ∃ idx kv, tget table ((B + j) % H) = some idx ∧
        items.get? idx = some kv ∧
        hash_bucket hash kv.1 H ≠ (B + j) % H := by
    intro j h1 h2 hnp
    push_neg at hnp
    obtain ⟨hne, hnideal⟩ := hnp
    rw [hoffother j h1 h2] at hne hnideal
    cases hx : tget table ((B + j) % H) with
    | none => exact absurd hx hne
    | some idx =>
      obtain ⟨kv, hkv⟩ := get?_some_of_lt (hslot _ _ hx)
      exact ⟨idx, kv, rfl, hkv, hnideal idx kv hx hkv⟩
  by_cases hex : ∃ j, (1 ≤ j ∧ j ≤ H - 1) ∧
      (tget (table.set B none) ((B + j) % H) = none ∨
        ∃ idx kv, tget (table.set B none) ((B + j) % H) = some idx ∧
          items.get? idx = some kv ∧
          hash_bucket hash kv.1 H = (B + j) % H)
  · obtain ⟨⟨hj01, hj0H⟩, hj0P⟩ := Nat.find_spec hex
    have hmin := fun (m : ℕ) (hm : m < Nat.find hex) => Nat.find_min hex hm
    refine ⟨Nat.find hex - 1, by omega, ?_⟩
    have hdisp2 : ∀ j, 1 ≤ j → j ≤ Nat.find hex - 1 →
        ∃ idx kv, tget table ((B + j) % H) = some idx ∧
          items.get? idx = some kv ∧
          hash_bucket hash kv.1 H ≠ (B + j) % H := by
      intro j h1 h2
      refine hdisp_of j h1 (by omega) ?_
      intro hP
      exact hmin j (by omega) ⟨⟨h1, by omega⟩, hP⟩
    have hspec := unshift_go_spec hash items H B hH (Nat.find hex - 1) (H - 1) 1 B
      (table.set B none) ht1len (le_refl 1) (by omega) (by omega)
      (by simpa using hBmod.symm) ht1B
      (by
        intro j hj1 hj2
        obtain ⟨idx, kv, g1, g2, g3⟩ := hdisp2 j hj1 (by omega)
        exact ⟨idx, kv, by rw [hoffother j hj1 (by omega)]; exact g1, g2, g3⟩)
      (Or.inr ⟨by omega, by
        rw [show 1 + (Nat.find hex - 1) = Nat.find hex from by omega]
        exact hj0P⟩)
    obtain ⟨c1, c2, c3, c4⟩ := hspec
    rw [show unshift hash items H B (table.set B none) =
      unshift_go hash items H B (H - 1) 1 B (table.set B none) from rfl]
    refine ⟨c1, ?_, ?_, ?_, ?_, ?_⟩
    · intro j h1 h2
      have hc := c2 j h1 (by omega)
      rw [hc]
      exact hoffother j h1 (by omega)
    · have hc := c3
      rwa [show 1 + (Nat.find hex - 1) - 1 = Nat.find hex - 1 from by omega] at hc
    · intro b2 havoid
      have hav : ∀ j, 1 - 1 ≤ j → j ≤ 1 + (Nat.find hex - 1) - 1 →
          b2 ≠ (B + j) % H := by
        intro j _ h2
        exact havoid j (by omega)
      rw [c4 b2 hav]
      have hb2B : b2 ≠ B := by
        have h := havoid 0 (by omega)
        rwa [Nat.add_zero, hBmod] at h
      exact ht1other b2 hb2B
    · intro j h1 h2
      obtain ⟨idx, kv, g1, g2, g3⟩ := hdisp2 j h1 h2
      refine ⟨idx, kv, g1, g2, ?_⟩
      have hposH : (B + j) % H < H := Nat.mod_lt _ hH
      rcases Nat.eq_zero_or_pos (distOf hash H ((B + j) % H) kv.1) with h0 | h0
      · exact absurd ((distOf_eq_zero_iff hash hH _ _ hposH).mp h0) g3
      · exact h0
    · refine Or.inr ⟨by omega, ?_⟩
      rw [show Nat.find hex - 1 + 1 = Nat.find hex from by omega]
      rcases hj0P with hP | ⟨idx, kv, hP1, hP2, hP3⟩
      · exact Or.inl (by rw [← hoffother (Nat.find hex) hj01 hj0H]; exact hP)
      · refine Or.inr ⟨idx, kv,
          by rw [← hoffother (Nat.find hex) hj01 hj0H]; exact hP1, hP2, ?_⟩
        have hposH : (B + Nat.find hex) % H < H := Nat.mod_lt _ hH
        exact (distOf_eq_zero_iff hash hH _ _ hposH).mpr hP3
  · have hdisp2 : ∀ j, 1 ≤ j → j ≤ H - 1 →
        ∃ idx kv, tget table ((B + j) % H) = some idx ∧
          items.get? idx = some kv ∧
          hash_bucket hash kv.1 H ≠ (B + j) % H := by
      intro j h1 h2
      exact hdisp_of j h1 h2 (fun hP => hex ⟨j, ⟨h1, h2⟩, hP⟩)
    refine ⟨H - 1, le_refl _, ?_⟩
    have hspec := unshift_go_spec hash items H B hH (H - 1) (H - 1) 1 B
      (table.set B none) ht1len (le_refl 1) (by omega) (le_refl _)
      (by simpa using hBmod.symm) ht1B
      (by
        intro j hj1 hj2
        obtain ⟨idx, kv, g1, g2, g3⟩ := hdisp2 j hj1 (by omega)
        exact ⟨idx, kv, by rw [hoffother j hj1 (by omega)]; exact g1, g2, g3⟩)
      (Or.inl rfl)
    obtain ⟨c1, c2, c3, c4⟩ := hspec
    rw [show unshift hash items H B (table.set B none) =
      unshift_go hash items H B (H - 1) 1 B (table.set B none) from rfl]
    refine ⟨c1, ?_, ?_, ?_, ?_, ?_⟩
    · intro j h1 h2
      have hc := c2 j h1 (by omega)
      rw [hc]
      exact hoffother j h1 (by omega)
    · have hc := c3
      rwa [show 1 + (H - 1) - 1 = H - 1 from by omega] at hc
    · intro b2 havoid
      have hav : ∀ j, 1 - 1 ≤ j → j ≤ 1 + (H - 1) - 1 → b2 ≠ (B + j) % H := by
        intro j _ h2
        exact havoid j (by omega)
      rw [c4 b2 hav]
      have hb2B : b2 ≠ B := by
        have h := havoid 0 (by omega)
        rwa [Nat.add_zero, hBmod] at h
      exact ht1other b2 hb2B
    · intro j h1 h2
      obtain ⟨idx, kv, g1, g2, g3⟩ := hdisp2 j h1 h2
      refine ⟨idx, kv, g1, g2, ?_⟩
      have hposH : (B + j) % H < H := Nat.mod_lt _ hH
      rcases Nat.eq_zero_or_pos (distOf hash H ((B + j) % H) kv.1) with h0 | h0
      · exact absurd ((distOf_eq_zero_iff hash hH _ _ hposH).mp h0) g3
      · exact h0
    · refine Or.inl ⟨rfl, ?_⟩
      intro b hb
      obtain ⟨s, hsH, hse⟩ := exists_offset_of_bucket hH B b hb
      rcases Nat.eq_zero_or_pos s with h0 | h0
      · subst h0
        rw [Nat.add_zero, hBmod] at hse
        rw [← hse, hB]
        exact fun h => Option.noConfusion h
      · obtain ⟨idx, kv, g1, _, _⟩ := hdisp2 s h0 (by omega)
        rw [← hse, g1]
        exact fun h => Option.noConfusion h

/-- The probe table produced by the unshift step of remove_bucket:
slots stay valid and avoid the removed index, pointers stay unique and
cover all remaining items, and the Robin Hood condition holds with
respect to the old dense array. -/
theorem unshift_remove_spec (hash : K → ℕ) {o : IObject K V}
    (hinv : Inv hash o) {B index : ℕ} (hB : tget o.table B = some index)
    {table2 : List (Option ℕ)}
    (ht2 : table2 = unshift hash o.items (hash_capacity o.cap) B
      (o.table.set B none)) :
    table2.length = hash_capacity o.cap ∧
    (∀ b2 i2, tget table2 b2 = some i2 → i2 < o.items.length ∧ i2 ≠ index) ∧
    (∀ b2 b3 i2, tget table2 b2 = some i2 → tget table2 b3 = some i2 → b2 = b3) ∧
    (∀ i2, i2 < o.items.length → i2 ≠ index → ∃ b2, tget table2 b2 = some i2) ∧
    (∀ b2 i2 kv2, tget table2 b2 = some i2 → o.items.get? i2 = some kv2 →
      0 < distOf hash (hash_capacity o.cap) b2 kv2.1 →
      ∃ i3 kv3,
        tget table2 ((b2 + hash_capacity o.cap - 1) % hash_capacity o.cap) =
          some i3 ∧
        o.items.get? i3 = some kv3 ∧
        distOf hash (hash_capacity o.cap) b2 kv2.1 ≤
          distOf hash (hash_capacity o.cap)
            ((b2 + hash_capacity o.cap - 1) % hash_capacity o.cap) kv3.1 + 1) := by
  have hBH : B < hash_capacity o.cap := by
    have := lt_length_of_tget_some hB
    rwa [hinv.lenT] at this
  have hH : 0 < hash_capacity o.cap := by omega
  have hidxlen : index < o.items.length := hinv.slot B index hB
  obtain ⟨kvR, hkvR⟩ := get?_some_of_lt hidxlen
  obtain ⟨t, htH, c1, cmove, chole, cother, cdisp, cstop⟩ :=
    unshift_setup hash o.items o.table (hash_capacity o.cap) hH hinv.lenT
      hinv.slot hBH hB
  rw [← ht2] at c1 cmove chole cother
  have hBmod : B % hash_capacity o.cap = B := Nat.mod_eq_of_lt hBH
  have hoffne : ∀ j, 1 ≤ j → j ≤ hash_capacity o.cap - 1 →
      B ≠ (B + j) % hash_capacity o.cap := by
    intro j h1 h2
    have h := scan_ne0 hH B j (by omega) (by omega)
    rwa [hBmod] at h
  have hposinj : ∀ j j', j ≤ hash_capacity o.cap - 1 →
      j' ≤ hash_capacity o.cap - 1 →
      (B + j) % hash_capacity o.cap = (B + j') % hash_capacity o.cap → j = j' := by
    intro j j' hj hj' he
    by_contra hne
    rcases Nat.lt_or_ge j j' with hlt | hge
    · exact scan_ne hH B j j' hlt (by omega) he
    · exact scan_ne hH B j' j (by omega) (by omega) he.symm
  have hsource : ∀ b2 i2, tget table2 b2 = some i2 →
      (∃ j, 1 ≤ j ∧ j ≤ t ∧ b2 = (B + (j - 1)) % hash_capacity o.cap ∧
        tget o.table ((B + j) % hash_capacity o.cap) = some i2) ∨
      ((∀ j, j ≤ t → b2 ≠ (B + j) % hash_capacity o.cap) ∧
        tget o.table b2 = some i2) := by
    intro b2 i2 h2
    by_cases hcase : ∀ j, j ≤ t → b2 ≠ (B + j) % hash_capacity o.cap
    · exact Or.inr ⟨hcase, by rw [← cother b2 hcase]; exact h2⟩
    · push_neg at hcase
      obtain ⟨j2, hj2t, heq⟩ := hcase
      rcases Nat.lt_or_ge j2 t with hlt | hge
      · refine Or.inl ⟨j2 + 1, by omega, by omega,
          by rw [Nat.add_sub_cancel]; exact heq, ?_⟩
        have hmv := cmove (j2 + 1) (by omega) (by omega)
        rw [Nat.add_sub_cancel, ← heq] at hmv
        rw [← hmv]
        exact h2
      · have hj2e : j2 = t := by omega
        subst hj2e
        rw [← heq] at chole
        rw [chole] at h2
        exact Option.noConfusion h2
  refine ⟨c1, ?_, ?_, ?_, ?_⟩
  · intro b2 i2 h2
    rcases hsource b2 i2 h2 with ⟨j, hj1, hjt, hbeq, hold⟩ | ⟨havoid, hold⟩
    · refine ⟨hinv.slot _ _ hold, ?_⟩
      intro hie
      subst hie
      have he := hinv.inj _ B i2 hold hB
      exact hoffne j hj1 (by omega) he.symm
    · refine ⟨hinv.slot _ _ hold, ?_⟩
      intro hie
      subst hie
      have he := hinv.inj _ B i2 hold hB
      exact (havoid 0 (Nat.zero_le _))
        (by rw [Nat.add_zero, hBmod]; exact he)
  · intro b2 b3 i2 h2 h3
    rcases hsource b2 i2 h2 with ⟨j, hj1, hjt, hbeq, hold⟩ | ⟨havoid, hold⟩ <;>
      rcases hsource b3 i2 h3 with ⟨j', hj1', hjt', hbeq', hold'⟩ | ⟨havoid', hold'⟩
    · have he := hinv.inj _ _ _ hold hold'
      have hj : j = j' := hposinj j j' (by omega) (by omega) he
      rw [hbeq, hbeq', hj]
    · have he := hinv.inj _ _ _ hold hold'
      exact absurd he.symm (havoid' j (by omega))
    · have he := hinv.inj _ _ _ hold hold'
      exact absurd he (havoid j' (by omega))
    · exact hinv.inj _ _ _ hold hold'
  · intro i2 hi2 hne
    obtain ⟨b1, hb1⟩ := hinv.surj i2 hi2
    by_cases hcase : ∀ j, j ≤ t → b1 ≠ (B + j) % hash_capacity o.cap
    · exact ⟨b1, by rw [cother b1 hcase]; exact hb1⟩
    · push_neg at hcase
      obtain ⟨j2, hj2t, heq⟩ := hcase
      rcases Nat.eq_zero_or_pos j2 with h0 | h0
      · subst h0
        rw [Nat.add_zero, hBmod] at heq
        rw [heq, hB] at hb1
        injection hb1 with hbb
        exact absurd hbb.symm hne
      · refine ⟨(B + (j2 - 1)) % hash_capacity o.cap, ?_⟩
        rw [cmove j2 h0 hj2t, ← heq]
        exact hb1
  · intro b2 i2 kv2 h2 hkv2 hdpos
    have hb2H : b2 < hash_capacity o.cap := by
      have := lt_length_of_tget_some h2
      rwa [c1] at this
    rcases hsource b2 i2 h2 with ⟨j, hj1, hjt, hbeq, hold⟩ | ⟨havoid, hold⟩
    · have hposjH : (B + j) % hash_capacity o.cap < hash_capacity o.cap :=
        Nat.mod_lt _ hH
      obtain ⟨idx', kv', hghost1, hghost2, hgd⟩ := cdisp j hj1 hjt
      obtain rfl : i2 = idx' := by
        rw [hold] at hghost1
        exact Option.some.inj hghost1
      obtain rfl : kv2 = kv' := by
        rw [hkv2] at hghost2
        exact Option.some.inj hghost2
      have hpred : ((B + j) % hash_capacity o.cap + hash_capacity o.cap - 1) %
          hash_capacity o.cap = (B + (j - 1)) % hash_capacity o.cap := by
        rw [show B + j = B + (j - 1) + 1 from by omega, step_back hH]
      have hdnew : distOf hash (hash_capacity o.cap) b2 kv2.1 =
          distOf hash (hash_capacity o.cap) ((B + j) % hash_capacity o.cap)
            kv2.1 - 1 := by
        rw [hbeq, ← hpred]
        exact dist_pred hash hH _ kv2.1 hposjH hgd
      have hd2 : 2 ≤ distOf hash (hash_capacity o.cap)
          ((B + j) % hash_capacity o.cap) kv2.1 := by omega
      rcases Nat.lt_or_ge 1 j with hj2 | hj2
      · have hpred2 : (b2 + hash_capacity o.cap - 1) % hash_capacity o.cap =
            (B + (j - 2)) % hash_capacity o.cap := by
          rw [hbeq, show B + (j - 1) = B + (j - 2) + 1 from by omega, step_back hH]
        have hmv := cmove (j - 1) (by omega) (by omega)
        rw [show j - 1 - 1 = j - 2 from by omega] at hmv
        obtain ⟨i3, kv3, hg1, hg2, hg3⟩ := cdisp (j - 1) (by omega) (by omega)
        obtain ⟨i5, kv5, hr1, hr2, hr3⟩ := hinv.robin _ _ _ hold hkv2 hgd
        rw [hpred] at hr1 hr3
        obtain rfl : i3 = i5 := by
          rw [hg1] at hr1
          exact Option.some.inj hr1
        obtain rfl : kv3 = kv5 := by
          rw [hg2] at hr2
          exact Option.some.inj hr2
        refine ⟨i3, kv3, ?_, hg2, ?_⟩
        · rw [hpred2, hmv]
          exact hg1
        · have hpred3 : ((B + (j - 1)) % hash_capacity o.cap +
              hash_capacity o.cap - 1) % hash_capacity o.cap =
              (B + (j - 2)) % hash_capacity o.cap := by
            rw [show B + (j - 1) = B + (j - 2) + 1 from by omega, step_back hH]
          have hd3 : distOf hash (hash_capacity o.cap)
              ((B + (j - 2)) % hash_capacity o.cap) kv3.1 =
              distOf hash (hash_capacity o.cap)
                ((B + (j - 1)) % hash_capacity o.cap) kv3.1 - 1 := by
            rw [← hpred3]
            exact dist_pred hash hH _ kv3.1 (Nat.mod_lt _ hH) hg3
          rw [hdnew, hpred2, hd3]
          omega
      · have hj1e : j = 1 := by omega
        subst hj1e
        have hb2B : b2 = B := by
          rw [hbeq]
          show (B + 0) % hash_capacity o.cap = B
          rw [Nat.add_zero, hBmod]
        obtain ⟨i5, kv5, hr1, hr2, hr3⟩ := hinv.robin _ _ _ hold hkv2 hgd
        have hpredB : ((B + 1) % hash_capacity o.cap + hash_capacity o.cap - 1) %
            hash_capacity o.cap = B := by
          rw [step_back hH, hBmod]
        rw [hpredB] at hr1 hr3
        obtain rfl : index = i5 := by
          rw [hB] at hr1
          exact Option.some.inj hr1
        obtain rfl : kvR = kv5 := by
          rw [hkvR] at hr2
          exact Option.some.inj hr2
        have hdR : 0 < distOf hash (hash_capacity o.cap) B kvR.1 := by omega
        rcases cstop with ⟨hteq, hallocc⟩ | ⟨htlt, hstop⟩
        · exfalso
          have hlenH : o.items.length = hash_capacity o.cap :=
            full_table_len hash hinv hallocc
          obtain ⟨b0, i0, kv0, h0a, h0b, h0c⟩ := hinv.full0 (by omega) hlenH
          have hb0H : b0 < hash_capacity o.cap := by
            have := lt_length_of_tget_some h0a
            rwa [hinv.lenT] at this
          obtain ⟨j0, hj0H, hj0e⟩ := exists_offset_of_bucket hH B b0 hb0H
          rcases Nat.eq_zero_or_pos j0 with hz | hz
          · subst hz
            rw [Nat.add_zero, hBmod] at hj0e
            subst hj0e
            obtain rfl : index = i0 := by
              rw [hB] at h0a
              exact Option.some.inj h0a
            obtain rfl : kvR = kv0 := by
              rw [hkvR] at h0b
              exact Option.some.inj h0b
            omega
          · obtain ⟨idxj, kvj, hja, hjb, hjc⟩ := cdisp j0 hz (by omega)
            rw [hj0e] at hja hjc
            obtain rfl : i0 = idxj := by
              rw [h0a] at hja
              exact Option.some.inj hja
            obtain rfl : kv0 = kvj := by
              rw [h0b] at hjb
              exact Option.some.inj hjb
            omega
        · obtain ⟨i6, kv6, hq1, hq2, hq3⟩ := hinv.robin _ _ _ hB hkvR hdR
          have hexpr : B + hash_capacity o.cap - 1 =
              B + (hash_capacity o.cap - 1) := by omega
          have havoid6 : ∀ j', j' ≤ t →
              (B + (hash_capacity o.cap - 1)) % hash_capacity o.cap ≠
              (B + j') % hash_capacity o.cap := by
            intro j' hj' he
            have := hposinj (hash_capacity o.cap - 1) j' (le_refl _) (by omega) he
            omega
          refine ⟨i6, kv6, ?_, hq2, ?_⟩
          · rw [hb2B, hexpr, cother _ havoid6, ← hexpr]
            exact hq1
          · rw [hdnew, hb2B]
            omega
    · obtain ⟨i6, kv6, hq1, hq2, hq3⟩ := hinv.robin _ _ _ hold hkv2 hdpos
      by_cases hcase : ∀ j', j' ≤ t →
          (b2 + hash_capacity o.cap - 1) % hash_capacity o.cap ≠
          (B + j') % hash_capacity o.cap
      · refine ⟨i6, kv6, ?_, hq2, hq3⟩
        rw [cother _ hcase]
        exact hq1
      · push_neg at hcase
        obtain ⟨j2, hj2t, heqp⟩ := hcase
        have hb2succ : b2 = (B + (j2 + 1)) % hash_capacity o.cap := by
          have h1 : ((b2 + hash_capacity o.cap - 1) % hash_capacity o.cap + 1) %
              hash_capacity o.cap = b2 := by
            rw [Nat.mod_add_mod,
              show b2 + hash_capacity o.cap - 1 + 1 = b2 + hash_capacity o.cap
                from by omega,
              Nat.add_mod_right, Nat.mod_eq_of_lt hb2H]
          rw [← h1, heqp, Nat.mod_add_mod, Nat.add_assoc]
        have hj2top : j2 = t := by
          by_contra hne
          exact havoid (j2 + 1) (by omega) hb2succ
        subst hj2top
        rcases cstop with ⟨hteq, _⟩ | ⟨htlt, hstop⟩
        · exfalso
          have hb2B : b2 = B := by
            rw [hb2succ, hteq,
              show B + (hash_capacity o.cap - 1 + 1) = B + hash_capacity o.cap
                from by omega,
              Nat.add_mod_right, hBmod]
          exact havoid 0 (Nat.zero_le _)
            (by rw [Nat.add_zero, hBmod]; exact hb2B)
        · rcases hstop with hnone | ⟨idxs, kvs, hsa, hsb, hsc⟩
          · exfalso
            rw [← hb2succ] at hnone
            rw [hnone] at hold
            exact Option.noConfusion hold
          · exfalso
            rw [← hb2succ] at hsa hsc
            obtain rfl : i2 = idxs := by
              rw [hold] at hsa
              exact Option.some.inj hsa
            obtain rfl : kv2 = kvs := by
              rw [hkv2] at hsb
              exact Option.some.inj hsb
            omega

/-- The Robin Hood condition only depends on the bucket-to-key map. -/
theorem robin_transfer (hash : K → ℕ) (H : ℕ) (T1 T2 : List (Option ℕ))
    (I1 I2 : List (K × V))
    (hkey : ∀ b, (tget T1 b).bind (fun i => (I1.get? i).map Prod.fst) =
      (tget T2 b).bind (fun i => (I2.get? i).map Prod.fst))
    (hrobin1 : ∀ b i kv, tget T1 b = some i → I1.get? i = some kv →
      0 < distOf hash H b kv.1 →
      ∃ i2 kv2, tget T1 ((b + H - 1) % H) = some i2 ∧ I1.get? i2 = some kv2 ∧
        distOf hash H b kv.1 ≤ distOf hash H ((b + H - 1) % H) kv2.1 + 1) :
    ∀ b i kv, tget T2 b = some i → I2.get? i = some kv →
      0 < distOf hash H b kv.1 →
      ∃ i2 kv2, tget T2 ((b + H - 1) % H) = some i2 ∧ I2.get? i2 = some kv2 ∧
        distOf hash H b kv.1 ≤ distOf hash H ((b + H - 1) % H) kv2.1 + 1 := by
  intro b i kv h2 hkv hdpos
  have hkb := hkey b
  rw [h2] at hkb
  have hkb2 : (tget T1 b).bind (fun i => (I1.get? i).map Prod.fst) =
      some kv.1 := by
    rw [hkb]
    show (I2.get? i).map Prod.fst = some kv.1
    rw [hkv]
    rfl
  obtain ⟨i1, hi1, hmap1⟩ := Option.bind_eq_some.mp hkb2
  obtain ⟨kv1, hkv1, hk1⟩ := Option.map_eq_some'.mp hmap1
  obtain ⟨i2, kv2, hq1, hq2, hq3⟩ := hrobin1 b i1 kv1 hi1 hkv1
    (by rw [show distOf hash H b kv1.1 = distOf hash H b kv.1 from by rw [hk1]]
        exact hdpos)
  have hkp := hkey ((b + H - 1) % H)
  rw [hq1] at hkp
  have hkp2 : (tget T2 ((b + H - 1) % H)).bind
      (fun i => (I2.get? i).map Prod.fst) = some kv2.1 := by
    rw [← hkp]
    show (I1.get? i2).map Prod.fst = some kv2.1
    rw [hq2]
    rfl
  obtain ⟨i3, hi3, hmap3⟩ := Option.bind_eq_some.mp hkp2
  obtain ⟨kv3, hkv3, hk3⟩ := Option.map_eq_some'.mp hmap3
  refine ⟨i3, kv3, hi3, hkv3, ?_⟩
  rw [hk3, ← hk1]
  exact hq3

/-- remove_bucket + pop, case where the removed entry is the last one:
no swap fix is needed. -/
theorem remove_nofix_spec [DecidableEq K] (hash : K → ℕ) {o : IObject K V}
    (hinv : Inv hash o) {B index : ℕ} (hB : tget o.table B = some index)
    {kvR : K × V} (hkvR : o.items.get? index = some kvR)
    (hlast : o.items.length - 1 = index) :
    Inv hash (popKV (remove_bucket hash o B)).1 ∧
    (popKV (remove_bucket hash o B)).1.cap = o.cap ∧
    (popKV (remove_bucket hash o B)).2 = some kvR ∧
    (∀ kv2, kv2 ∈ (popKV (remove_bucket hash o B)).1.items ↔
      (kv2 ∈ o.items ∧ kv2 ≠ kvR)) := by
  have hidxlen : index < o.items.length := lt_length_of_get?_some hkvR
  have hH : 0 < hash_capacity o.cap := by
    have := lt_length_of_tget_some hB
    rw [hinv.lenT] at this
    omega
  obtain ⟨hlen2, hslot2, hinj2, hsurj2, hrobin2⟩ :=
    unshift_remove_spec hash hinv hB rfl
  have hred : remove_bucket hash o B = remove_bucket_fix hash o index
      (unshift hash o.items (hash_capacity o.cap) B (o.table.set B none)) := by
    unfold remove_bucket
    rw [hB]
  have hredfix : remove_bucket_fix hash o index
      (unshift hash o.items (hash_capacity o.cap) B (o.table.set B none)) =
      { o with table := (unshift hash o.items (hash_capacity o.cap) B
                          (o.table.set B none)) } := by
    unfold remove_bucket_fix
    rw [if_neg (by omega)]
  have h1 : (popKV (remove_bucket hash o B)).1 =
      (⟨o.cap, o.items.dropLast,
        unshift hash o.items (hash_capacity o.cap) B (o.table.set B none)⟩ :
        IObject K V) := by
    rw [hred, hredfix]
    rfl
  have h2 : (popKV (remove_bucket hash o B)).2 = some kvR := by
    rw [hred, hredfix]
    show o.items.getLast? = some kvR
    rw [List.getLast?_eq_get?, hlast]
    exact hkvR
  have hFget : ∀ i, i < o.items.length - 1 →
      o.items.dropLast.get? i = o.items.get? i := by
    intro i hi
    exact get?_dropLast o.items i hi
  have hkeymap : ∀ b, (tget (unshift hash o.items (hash_capacity o.cap) B
        (o.table.set B none)) b).bind
        (fun i => (o.items.get? i).map Prod.fst) =
      (tget (unshift hash o.items (hash_capacity o.cap) B
        (o.table.set B none)) b).bind
        (fun i => (o.items.dropLast.get? i).map Prod.fst) := by
    intro b
    cases hx : tget (unshift hash o.items (hash_capacity o.cap) B
        (o.table.set B none)) b with
    | none => rfl
    | some i3 =>
      obtain ⟨hi3len, hi3ne⟩ := hslot2 b i3 hx
      show (o.items.get? i3).map Prod.fst = (o.items.dropLast.get? i3).map Prod.fst
      rw [hFget i3 (by omega)]
  have hinvF : Inv hash (⟨o.cap, o.items.dropLast,
      unshift hash o.items (hash_capacity o.cap) B (o.table.set B none)⟩ :
      IObject K V) := by
    have hlenF : o.items.dropLast.length = o.items.length - 1 :=
      List.length_dropLast o.items
    refine ⟨hlen2, ?_, ?_, hinj2, ?_, ?_, ?_, ?_⟩
    · show o.items.dropLast.length ≤ o.cap
      rw [hlenF]
      have := hinv.lenI
      omega
    · intro b i3 h3
      obtain ⟨hi3len, hi3ne⟩ := hslot2 b i3 h3
      show i3 < o.items.dropLast.length
      rw [hlenF]
      omega
    · intro i3 hi3
      rw [hlenF] at hi3
      exact hsurj2 i3 (by omega) (by omega)
    · show (o.items.dropLast.map Prod.fst).Nodup
      rw [List.map_dropLast]
      exact List.Nodup.sublist (List.dropLast_sublist _) hinv.nodup
    · show ∀ b i3 kv3, tget (unshift hash o.items (hash_capacity o.cap) B
          (o.table.set B none)) b = some i3 →
        o.items.dropLast.get? i3 = some kv3 →
        0 < distOf hash (hash_capacity o.cap) b kv3.1 →
        ∃ i4 kv4, tget (unshift hash o.items (hash_capacity o.cap) B
          (o.table.set B none))
          ((b + hash_capacity o.cap - 1) % hash_capacity o.cap) = some i4 ∧
        o.items.dropLast.get? i4 = some kv4 ∧
        distOf hash (hash_capacity o.cap) b kv3.1 ≤
          distOf hash (hash_capacity o.cap)
            ((b + hash_capacity o.cap - 1) % hash_capacity o.cap) kv4.1 + 1
      exact robin_transfer hash (hash_capacity o.cap) _ _ o.items
        o.items.dropLast hkeymap hrobin2
    · intro hpos hfull
      exfalso
      show False
      have hlen3 : o.items.dropLast.length = o.items.length - 1 := hlenF
      have h4 : o.items.dropLast.length = hash_capacity o.cap := hfull
      have := hinv.lenI
      have := cap_le_hash_capacity o.cap
      omega
  refine ⟨by rw [h1]; exact hinvF, by rw [h1], h2, ?_⟩
  intro kv2
  rw [h1]
  show kv2 ∈ o.items.dropLast ↔ kv2 ∈ o.items ∧ kv2 ≠ kvR
  constructor
  · intro hm
    obtain ⟨i, hi⟩ := List.mem_iff_get?.mp hm
    have hiF : i < o.items.dropLast.length := lt_length_of_get?_some hi
    rw [List.length_dropLast] at hiF
    rw [hFget i hiF] at hi
    refine ⟨List.get?_mem hi, ?_⟩
    intro heq
    subst heq
    have := index_eq_of_key_eq hinv.nodup hi hkvR rfl
    omega
  · rintro ⟨hm, hne⟩
    obtain ⟨i, hi⟩ := List.mem_iff_get?.mp hm
    have hilen : i < o.items.length := lt_length_of_get?_some hi
    have hine : i ≠ index := by
      intro he
      subst he
      rw [hkvR] at hi
      exact hne (Option.some.inj hi).symm
    apply List.mem_iff_get?.mpr
    refine ⟨i, ?_⟩
    rw [hFget i (by omega)]
    exact hi

/-- remove_bucket + pop, case where the removed entry is not the last
one: the last entry is swapped into its dense slot and its probe-table
pointer is re-aimed. -/
theorem remove_fix_spec [DecidableEq K] (hash : K → ℕ) {o : IObject K V}
    (hinv : Inv hash o) {B index : ℕ} (hB : tget o.table B = some index)
    {kvR : K × V} (hkvR : o.items.get? index = some kvR)
    (hlast : o.items.length - 1 ≠ index) :
    Inv hash (popKV (remove_bucket hash o B)).1 ∧
    (popKV (remove_bucket hash o B)).1.cap = o.cap ∧
    (popKV (remove_bucket hash o B)).2 = some kvR ∧
    (∀ kv2, kv2 ∈ (popKV (remove_bucket hash o B)).1.items ↔
      (kv2 ∈ o.items ∧ kv2 ≠ kvR)) := by
  have hidxlen : index < o.items.length := lt_length_of_get?_some hkvR
  have hidxlast : index < o.items.length - 1 := by omega
  have hH : 0 < hash_capacity o.cap := by
    have := lt_length_of_tget_some hB
    rw [hinv.lenT] at this
    omega
  obtain ⟨hlen2, hslot2, hinj2, hsurj2, hrobin2⟩ :=
    unshift_remove_spec hash hinv hB rfl
  obtain ⟨kvL, hkvL⟩ := get?_some_of_lt
    (show o.items.length - 1 < o.items.length from by omega)
  obtain ⟨bL, hbL⟩ := hsurj2 (o.items.length - 1) (by omega) hlast
  obtain ⟨b2, hfbi, hb2⟩ := find_from_index_found hash
    (o := { o with table := (unshift hash o.items (hash_capacity o.cap) B
      (o.table.set B none)) }) hlen2 hkvL hbL
  have hred : remove_bucket hash o B = remove_bucket_fix hash o index
      (unshift hash o.items (hash_capacity o.cap) B (o.table.set B none)) := by
    unfold remove_bucket
    rw [hB]
  have hredfix : remove_bucket_fix hash o index
      (unshift hash o.items (hash_capacity o.cap) B (o.table.set B none)) =
      { o with table := ((unshift hash o.items (hash_capacity o.cap) B
                  (o.table.set B none)).set b2 (some index)),
               items := iswap o.items index (o.items.length - 1) } := by
    unfold remove_bucket_fix
    rw [if_pos hlast, hfbi]
  have hiswap : iswap o.items index (o.items.length - 1) =
      (o.items.set index kvL).set (o.items.length - 1) kvR := by
    unfold iswap
    rw [hkvR, hkvL]
  have hlen3 : ((o.items.set index kvL).set (o.items.length - 1) kvR).length =
      o.items.length := by
    rw [List.length_set, List.length_set]
  have hgetLast : ((o.items.set index kvL).set (o.items.length - 1)
      kvR).getLast? = some kvR := by
    rw [List.getLast?_eq_get?, hlen3]
    exact List.get?_set_eq_of_lt _ (by rw [List.length_set]; omega)
  have h1 : (popKV (remove_bucket hash o B)).1 =
      (⟨o.cap, ((o.items.set index kvL).set (o.items.length - 1) kvR).dropLast,
        ((unshift hash o.items (hash_capacity o.cap) B
          (o.table.set B none)).set b2 (some index))⟩ : IObject K V) := by
    rw [hred, hredfix, hiswap]
    rfl
  have h2 : (popKV (remove_bucket hash o B)).2 = some kvR := by
    rw [hred, hredfix, hiswap]
    show ((o.items.set index kvL).set (o.items.length - 1) kvR).getLast? =
      some kvR
    exact hgetLast
  have hFlen : ((o.items.set index kvL).set (o.items.length - 1)
      kvR).dropLast.length = o.items.length - 1 := by
    rw [List.length_dropLast, hlen3]
  have hFget : ∀ i, i < o.items.length - 1 →
      ((o.items.set index kvL).set (o.items.length - 1) kvR).dropLast.get? i =
      if i = index then some kvL else o.items.get? i := by
    intro i hi
    rw [get?_dropLast _ i (by rw [hlen3]; omega)]
    rw [List.get?_set_ne _ _ (show o.items.length - 1 ≠ i from by omega)]
    by_cases hii : i = index
    · subst hii
      rw [if_pos rfl]
      exact List.get?_set_eq_of_lt _ (by omega)
    · rw [if_neg hii]
      exact List.get?_set_ne _ _ (Ne.symm hii)
  have hb2len : b2 < (unshift hash o.items (hash_capacity o.cap) B
      (o.table.set B none)).length := lt_length_of_tget_some hb2
  have ht3b2 : tget ((unshift hash o.items (hash_capacity o.cap) B
      (o.table.set B none)).set b2 (some index)) b2 = some index :=
    tget_set_self _ b2 _ hb2len
  have ht3other : ∀ p, p ≠ b2 →
      tget ((unshift hash o.items (hash_capacity o.cap) B
        (o.table.set B none)).set b2 (some index)) p =
      tget (unshift hash o.items (hash_capacity o.cap) B
        (o.table.set B none)) p := by
    intro p hp
    exact tget_set_other _ b2 p _ (Ne.symm hp)
  have hlastuniq : ∀ p, tget (unshift hash o.items (hash_capacity o.cap) B
      (o.table.set B none)) p = some (o.items.length - 1) → p = b2 := by
    intro p hp
    exact hinj2 p b2 _ hp hb2
  have hkeymap : ∀ b, (tget (unshift hash o.items (hash_capacity o.cap) B
        (o.table.set B none)) b).bind
        (fun i => (o.items.get? i).map Prod.fst) =
      (tget ((unshift hash o.items (hash_capacity o.cap) B
        (o.table.set B none)).set b2 (some index)) b).bind
        (fun i => (((o.items.set index kvL).set (o.items.length - 1)
          kvR).dropLast.get? i).map Prod.fst) := by
    intro b
    by_cases hb : b = b2
    · subst hb
      rw [hb2, ht3b2]
      show (o.items.get? (o.items.length - 1)).map Prod.fst =
        (((o.items.set index kvL).set (o.items.length - 1)
          kvR).dropLast.get? index).map Prod.fst
      rw [hkvL, hFget index hidxlast, if_pos rfl]
    · rw [ht3other b hb]
      cases hx : tget (unshift hash o.items (hash_capacity o.cap) B
          (o.table.set B none)) b with
      | none => rfl
      | some i3 =>
        obtain ⟨hi3len, hi3ne⟩ := hslot2 b i3 hx
        have hi3last : i3 ≠ o.items.length - 1 := fun he =>
          hb (hlastuniq b (by rw [← he]; exact hx))
        show (o.items.get? i3).map Prod.fst =
          (((o.items.set index kvL).set (o.items.length - 1)
            kvR).dropLast.get? i3).map Prod.fst
        rw [hFget i3 (by omega), if_neg hi3ne]
  have hinvF : Inv hash (⟨o.cap,
      ((o.items.set index kvL).set (o.items.length - 1) kvR).dropLast,
      ((unshift hash o.items (hash_capacity o.cap) B
        (o.table.set B none)).set b2 (some index))⟩ : IObject K V) := by
    refine ⟨?_, ?_, ?_, ?_, ?_, ?_, ?_, ?_⟩
    · show ((unshift hash o.items (hash_capacity o.cap) B
        (o.table.set B none)).set b2 (some index)).length = hash_capacity o.cap
      rw [List.length_set]
      exact hlen2
    · show ((o.items.set index kvL).set (o.items.length - 1)
        kvR).dropLast.length ≤ o.cap
      rw [hFlen]
      have := hinv.lenI
      omega
    · intro b3 i3 h3
      have h3b : tget ((unshift hash o.items (hash_capacity o.cap) B
          (o.table.set B none)).set b2 (some index)) b3 = some i3 := h3
      show i3 < ((o.items.set index kvL).set (o.items.length - 1)
        kvR).dropLast.length
      rw [hFlen]
      by_cases hb3 : b3 = b2
      · subst hb3
        rw [ht3b2] at h3b
        obtain rfl : index = i3 := Option.some.inj h3b
        omega
      · rw [ht3other b3 hb3] at h3b
        obtain ⟨hi3len, hi3ne⟩ := hslot2 b3 i3 h3b
        have hi3last : i3 ≠ o.items.length - 1 := fun he =>
          hb3 (hlastuniq b3 (by rw [← he]; exact h3b))
        omega
    · intro b3 b4 i3 h3 h4
      have h3b : tget ((unshift hash o.items (hash_capacity o.cap) B
          (o.table.set B none)).set b2 (some index)) b3 = some i3 := h3
      have h4b : tget ((unshift hash o.items (hash_capacity o.cap) B
          (o.table.set B none)).set b2 (some index)) b4 = some i3 := h4
      by_cases hb3 : b3 = b2 <;> by_cases hb4 : b4 = b2
      · rw [hb3, hb4]
      · subst hb3
        rw [ht3b2] at h3b
        obtain rfl : index = i3 := Option.some.inj h3b
        rw [ht3other b4 hb4] at h4b
        obtain ⟨_, hne⟩ := hslot2 b4 index h4b
        exact absurd rfl hne
      · subst hb4
        rw [ht3b2] at h4b
        obtain rfl : index = i3 := Option.some.inj h4b
        rw [ht3other b3 hb3] at h3b
        obtain ⟨_, hne⟩ := hslot2 b3 index h3b
        exact absurd rfl hne
      · rw [ht3other b3 hb3] at h3b
        rw [ht3other b4 hb4] at h4b
        exact hinj2 b3 b4 i3 h3b h4b
    · intro i3 hi3
      have hi3b : i3 < ((o.items.set index kvL).set (o.items.length - 1)
          kvR).dropLast.length := hi3
      rw [hFlen] at hi3b
      by_cases hii : i3 = index
      · exact ⟨b2, by rw [hii]; exact ht3b2⟩
      · obtain ⟨b4, hb4⟩ := hsurj2 i3 (by omega) hii
        have hb4ne : b4 ≠ b2 := by
          intro he
          rw [he, hb2] at hb4
          have := Option.some.inj hb4
          omega
        exact ⟨b4, by rw [ht3other b4 hb4ne]; exact hb4⟩
    · show (((o.items.set index kvL).set (o.items.length - 1)
        kvR).dropLast.map Prod.fst).Nodup
      apply nodup_of_get?_inj
      intro i j a hi hj
      rw [List.get?_map] at hi hj
      obtain ⟨kvi, hkvi, hki⟩ := Option.map_eq_some'.mp hi
      obtain ⟨kvj, hkvj, hkj⟩ := Option.map_eq_some'.mp hj
      have hiF := lt_length_of_get?_some hkvi
      have hjF := lt_length_of_get?_some hkvj
      rw [hFlen] at hiF hjF
      rw [hFget i hiF] at hkvi
      rw [hFget j hjF] at hkvj
      by_cases hii : i = index <;> by_cases hjj : j = index
      · rw [hii, hjj]
      · rw [if_pos hii] at hkvi
        rw [if_neg hjj] at hkvj
        obtain rfl : kvL = kvi := Option.some.inj hkvi
        exfalso
        have hkeq : kvL.1 = kvj.1 := by rw [hki, hkj]
        have hpe := index_eq_of_key_eq hinv.nodup hkvL hkvj hkeq
        omega
      · rw [if_neg hii] at hkvi
        rw [if_pos hjj] at hkvj
        obtain rfl : kvL = kvj := Option.some.inj hkvj
        exfalso
        have hkeq : kvi.1 = kvL.1 := by rw [hki, hkj]
        have hpe := index_eq_of_key_eq hinv.nodup hkvi hkvL hkeq
        omega
      · rw [if_neg hii] at hkvi
        rw [if_neg hjj] at hkvj
        have hkeq : kvi.1 = kvj.1 := by rw [hki, hkj]
        exact index_eq_of_key_eq hinv.nodup hkvi hkvj hkeq
    · show ∀ b i3 kv3, tget ((unshift hash o.items (hash_capacity o.cap) B
          (o.table.set B none)).set b2 (some index)) b = some i3 →
        ((o.items.set index kvL).set (o.items.length - 1)
          kvR).dropLast.get? i3 = some kv3 →
        0 < distOf hash (hash_capacity o.cap) b kv3.1 →
        ∃ i4 kv4, tget ((unshift hash o.items (hash_capacity o.cap) B
          (o.table.set B none)).set b2 (some index))
          ((b + hash_capacity o.cap - 1) % hash_capacity o.cap) = some i4 ∧
        ((o.items.set index kvL).set (o.items.length - 1)
          kvR).dropLast.get? i4 = some kv4 ∧
        distOf hash (hash_capacity o.cap) b kv3.1 ≤
          distOf hash (hash_capacity o.cap)
            ((b + hash_capacity o.cap - 1) % hash_capacity o.cap) kv4.1 + 1
      exact robin_transfer hash (hash_capacity o.cap) _ _ o.items
        _ hkeymap hrobin2
    · intro hpos hfull
      exfalso
      have h4 : ((o.items.set index kvL).set (o.items.length - 1)
          kvR).dropLast.length = hash_capacity o.cap := hfull
      rw [hFlen] at h4
      have := hinv.lenI
      have := cap_le_hash_capacity o.cap
      omega
  refine ⟨by rw [h1]; exact hinvF, by rw [h1], h2, ?_⟩
  intro kv2
  rw [h1]
  show kv2 ∈ ((o.items.set index kvL).set (o.items.length - 1) kvR).dropLast ↔
    kv2 ∈ o.items ∧ kv2 ≠ kvR
  constructor
  · intro hm
    obtain ⟨i, hi⟩ := List.mem_iff_get?.mp hm
    have hiF := lt_length_of_get?_some hi
    rw [hFlen] at hiF
    rw [hFget i hiF] at hi
    by_cases hii : i = index
    · rw [if_pos hii] at hi
      obtain rfl : kvL = kv2 := Option.some.inj hi
      refine ⟨List.get?_mem hkvL, ?_⟩
      intro heq
      have := index_eq_of_key_eq hinv.nodup hkvL hkvR (by rw [heq])
      omega
    · rw [if_neg hii] at hi
      refine ⟨List.get?_mem hi, ?_⟩
      intro heq
      subst heq
      have := index_eq_of_key_eq hinv.nodup hi hkvR rfl
      exact hii this
  · rintro ⟨hm, hne⟩
    obtain ⟨i, hi⟩ := List.mem_iff_get?.mp hm
    have hilen : i < o.items.length := lt_length_of_get?_some hi
    have hine : i ≠ index := by
      intro he
      subst he
      rw [hkvR] at hi
      exact hne (Option.some.inj hi).symm
    by_cases hil : i = o.items.length - 1
    · subst hil
      obtain rfl : kv2 = kvL := by
        rw [hkvL] at hi
        exact (Option.some.inj hi).symm
      apply List.mem_iff_get?.mpr
      exact ⟨index, by rw [hFget index hidxlast, if_pos rfl]⟩
    · apply List.mem_iff_get?.mpr
      refine ⟨i, ?_⟩
      rw [hFget i (by omega), if_neg hine]
      exact hi

/-- SplitHeaderMut::remove_bucket followed by pop: the invariant is
preserved, the popped pair is exactly the entry the bucket pointed to,
and the dense array afterwards holds exactly the old entries minus that
pair. -/
theorem remove_bucket_pop_spec [DecidableEq K] (hash : K → ℕ) {o : IObject K V}
    (hinv : Inv hash o) {B index : ℕ} (hB : tget o.table B = some index)
    {kvR : K × V} (hkvR : o.items.get? index = some kvR) :
    Inv hash (popKV (remove_bucket hash o B)).1 ∧
    (popKV (remove_bucket hash o B)).1.cap = o.cap ∧
    (popKV (remove_bucket hash o B)).2 = some kvR ∧
    (∀ kv2, kv2 ∈ (popKV (remove_bucket hash o B)).1.items ↔
      (kv2 ∈ o.items ∧ kv2 ≠ kvR)) := by
  by_cases hlast : o.items.length - 1 = index
  · exact remove_nofix_spec hash hinv hB hkvR hlast
  · exact remove_fix_spec hash hinv hB hkvR hlast

/-- With pairwise distinct keys, an entry is determined by its key. -/
theorem mem_key_unique {items : List (K × V)} (hnd : (items.map Prod.fst).Nodup)
    {kv1 kv2 : K × V} (h1 : kv1 ∈ items) (h2 : kv2 ∈ items)
    (hk : kv1.1 = kv2.1) : kv1 = kv2 := by
  obtain ⟨i1, hi1⟩ := List.mem_iff_get?.mp h1
  obtain ⟨i2, hi2⟩ := List.mem_iff_get?.mp h2
  have he := index_eq_of_key_eq hnd hi1 hi2 hk
  subst he
  rw [hi1] at hi2
  exact Option.some.inj hi2

theorem getEntry_eq_some_iff [DecidableEq K] {items : List (K × V)}
    (hnd : (items.map Prod.fst).Nodup) (key : K) (kv : K × V) :
    getEntry items key = some kv ↔ kv ∈ items ∧ kv.1 = key := by
  constructor
  · intro h
    refine ⟨List.mem_of_find?_eq_some h, ?_⟩
    have := List.find?_some h
    simpa using this
  · rintro ⟨hm, hk⟩
    cases hfind : getEntry items key with
    | none =>
      exfalso
      have := List.find?_eq_none.mp hfind kv hm
      simp [hk] at this
    | some kv2 =>
      have hk2 : kv2.1 = key := by
        have := List.find?_some hfind
        simpa using this
      have hm2 : kv2 ∈ items := List.mem_of_find?_eq_some hfind
      rw [mem_key_unique hnd hm2 hm (by rw [hk2, hk])]

theorem getEntry_eq_none_iff [DecidableEq K] {items : List (K × V)} (key : K) :
    getEntry items key = none ↔ ∀ kv ∈ items, kv.1 ≠ key := by
  constructor
  · intro h kv hm
    have := List.find?_eq_none.mp h kv hm
    simpa using this
  · intro h
    apply List.find?_eq_none.mpr
    intro kv hm
    simpa using h kv hm

/-- ObjectIndex::remove: invariant preservation and full map
semantics. -/
theorem remove_spec [DecidableEq K] (hash : K → ℕ) {o : IObject K V}
    (hinv : Inv hash o) (k : K) :
    Inv hash (remove hash o k).1 ∧
    (remove hash o k).2 = getEntry o.items k ∧
    get hash (remove hash o k).1 k = none ∧
    (∀ k2, k2 ≠ k → get hash (remove hash o k).1 k2 = get hash o k2) := by
  unfold remove
  by_cases hz : o.items.length = 0
  · rw [if_pos hz]
    have hnil : o.items = [] := List.length_eq_zero.mp hz
    refine ⟨hinv, ?_, ?_, fun k2 _ => rfl⟩
    · show (none : Option (K × V)) = getEntry o.items k
      rw [hnil]
      rfl
    · show get hash o k = none
      unfold get
      rw [if_pos hz]
  · rw [if_neg hz]
    cases hfb : find_bucket hash o k with
    | error e =>
      have habs := key_not_stored hash hinv hfb
      refine ⟨hinv, ?_, ?_, fun k2 _ => rfl⟩
      · show (none : Option (K × V)) = getEntry o.items k
        symm
        exact (getEntry_eq_none_iff k).mpr habs
      · show get hash o k = none
        exact get_absent hash habs
    | ok bucket =>
      obtain ⟨idx, kv, hb, hkv, hkey⟩ := find_bucket_go_ok hash o.items o.table
        (hash_capacity o.cap) (hash_bucket hash k (hash_capacity o.cap)) k
        (hash_capacity o.cap) 0 bucket hfb
      obtain ⟨hinv2, hcap2, hpop2, hmem2⟩ := remove_bucket_pop_spec hash hinv hb hkv
      have hgE : getEntry o.items k = some kv :=
        (getEntry_eq_some_iff hinv.nodup k kv).mpr ⟨List.get?_mem hkv, hkey⟩
      refine ⟨hinv2, ?_, ?_, ?_⟩
      · show (popKV (remove_bucket hash o bucket)).2 = getEntry o.items k
        rw [hpop2, hgE]
      · show get hash (popKV (remove_bucket hash o bucket)).1 k = none
        rw [get_eq_getEntry hash hinv2 k]
        have hnone : getEntry (popKV (remove_bucket hash o bucket)).1.items k =
            none := by
          apply (getEntry_eq_none_iff k).mpr
          intro kv2 hm hk2
          obtain ⟨hmo, hne⟩ := (hmem2 kv2).mp hm
          exact hne (mem_key_unique hinv.nodup hmo (List.get?_mem hkv)
            (by rw [hk2, hkey]))
        rw [hnone]
        rfl
      · intro k2 hk2
        show get hash (popKV (remove_bucket hash o bucket)).1 k2 = get hash o k2
        rw [get_eq_getEntry hash hinv2 k2, get_eq_getEntry hash hinv k2]
        have hsame : getEntry (popKV (remove_bucket hash o bucket)).1.items k2 =
            getEntry o.items k2 := by
          cases hg : getEntry o.items k2 with
          | none =>
            apply (getEntry_eq_none_iff k2).mpr
            intro kv2 hm
            exact (getEntry_eq_none_iff k2).mp hg kv2 ((hmem2 kv2).mp hm).1
          | some kv2 =>
            obtain ⟨hm2, hk2e⟩ := (getEntry_eq_some_iff hinv.nodup k2 kv2).mp hg
            apply (getEntry_eq_some_iff hinv2.nodup k2 kv2).mpr
            refine ⟨(hmem2 kv2).mpr ⟨hm2, ?_⟩, hk2e⟩
            intro he
            subst he
            exact hk2 (by rw [← hk2e, hkey])
        rw [hsame]

/-- The retain loop preserves the invariant and the capacity. -/
theorem retain_go_inv [DecidableEq K] (hash : K → ℕ) (f : K → V → Bool) :
    ∀ (fuel idx : ℕ) (o : IObject K V), Inv hash o →
      Inv hash (retain_go hash f fuel idx o) ∧
      (retain_go hash f fuel idx o).cap = o.cap := by
  intro fuel
  induction fuel with
  | zero =>
    intro idx o hinv
    exact ⟨hinv, rfl⟩
  | succ fuel ih =>
    intro idx o hinv
    by_cases hlt : idx < o.items.length
    · cases hkv : o.items.get? idx with
      | none =>
        have hred : retain_go hash f (fuel + 1) idx o = o := by
          simp only [retain_go, hkv]
          rw [if_pos hlt]
        rw [hred]
        exact ⟨hinv, rfl⟩
      | some kv =>
        by_cases hf : f kv.1 kv.2 = true
        · have hred : retain_go hash f (fuel + 1) idx o =
              retain_go hash f fuel (idx + 1) o := by
            simp only [retain_go, hkv]
            rw [if_pos hlt, if_pos hf]
          rw [hred]
          exact ih (idx + 1) o hinv
        · obtain ⟨b1, hb1⟩ := hinv.surj idx hlt
          obtain ⟨b2, hfbi, hb2⟩ := find_from_index_found hash hinv.lenT hkv hb1
          have hred : retain_go hash f (fuel + 1) idx o =
              retain_go hash f fuel idx (popKV (remove_bucket hash o b2)).1 := by
            simp only [retain_go, hkv, hfbi]
            rw [if_pos hlt, if_neg hf]
          obtain ⟨hinv2, hcap2, _, _⟩ := remove_bucket_pop_spec hash hinv hb2 hkv
          rw [hred]
          obtain ⟨ha, hbcap⟩ := ih idx _ hinv2
          exact ⟨ha, by rw [hbcap, hcap2]⟩
    · have hred : retain_go hash f (fuel + 1) idx o = o := by
        simp only [retain_go]
        rw [if_neg hlt]
      rw [hred]
      exact ⟨hinv, rfl⟩

/-- IObject::retain preserves the invariant. -/
theorem retain_inv [DecidableEq K] (hash : K → ℕ) (f : K → V → Bool)
    {o : IObject K V} (hinv : Inv hash o) : Inv hash (retain hash f o) := by
  unfold retain
  split
  · exact hinv
  · exact (retain_go_inv hash f o.items.length 0 o hinv).1

/-- IObject::shrink_to_fit preserves the invariant and the items. -/
theorem shrink_to_fit_spec [DecidableEq K] (hash : K → ℕ) {o : IObject K V}
    (hinv : Inv hash o) :
    Inv hash (shrink_to_fit hash o) ∧ (shrink_to_fit hash o).items = o.items := by
  unfold shrink_to_fit
  obtain ⟨h1, h2, h3⟩ := resize_internal_spec hash hinv (le_refl o.items.length)
  exact ⟨h1, h2⟩

/-- The static empty object satisfies the invariant. -/
theorem new_inv (hash : K → ℕ) : Inv hash (new : IObject K V) := by
  have h := with_capacity_inv (K := K) (V := V) hash 0
  have he : (with_capacity 0 : IObject K V) = new := by
    unfold with_capacity
    rw [if_pos rfl]
  rwa [he] at h

theorem get_new [DecidableEq K] (hash : K → ℕ) (k : K) :
    get hash (new : IObject K V) k = none := rfl

end IObject

/-- C3: under the probe-table invariant (which holds for every object
built by the API, starting from the empty object), IObject behaves as a
map: insert makes the key retrievable with the new value and returns the
previously stored value (if any), remove makes get return absence and
returns the removed entry, and both operations leave every other key's
membership and value untouched; the invariant is preserved, so this
holds across arbitrary insert/remove sequences. -/
theorem C3_object_map_semantics {K V : Type} [DecidableEq K] (hash : K → ℕ)
    {o : IObject K V} (hinv : IObject.Inv hash o) (k : K) (v : V) :
    IObject.Inv hash (IObject.insert hash o k v).1 ∧
    IObject.get hash (IObject.insert hash o k v).1 k = some v ∧
    (∀ k2, k2 ≠ k → IObject.get hash (IObject.insert hash o k v).1 k2 =
      IObject.get hash o k2) ∧
    (IObject.insert hash o k v).2 = IObject.get hash o k ∧
    IObject.Inv hash (IObject.remove hash o k).1 ∧
    IObject.get hash (IObject.remove hash o k).1 k = none ∧
    (∀ k2, k2 ≠ k → IObject.get hash (IObject.remove hash o k).1 k2 =
      IObject.get hash o k2) ∧
    (IObject.remove hash o k).2 = IObject.getEntry o.items k ∧
    IObject.Inv hash (IObject.new : IObject K V) ∧
    IObject.get hash (IObject.new : IObject K V) k = none := by
  obtain ⟨i1, i2, i3, i4⟩ := IObject.insert_spec hash hinv k v
  obtain ⟨r1, r2, r3, r4⟩ := IObject.remove_spec hash hinv k
  exact ⟨i1, i2, i3, i4, r1, r3, r4, r2, IObject.new_inv hash,
    IObject.get_new hash k⟩

/-- Witness for C3 at the empty ℕ-to-ℕ object with key 0, value 7. -/
theorem C3_witness :
    IObject.Inv (fun n : ℕ => n) (IObject.new : IObject ℕ ℕ) ∧
    IObject.get (fun n : ℕ => n)
      (IObject.insert (fun n : ℕ => n) (IObject.new : IObject ℕ ℕ) 0 7).1 0 =
      some 7 :=
  ⟨IObject.new_inv _,
    (C3_object_map_semantics (fun n : ℕ => n) (IObject.new_inv _) 0 7).2.1⟩

/-- C5: the structural probe-table invariant Inv — every slot empty or a
valid dense index, and every dense slot referenced by exactly one
probe-table slot — holds for the empty and freshly allocated objects and
is preserved by entry insertion, removal, retain, reserve (with its
rehash) and shrink_to_fit. -/
theorem C5_table_invariant {K V : Type} [DecidableEq K] (hash : K → ℕ)
    {o : IObject K V} (hinv : IObject.Inv hash o) (k : K) (v : V)
    (f : K → V → Bool) (n cap : ℕ) :
    (∀ b i, IObject.tget o.table b = some i → i < o.items.length) ∧
    (∀ i, i < o.items.length → ∃! b, IObject.tget o.table b = some i) ∧
    IObject.Inv hash (IObject.new : IObject K V) ∧
    IObject.Inv hash (IObject.with_capacity (K := K) (V := V) cap) ∧
    IObject.Inv hash (IObject.insert hash o k v).1 ∧
    IObject.Inv hash (IObject.remove hash o k).1 ∧
    IObject.Inv hash (IObject.retain hash f o) ∧
    IObject.Inv hash (IObject.reserve hash o n) ∧
    IObject.Inv hash (IObject.shrink_to_fit hash o) := by
  refine ⟨hinv.slot, ?_, IObject.new_inv hash,
    IObject.with_capacity_inv hash cap,
    (IObject.insert_spec hash hinv k v).1, (IObject.remove_spec hash hinv k).1,
    IObject.retain_inv hash f hinv, (IObject.reserve_spec hash hinv n).1,
    (IObject.shrink_to_fit_spec hash hinv).1⟩
  intro i hi
  obtain ⟨b, hb⟩ := hinv.surj i hi
  exact ⟨b, hb, fun b2 hb2 => hinv.inj b2 b i hb2 hb⟩

/-- Witness for C5 at the empty ℕ-to-ℕ object. -/
theorem C5_witness :
    IObject.Inv (fun n : ℕ => n) (IObject.new : IObject ℕ ℕ) ∧
    IObject.Inv (fun n : ℕ => n)
      (IObject.insert (fun n : ℕ => n) (IObject.new : IObject ℕ ℕ) 0 7).1 :=
  ⟨IObject.new_inv _,
    (C5_table_invariant (fun n : ℕ => n) (IObject.new_inv _) 0 7
      (fun _ _ => true) 1 4).2.2.2.2.1⟩

/-! ## IString interning (src/string.rs) -/

namespace IString

/-- Model of the global string cache of string.rs: the DashSet keyed by
string content (modelled as an association list content ↦ backing
address), an allocator counter handing out fresh addresses, and the
per-address reference counts.  Address 0 is the static EMPTY_HEADER;
alloc only returns addresses below `next`, starting at 1. -/
structure InternState where
  cache : List (String × ℕ)
  next : ℕ
  rc : ℕ → ℕ

/-- IString::intern: the empty string returns the static singleton and
touches nothing; a cached content is upgraded (rc + 1) and its backing
address returned; otherwise a fresh header is allocated, inserted into
the cache and returned with rc 1. -/
def intern (st : InternState) (s : String) : InternState × ℕ :=
  if s = "" then (st, 0)
  else
    match st.cache.find? (fun e => decide (e.1 = s)) with
    | some e =>
      ({ st with rc := fun a => if a = e.2 then st.rc a + 1 else st.rc a }, e.2)
    | none =>
      (⟨st.cache ++ [(s, st.next)], st.next + 1,
        fun a => if a = st.next then 1 else st.rc a⟩, st.next)

/-- Well-formedness of the cache: allocated addresses are positive (the
static address 0 is never handed out by alloc) and below the allocation
watermark, cached contents are nonempty and pairwise distinct, and
distinct contents are backed by distinct addresses. -/
structure InternWF (st : InternState) : Prop where
  next_pos : 0 < st.next
  entries : ∀ e ∈ st.cache, e.1 ≠ "" ∧ 0 < e.2 ∧ e.2 < st.next
  keys : (st.cache.map Prod.fst).Nodup
  addr_inj : ∀ e1 ∈ st.cache, ∀ e2 ∈ st.cache, e1.2 = e2.2 → e1 = e2

theorem find?_key {st : InternState} {s : String} {e : String × ℕ}
    (h : st.cache.find? (fun e => decide (e.1 = s)) = some e) :
    e ∈ st.cache ∧ e.1 = s := by
  refine ⟨List.mem_of_find?_eq_some h, ?_⟩
  have := List.find?_some h
  simpa using this

theorem find?_none {st : InternState} {s : String}
    (h : st.cache.find? (fun e => decide (e.1 = s)) = none) :
    ∀ e ∈ st.cache, e.1 ≠ s := by
  intro e he
  have := List.find?_eq_none.mp h e he
  simpa using this

theorem intern_empty_eq (st : InternState) : intern st "" = (st, 0) := by
  unfold intern
  rw [if_pos rfl]

theorem intern_found_eq {st : InternState} {s : String} {e : String × ℕ}
    (hs : s ≠ "") (h : st.cache.find? (fun e => decide (e.1 = s)) = some e) :
    intern st s =
      ({ st with rc := fun a => if a = e.2 then st.rc a + 1 else st.rc a },
        e.2) := by
  unfold intern
  rw [if_neg hs, h]

theorem intern_fresh_eq {st : InternState} {s : String}
    (hs : s ≠ "") (h : st.cache.find? (fun e => decide (e.1 = s)) = none) :
    intern st s =
      (⟨st.cache ++ [(s, st.next)], st.next + 1,
        fun a => if a = st.next then 1 else st.rc a⟩, st.next) := by
  unfold intern
  rw [if_neg hs, h]

/-- Interning preserves well-formedness. -/
theorem intern_wf {st : InternState} (hwf : InternWF st) (s : String) :
    InternWF (intern st s).1 := by
  by_cases hs : s = ""
  · subst hs
    rw [intern_empty_eq]
    exact hwf
  · cases hfind : st.cache.find? (fun e => decide (e.1 = s)) with
    | some e =>
      rw [intern_found_eq hs hfind]
      exact ⟨hwf.next_pos, hwf.entries, hwf.keys, hwf.addr_inj⟩
    | none =>
      rw [intern_fresh_eq hs hfind]
      have hnotin := find?_none hfind
      refine ⟨(by omega : 0 < st.next + 1), ?_, ?_, ?_⟩
      · intro e he
        show e.1 ≠ "" ∧ 0 < e.2 ∧ e.2 < st.next + 1
        have heb : e ∈ st.cache ++ [(s, st.next)] := he
        rcases List.mem_append.mp heb with h1 | h1
        · obtain ⟨g1, g2, g3⟩ := hwf.entries e h1
          exact ⟨g1, g2, by omega⟩
        · rw [List.mem_singleton] at h1
          subst h1
          exact ⟨hs, hwf.next_pos, by omega⟩
      · show ((st.cache ++ [(s, st.next)]).map Prod.fst).Nodup
        rw [List.map_append]
        apply List.Nodup.append hwf.keys (List.nodup_singleton s)
        intro a ha hb
        rw [List.mem_singleton] at hb
        subst hb
        obtain ⟨e, he, hfst⟩ := List.mem_map.mp ha
        exact hnotin e he hfst
      · intro e1 he1 e2 he2 haddr
        have hb1 : e1 ∈ st.cache ++ [(s, st.next)] := he1
        have hb2 : e2 ∈ st.cache ++ [(s, st.next)] := he2
        rcases List.mem_append.mp hb1 with h1 | h1 <;>
          rcases List.mem_append.mp hb2 with h2 | h2
        · exact hwf.addr_inj e1 h1 e2 h2 haddr
        · rw [List.mem_singleton] at h2
          subst h2
          have := (hwf.entries e1 h1).2.2
          rw [haddr] at this
          exfalso
          revert this
          show ¬ ((s, st.next) : String × ℕ).2 < st.next
          omega
        · rw [List.mem_singleton] at h1
          subst h1
          have := (hwf.entries e2 h2).2.2
          rw [← haddr] at this
          exfalso
          revert this
          show ¬ ((s, st.next) : String × ℕ).2 < st.next
          omega
        · rw [List.mem_singleton] at h1
          rw [List.mem_singleton] at h2
          rw [h1, h2]

/-- Equal contents intern to the same backing address (the second call
hits the cache entry installed by the first). -/
theorem intern_same_addr (st : InternState) (s : String) :
    (intern (intern st s).1 s).2 = (intern st s).2 := by
  by_cases hs : s = ""
  · subst hs
    rw [intern_empty_eq]
    rw [intern_empty_eq]
  · cases hfind : st.cache.find? (fun e => decide (e.1 = s)) with
    | some e =>
      rw [intern_found_eq hs hfind]
      show (intern { st with
        rc := fun a => if a = e.2 then st.rc a + 1 else st.rc a } s).2 = e.2
      rw [intern_found_eq hs (show ({ st with
          rc := fun a => if a = e.2 then st.rc a + 1 else st.rc a } :
          InternState).cache.find? (fun e => decide (e.1 = s)) = some e
        from hfind)]
    | none =>
      rw [intern_fresh_eq hs hfind]
      show (intern (⟨st.cache ++ [(s, st.next)], st.next + 1,
        fun a => if a = st.next then 1 else st.rc a⟩ : InternState) s).2 =
        st.next
      have hfind2 : (st.cache ++ [(s, st.next)]).find?
          (fun e => decide (e.1 = s)) = some (s, st.next) := by
        rw [List.find?_append, hfind]
        simp
      rw [intern_found_eq hs (show (⟨st.cache ++ [(s, st.next)], st.next + 1,
          fun a => if a = st.next then 1 else st.rc a⟩ :
          InternState).cache.find? (fun e => decide (e.1 = s)) =
          some (s, st.next) from hfind2)]

/-- Distinct contents intern to distinct backing addresses. -/
theorem intern_ne_addr {st : InternState} (hwf : InternWF st) {s1 s2 : String}
    (hne : s1 ≠ s2) :
    (intern (intern st s1).1 s2).2 ≠ (intern st s1).2 := by
  by_cases h1 : s1 = ""
  · subst h1
    rw [intern_empty_eq]
    show (intern st s2).2 ≠ 0
    have h2 : s2 ≠ "" := fun h => hne h.symm
    cases hfind : st.cache.find? (fun e => decide (e.1 = s2)) with
    | some e =>
      rw [intern_found_eq h2 hfind]
      show e.2 ≠ 0
      have := (hwf.entries e (find?_key hfind).1).2.1
      omega
    | none =>
      rw [intern_fresh_eq h2 hfind]
      show st.next ≠ 0
      have := hwf.next_pos
      omega
  · cases hfind : st.cache.find? (fun e => decide (e.1 = s1)) with
    | some e =>
      obtain ⟨hmem, hkey⟩ := find?_key hfind
      rw [intern_found_eq h1 hfind]
      show (intern { st with
        rc := fun a => if a = e.2 then st.rc a + 1 else st.rc a } s2).2 ≠ e.2
      by_cases h2 : s2 = ""
      · subst h2
        rw [intern_empty_eq]
        show (0 : ℕ) ≠ e.2
        have := (hwf.entries e hmem).2.1
        omega
      · cases hfind2 : st.cache.find? (fun e => decide (e.1 = s2)) with
        | some e2 =>
          obtain ⟨hmem2, hkey2⟩ := find?_key hfind2
          rw [intern_found_eq h2 (show ({ st with
              rc := fun a => if a = e.2 then st.rc a + 1 else st.rc a } :
              InternState).cache.find? (fun e => decide (e.1 = s2)) = some e2
            from hfind2)]
          show e2.2 ≠ e.2
          intro haddr
          have heq := hwf.addr_inj e2 hmem2 e hmem haddr
          rw [← hkey, ← hkey2, heq] at hne
          exact hne rfl
        | none =>
          rw [intern_fresh_eq h2 (show ({ st with
              rc := fun a => if a = e.2 then st.rc a + 1 else st.rc a } :
              InternState).cache.find? (fun e => decide (e.1 = s2)) = none
            from hfind2)]
          show st.next ≠ e.2
          have := (hwf.entries e hmem).2.2
          omega
    | none =>
      rw [intern_fresh_eq h1 hfind]
      show (intern (⟨st.cache ++ [(s1, st.next)], st.next + 1,
        fun a => if a = st.next then 1 else st.rc a⟩ : InternState) s2).2 ≠
        st.next
      by_cases h2 : s2 = ""
      · subst h2
        rw [intern_empty_eq]
        show (0 : ℕ) ≠ st.next
        have := hwf.next_pos
        omega
      · cases hfind2 : (st.cache ++ [(s1, st.next)]).find?
            (fun e => decide (e.1 = s2)) with
        | some e2 =>
          rw [intern_found_eq h2 (show (⟨st.cache ++ [(s1, st.next)],
              st.next + 1, fun a => if a = st.next then 1 else st.rc a⟩ :
              InternState).cache.find? (fun e => decide (e.1 = s2)) = some e2
            from hfind2)]
          show e2.2 ≠ st.next
          have hmem2 : e2 ∈ st.cache ++ [(s1, st.next)] :=
            List.mem_of_find?_eq_some hfind2
          have hkey2 : e2.1 = s2 := by
            have := List.find?_some hfind2
            simpa using this
          rcases List.mem_append.mp hmem2 with hm | hm
          · have := (hwf.entries e2 hm).2.2
            omega
          · rw [List.mem_singleton] at hm
            subst hm
            rw [show ((s1, st.next) : String × ℕ).1 = s1 from rfl] at hkey2
            exact absurd hkey2 hne
        | none =>
          rw [intern_fresh_eq h2 (show (⟨st.cache ++ [(s1, st.next)],
              st.next + 1, fun a => if a = st.next then 1 else st.rc a⟩ :
              InternState).cache.find? (fun e => decide (e.1 = s2)) = none
            from hfind2)]
          show st.next + 1 ≠ st.next
          omega

/-- Interning the empty string returns the static singleton address with
the state unchanged (no allocation, no refcount update), and no intern
call ever touches the static header's refcount. -/
theorem intern_empty {st : InternState} (hwf : InternWF st) :
    (intern st "").1 = st ∧ (intern st "").2 = 0 ∧
    ∀ s, ((intern st s).1).rc 0 = st.rc 0 := by
  refine ⟨rfl, rfl, ?_⟩
  intro s
  by_cases hs : s = ""
  · subst hs
    rw [intern_empty_eq]
  · cases hfind : st.cache.find? (fun e => decide (e.1 = s)) with
    | some e =>
      rw [intern_found_eq hs hfind]
      show (if 0 = e.2 then st.rc 0 + 1 else st.rc 0) = st.rc 0
      rw [if_neg (by have := (hwf.entries e (find?_key hfind).1).2.1; omega)]
    | none =>
      rw [intern_fresh_eq hs hfind]
      show (if 0 = st.next then 1 else st.rc 0) = st.rc 0
      rw [if_neg (by have := hwf.next_pos; omega)]

end IString

/-- C4: interning is content-keyed: interning the same content again
returns the handle with the identical backing address (so handles
compare equal by pointer comparison), interning a different content
returns a different backing address, and interning the empty string
returns the static empty-string singleton without allocating or
touching any reference count. -/
theorem C4_intern_addresses (st : IString.InternState)
    (hwf : IString.InternWF st) (s1 s2 : String) :
    IString.InternWF (IString.intern st s1).1 ∧
    (s1 = s2 →
      (IString.intern (IString.intern st s1).1 s2).2 =
        (IString.intern st s1).2) ∧
    (s1 ≠ s2 →
      (IString.intern (IString.intern st s1).1 s2).2 ≠
        (IString.intern st s1).2) ∧
    (IString.intern st "").1 = st ∧ (IString.intern st "").2 = 0 ∧
    (∀ s, ((IString.intern st s).1).rc 0 = st.rc 0) := by
  obtain ⟨e1, e2, e3⟩ := IString.intern_empty hwf
  refine ⟨IString.intern_wf hwf s1, ?_, ?_, e1, e2, e3⟩
  · intro he
    subst he
    exact IString.intern_same_addr st s1
  · intro hne
    exact IString.intern_ne_addr hwf hne

/-- Witness for C4 at the empty cache with contents "a" and "b". -/
theorem C4_witness :
    IString.InternWF ⟨[], 1, fun _ => 0⟩ ∧
    (IString.intern
      (IString.intern (⟨[], 1, fun _ => 0⟩ : IString.InternState) "a").1
      "b").2 ≠
      (IString.intern (⟨[], 1, fun _ => 0⟩ : IString.InternState) "a").2 := by
  have hwf : IString.InternWF ⟨[], 1, fun _ => 0⟩ := by
    refine ⟨Nat.one_pos, ?_, ?_, ?_⟩
    · intro e he
      exact absurd he (List.not_mem_nil e)
    · exact List.nodup_nil
    · intro e1 he1
      exact absurd he1 (List.not_mem_nil e1)
  exact ⟨hwf,
    (C4_intern_addresses ⟨[], 1, fun _ => 0⟩ hwf "a" "b").2.2.1 (by decide)⟩

end Ijson